import Mathlib

/-!
Shallow embedding of the yaml-injektr repository (src/yaml_injektr/core.py and
src/yaml_injektr/cli.py) over `List Char`, together with proofs settling the
frozen claims about the front-matter transform engine and the discovery engine.

Python strings are modelled as `List Char`.  Python `str.splitlines`,
`str.rstrip`, `str.strip`, `str.replace`, and the specific regular expressions
used by the source are translated explicitly.  Caveats: Python's `\d` and `\w`
are modelled on ASCII (the repository feeds ASCII file names and payload keys),
and `str.isspace` / regex `\s` are modelled by the Python whitespace set.
-/

namespace YamlInjektr

abbrev Str := List Char

/-- Characters treated as line boundaries by Python `str.splitlines`. -/
def isLineBreak (c : Char) : Bool :=
  c == '\n' || c == '\r' || c == '\x0b' || c == '\x0c' ||
  c == '\x1c' || c == '\x1d' || c == '\x1e' || c == '\x85' ||
  c == ' ' || c == ' '

/-- Python whitespace (`str.isspace`, regex `\s` on `str` patterns). -/
def pyWs (c : Char) : Bool :=
  c == ' ' || c == '\t' || c == '\n' || c == '\r' || c == '\x0b' || c == '\x0c' ||
  c == '\x1c' || c == '\x1d' || c == '\x1e' || c == '\x1f' || c == '\x85' ||
  c == '\xa0' || c == ' ' ||
  (decide (' ' ≤ c) && decide (c ≤ ' ')) ||
  c == ' ' || c == ' ' || c == ' ' || c == ' ' || c == '　'

/-- Python `str.splitlines(keepends=True)`: accumulator holds the current
line reversed; `\r\n` counts as a single terminator. -/
def splitlinesAux (acc : Str) : Str → List Str
  | [] => if acc.isEmpty then [] else [acc.reverse]
  | c :: rest =>
    if c = '\r' then
      match rest with
      | d :: rest2 =>
        if d = '\n' then (acc.reverse ++ ['\r', '\n']) :: splitlinesAux [] rest2
        else (acc.reverse ++ ['\r']) :: splitlinesAux [] (d :: rest2)
      | [] => (acc.reverse ++ ['\r']) :: splitlinesAux [] []
    else if isLineBreak c then (acc.reverse ++ [c]) :: splitlinesAux [] rest
    else splitlinesAux (c :: acc) rest

/-- Python `text.splitlines(keepends=True)`. -/
def splitlines (s : Str) : List Str := splitlinesAux [] s

/-- Python `line.rstrip("\r\n")`. -/
def rstripCRLF (s : Str) : Str :=
  (s.reverse.dropWhile (fun c => c == '\r' || c == '\n')).reverse

/-- Python `s.strip()` (strip whitespace from both ends). -/
def stripWs (s : Str) : Str :=
  ((s.dropWhile pyWs).reverse.dropWhile pyWs).reverse

/-- Python `"\r\n" in text` (substring containment used by detect_newline). -/
def hasCRLF : Str → Bool
  | [] => false
  | c :: rest => "\r\n".data.isPrefixOf (c :: rest) || hasCRLF rest

/-- Python `str.replace(pat, rep)` for a one-character pattern: leftmost,
non-overlapping (every occurrence of `a` becomes `rep`). -/
def replace1 (a : Char) (rep : Str) : Str → Str
  | [] => []
  | c :: rest => if c = a then rep ++ replace1 a rep rest else c :: replace1 a rep rest

/-- Python `str.replace(pat, rep)` for a two-character pattern: leftmost,
non-overlapping (each match consumes both characters). -/
def replace2 (a b : Char) (rep : Str) : Str → Str
  | [] => []
  | [c] => [c]
  | c :: d :: rest =>
    if c = a ∧ d = b then rep ++ replace2 a b rep rest
    else c :: replace2 a b rep (d :: rest)

/-- Marker lines that close a front matter block (`_CLOSE_MARKERS`). -/
def closeMarkers : List Str := ["---".data, "...".data]

/-- Python `_strip_bom` from core.py: drop a single leading U+FEFF. -/
def stripBom (s : Str) : Str :=
  match s with
  | c :: rest => if c = '﻿' then rest else s
  | [] => s

/-- Python `detect_newline` from core.py: CRLF when present, otherwise LF. -/
def detect_newline (text : Str) : Str :=
  if hasCRLF text then "\r\n".data else "\n".data

/-- Python `_coerce_newlines` from core.py:
`text.replace("\r\n", "\n").replace("\r", "\n").replace("\n", newline)`. -/
def coerce_newlines (text : Str) (newline : Str) : Str :=
  replace1 '\n' newline (replace1 '\r' "\n".data (replace2 '\r' '\n' "\n".data text))

/-- Scan lines for the first close marker; return the lines strictly before
it together with the lines strictly after it (`none` when no marker). -/
def scanClose : List Str → Option (List Str × List Str)
  | [] => none
  | l :: ls =>
    if rstripCRLF l ∈ closeMarkers then some ([], ls)
    else (scanClose ls).map (fun p => (l :: p.1, p.2))

/-- Python `normalize_payload_text` from core.py.  A raised `ValueError` is
modelled as `Except.error`. -/
def normalize_payload_text (payload_text : Str) : Except String Str :=
  let payload := stripBom payload_text
  match splitlines payload with
  | [] => .ok payload
  | l0 :: rest =>
    if rstripCRLF l0 ≠ "---".data then .ok payload
    else
      match scanClose rest with
      | some (pre, _) => .ok pre.flatten
      | none => .error "Payload starts with '---' but has no closing marker ('---' or '...')."

/-- Python `_parse_frontmatter` from core.py: returns
(had_frontmatter, frontmatter, body, parse_error). -/
def parse_frontmatter (text : Str) : Bool × Str × Str × String :=
  match splitlines text with
  | [] => (false, [], text, "")
  | l0 :: rest =>
    if rstripCRLF l0 ≠ "---".data then (false, [], text, "")
    else
      match scanClose rest with
      | some (pre, post) => (true, pre.flatten, post.flatten, "")
      | none => (true, [], text, "Front matter starts with '---' but has no closing marker.")

/-- Components of a match of `_UUID_LINE_RE`
(`^uuid(\s*):(\s*)([^\r\n]*)(\r?\n|$)` with MULTILINE). -/
structure UuidMatch where
  key_ws : Str
  post_ws : Str
  value : Str
  line_end : Str
  rest : Str
deriving Repr, DecidableEq

/-- Negation of CR/LF, the `[^\r\n]` character class. -/
def notCRLF (c : Char) : Bool := !(c == '\r' || c == '\n')

/-- Maximal run of `[^\r\n]*` (the regex value group) and the remainder. -/
def takeValueRun (s : Str) : Str × Str :=
  (s.takeWhile notCRLF, s.dropWhile notCRLF)

/-- Match `(\r?\n|$)` at the start of the input; `$` in MULTILINE mode matches
at end of input (the before-newline case is subsumed by `\r?\n`). -/
def matchLE : Str → Option (Str × Str)
  | [] => some ([], [])
  | c :: r =>
    if c = '\n' then some (['\n'], r)
    else if c = '\r' then
      match r with
      | d :: r2 => if d = '\n' then some (['\r', '\n'], r2) else none
      | [] => none
    else none

/-- One backtracking attempt for the post-colon `(\s*)([^\r\n]*)(\r?\n|$)`
part: `k` whitespace characters are kept in the `\s*` group. -/
def postAttempt (ws rest : Str) (k : Nat) : Option (Str × Str × Str × Str) :=
  let tl := ws.drop k ++ rest
  let vr := takeValueRun tl
  (matchLE vr.2).map (fun p => (ws.take k, vr.1, p.1, p.2))

/-- Greedy `\s*` with backtracking: try the maximal k first, then shorter. -/
def tryPostColon (ws rest : Str) : Nat → Option (Str × Str × Str × Str)
  | 0 => postAttempt ws rest 0
  | k + 1 =>
    match postAttempt ws rest (k + 1) with
    | some r => some r
    | none => tryPostColon ws rest k

/-- Attempt to match `_UUID_LINE_RE` at the start of `s`: literal `uuid`,
greedy `\s*`, `:` (only the maximal whitespace run can be followed by the
colon, since `:` is not whitespace), then the post-colon part. -/
def matchUuidAt (s : Str) : Option UuidMatch :=
  if "uuid".data.isPrefixOf s then
    let s1 := s.drop 4
    let kws := s1.takeWhile pyWs
    match s1.dropWhile pyWs with
    | c :: s3 =>
      if c = ':' then
        let pws := s3.takeWhile pyWs
        let s4 := s3.dropWhile pyWs
        match tryPostColon pws s4 pws.length with
        | some (post, v, le, rem) => some ⟨kws, post, v, le, rem⟩
        | none => none
      else none
    | [] => none
  else none

/-- Scan for the next `'\n'` and attempt a match right after it (MULTILINE
`^` anchors right after each `'\n'`); `pre` accumulates the text before the
candidate line start. -/
def uuidSkip (pre : Str) : Str → Option (Str × UuidMatch)
  | [] => none
  | c :: r =>
    if c = '\n' then
      match matchUuidAt r with
      | some m => some (pre ++ [c], m)
      | none => uuidSkip (pre ++ [c]) r
    else uuidSkip (pre ++ [c]) r

/-- Python `_UUID_LINE_RE.search(s)`, returning the text before the leftmost
match (the match starts at position 0 or right after a `'\n'`) and the match
groups. -/
def uuidSearch (s : Str) : Option (Str × UuidMatch) :=
  match matchUuidAt s with
  | some m => some ([], m)
  | none => uuidSkip [] s

/-- Python `_extract_uuid_value` from core.py. -/
def extract_uuid_value (frontmatter_text : Str) : Option Str :=
  (uuidSearch frontmatter_text).map (fun p => stripWs p.2.value)

/-- Python `_replace_first_uuid_value` from core.py. -/
def replace_first_uuid_value (text : Str) (value : Str) : Str × Bool :=
  match uuidSearch text with
  | none => (text, false)
  | some (pre, m) =>
    (pre ++ "uuid".data ++ m.key_ws ++ ':' :: (m.post_ws ++ value ++ m.line_end ++ m.rest), true)

/-- Python `_prepend_uuid_line` from core.py. -/
def prepend_uuid_line (payload : Str) (uuid_value : Str) (newline : Str) : Str :=
  "uuid: ".data ++ uuid_value ++ newline ++ payload

/-- Python `_is_uuidv7_token` from core.py. -/
def is_uuidv7_token (value_text : Str) : Bool :=
  let c0 := stripWs value_text
  let c1 :=
    if 2 ≤ c0.length ∧ c0.head? = c0.getLast? ∧
        (c0.head? = some '"' ∨ c0.head? = some (Char.ofNat 39)) then
      stripWs (c0.drop 1).dropLast
    else c0
  c1 = "{uuidv7}".data

/-- Little-endian base-`b` digits with explicit fuel (`fuel = n` always
suffices, since the argument shrinks at every step). -/
def digitsF (b : Nat) : Nat → Nat → List Nat
  | _, 0 => []
  | 0, n => [n]
  | fuel + 1, n => n % b :: digitsF b fuel (n / b)

/-- Little-endian base-`b` digits of a natural number. -/
def pyDigits (b n : Nat) : List Nat := digitsF b n n

/-- Lowercase hexadecimal rendering of a natural number, Python `f"{n:x}"`. -/
def pyHexLower (n : Nat) : Str :=
  if n = 0 then ['0'] else ((pyDigits 16 n).map Nat.digitChar).reverse

/-- Zero-pad on the left to 32 characters, Python `f"{n:032x}"`. -/
def hex32 (n : Nat) : Str :=
  List.replicate (32 - (pyHexLower n).length) '0' ++ pyHexLower n

/-- Python `generate_uuidv7` from core.py, with the clock reading `unix_ms`
and the two `secrets.randbits` draws made explicit parameters.  `randbits n`
always returns a value below `2^n`; theorems carry those bounds. -/
def generate_uuidv7 (unix_ms rand_a rand_b : Nat) : Str :=
  let ms := unix_ms &&& (2 ^ 48 - 1)
  let value := ((((ms <<< 80) ||| (0x7 <<< 76)) ||| (rand_a <<< 64)) ||| (0b10 <<< 62)) ||| rand_b
  let h := hex32 value
  (h.take 8) ++ '-' :: ((h.drop 8).take 4) ++ '-' :: ((h.drop 12).take 4) ++
    '-' :: ((h.drop 16).take 4) ++ '-' :: ((h.drop 20).take 12)

/-- Transform metadata returned by `transform_markdown` (the `info` dict). -/
structure Info where
  had_frontmatter : Bool
  preserved_uuid : Bool
  generated_uuid : Bool
  error : Bool
  reason : String
deriving Repr, DecidableEq

/-- Python `transform_markdown` from core.py.  The freshly generated
identifier is an explicit argument `genU` (the source calls
`generate_uuidv7()` at the substitution site); a `ValueError` escaping from
`normalize_payload_text` is modelled as `Except.error`. -/
def transform_markdown (text payload_text : Str) (preserve_uuid : Bool) (genU : Str) :
    Except String (Str × Info) :=
  let clean_text := stripBom text
  let newline := detect_newline clean_text
  let pf := parse_frontmatter clean_text
  let had_frontmatter := pf.1
  let existing_frontmatter := pf.2.1
  let body := pf.2.2.1
  let parse_error := pf.2.2.2
  if parse_error ≠ "" then
    .ok (clean_text, ⟨had_frontmatter, false, false, true, parse_error⟩)
  else
    match normalize_payload_text payload_text with
    | .error e => .error e
    | .ok payload0 =>
      let payload := coerce_newlines payload0 newline
      let existing_uuid := if had_frontmatter then extract_uuid_value existing_frontmatter else none
      let step :=
        match preserve_uuid, existing_uuid with
        | true, some u =>
          let r := replace_first_uuid_value payload u
          (if r.2 then r.1 else prepend_uuid_line payload u newline, true, false)
        | _, _ =>
          match uuidSearch payload with
          | some (_, m) =>
            if is_uuidv7_token m.value then
              ((replace_first_uuid_value payload genU).1, false, true)
            else (payload, false, false)
          | none => (payload, false, false)
      let payload2 := step.1
      let payload_block :=
        if payload2 ≠ [] ∧ ¬(payload2.getLast? = some '\n' ∨ payload2.getLast? = some '\r') then
          payload2 ++ newline
        else payload2
      .ok ("---".data ++ newline ++ payload_block ++ "---".data ++ newline ++ body,
        ⟨had_frontmatter, step.2.1, step.2.2, false, ""⟩)

/-- Text component of a transform result, when no exception escaped. -/
def transformText (r : Except String (Str × Info)) : Option Str :=
  match r with
  | .ok p => some p.1
  | .error _ => none

/-- Info component of a transform result, when no exception escaped. -/
def transformInfo (r : Except String (Str × Info)) : Option Info :=
  match r with
  | .ok p => some p.2
  | .error _ => none

/-! CLI-side pure logic from src/yaml_injektr/cli.py: date derivation,
`{file_date}` substitution, and the discovery engine. -/

/-- ASCII word character for the regex `\b` boundary (`\w`). -/
def isWordChar (c : Char) : Bool := c.isAlphanum || c == '_'

/-- ASCII digit value. -/
def digitVal (c : Char) : Nat := c.toNat - 48

/-- Successful `\b`-or-underscore check of `_DAY_PREFIX_RE` at the point just
after the digits: end of input, a non-word character, or a literal `_`. -/
def dayBoundary : Str → Bool
  | [] => true
  | c :: _ => !(isWordChar c) || c == '_'

/-- Python `_DAY_PREFIX_RE.match(stem)`: `^(\d{1,2})(?:\b|_)`, greedy on the
digits; when two digits are present the one-digit backtrack can never succeed
(the second digit is a word character and not `_`). -/
def dayPrefix : Str → Option Nat
  | [] => none
  | c1 :: rest =>
    if c1.isDigit then
      match rest with
      | c2 :: rest2 =>
        if c2.isDigit then
          if dayBoundary rest2 then some (digitVal c1 * 10 + digitVal c2) else none
        else if dayBoundary rest then some (digitVal c1) else none
      | [] => some (digitVal c1)
    else none

/-- Python `PurePath.stem`: the final path component without its suffix. -/
def pyStem (name : Str) : Str :=
  match (List.range name.length).filter (fun i => name.get? i = some '.') |>.getLast? with
  | some i => if 0 < i ∧ i < name.length - 1 then name.take i else name
  | none => name

/-- Final path component of a POSIX path string. -/
def pyBasename (path : Str) : Str :=
  ((path.reverse.takeWhile (fun c => !(c == '/'))).reverse)

/-- Successful match test of `(\d{4})[-_](\d{2})` on seven characters. -/
def ymHit (a b c d s e f : Char) : Bool :=
  a.isDigit && b.isDigit && c.isDigit && d.isDigit && (s == '-' || s == '_') &&
    e.isDigit && f.isDigit

/-- Python `_YEAR_MONTH_PATH_RE.finditer`: all non-overlapping matches of
`(\d{4})[-_](\d{2})`, left to right; a match consumes its seven characters. -/
def ymList : Str → List (Nat × Nat)
  | a :: b :: c :: d :: s :: e :: f :: rest =>
    if ymHit a b c d s e f then
      (digitVal a * 1000 + digitVal b * 100 + digitVal c * 10 + digitVal d,
       digitVal e * 10 + digitVal f) :: ymList rest
    else ymList (b :: c :: d :: s :: e :: f :: rest)
  | _ :: rest => ymList rest
  | [] => []

/-- Python `extract_year_month_from_path` from cli.py: the *last*
non-overlapping match wins; an out-of-range month in that match yields `None`. -/
def extract_year_month_from_path (path_text : Str) : Option (Nat × Nat) :=
  match (ymList path_text).getLast? with
  | none => none
  | some (y, m) => if 1 ≤ m ∧ m ≤ 12 then some (y, m) else none

/-- Gregorian leap year, as implemented by `datetime.date`. -/
def isLeap (y : Nat) : Bool := y % 4 == 0 && (y % 100 != 0 || y % 400 == 0)

/-- Days in a month, as implemented by `datetime.date`. -/
def daysInMonth (y m : Nat) : Nat :=
  if m = 2 then (if isLeap y then 29 else 28)
  else if m = 4 ∨ m = 6 ∨ m = 9 ∨ m = 11 then 30
  else 31

/-- Validity of `datetime.date(y, m, d)` (MINYEAR = 1, MAXYEAR = 9999). -/
def validDate (y m d : Nat) : Bool :=
  1 ≤ y && y ≤ 9999 && 1 ≤ m && m ≤ 12 && 1 ≤ d && d ≤ daysInMonth y m

/-- Per-document date-derivation failures of `process_file` in cli.py. -/
inductive DateErr where
  | missingDay
  | noYearMonth
  | invalidDate
deriving Repr, DecidableEq

/-- Date-derivation section of `process_file` from cli.py (lines 273-297):
the day comes from the mandatory day prefix of `path.stem`; the year-month
from the last path match, falling back to the caller-supplied pair; the
combination must form a valid calendar date. -/
def derive_file_date (path : Str) (fallback_year_month : Option (Nat × Nat)) :
    Except DateErr (Nat × Nat × Nat) :=
  match dayPrefix (pyStem (pyBasename path)) with
  | none => .error .missingDay
  | some day =>
    match (extract_year_month_from_path path).orElse (fun _ => fallback_year_month) with
    | none => .error .noYearMonth
    | some (year, month) =>
      if validDate year month day then .ok (year, month, day) else .error .invalidDate

/-- Left zero-padding of a decimal rendering. -/
def padNat (width n : Nat) : Str :=
  let ds := if n = 0 then ['0'] else ((pyDigits 10 n).map Nat.digitChar).reverse
  List.replicate (width - ds.length) '0' ++ ds

/-- Python `date.isoformat()` for years up to 9999. -/
def isoDate (d : Nat × Nat × Nat) : Str :=
  padNat 4 d.1 ++ '-' :: (padNat 2 d.2.1 ++ '-' :: padNat 2 d.2.2)

/-- Attempt to match `_FILE_DATE_TOKEN_RE` (`\{file_date(?::([^}]+))?\}`) at
the start of the input: the bare token, or a token with a nonempty format
specifier, returning the optional specifier and the rest. -/
def fileDateTokenAt (s : Str) : Option (Option Str × Str) :=
  if "\x7bfile_date".data.isPrefixOf s then
    match s.drop 10 with
    | c :: r =>
      if c = '}' then some (none, r)
      else if c = ':' then
        match r.dropWhile (fun d => !(d == '}')) with
        | _ :: r3 =>
          if r.takeWhile (fun d => !(d == '}')) ≠ [] then
            some (some (r.takeWhile (fun d => !(d == '}'))), r3)
          else none
        | [] => none
      else none
    | [] => none
  else none

def fileDateTokenAt_rest_len {s : Str} {fmt : Option Str} {after : Str}
    (h : fileDateTokenAt s = some (fmt, after)) : after.length < s.length := by
  rw [fileDateTokenAt] at h
  split at h
  · rename_i hpre
    have h10 : 10 ≤ s.length := by
      have := List.IsPrefix.length_le (List.isPrefixOf_iff_prefix.mp hpre)
      simpa using this
    match hd : s.drop 10 with
    | [] => rw [hd] at h; simp at h
    | e :: r =>
      rw [hd] at h
      dsimp only at h
      have hr : r.length + 11 ≤ s.length := by
        have h2 : (e :: r).length = s.length - 10 := by rw [← hd]; simp
        simp at h2
        omega
      by_cases he : e = '}'
      · rw [if_pos he] at h
        have hra : r = after := congrArg Prod.snd (Option.some.inj h)
        subst hra
        omega
      · rw [if_neg he] at h
        by_cases he2 : e = ':'
        · rw [if_pos he2] at h
          match hr2 : r.dropWhile (fun d => !(d == '}')) with
          | [] => rw [hr2] at h; simp at h
          | g :: r3 =>
            rw [hr2] at h
            dsimp only at h
            split at h
            · have hafter : r3 = after := congrArg Prod.snd (Option.some.inj h)
              subst hafter
              have hle : (g :: r3).length ≤ r.length := by
                rw [← hr2]; exact (List.dropWhile_sublist _).length_le
              simp at hle
              omega
            · simp at h
        · rw [if_neg he2] at h
          simp at h
  · simp at h

/-- Worker for `substitute_file_date_tokens`: scan left to right, replacing
each token and continuing after it.  `fuel` bounds the number of steps; every
step consumes at least one character, so `fuel = s.length` always suffices. -/
def substGo (strf : Str → Nat × Nat × Nat → Str) (d : Nat × Nat × Nat) :
    Nat → Str → Str
  | _, [] => []
  | 0, s => s
  | fuel + 1, c :: rest =>
    match fileDateTokenAt (c :: rest) with
    | some (fmt, after) =>
      (match fmt with
       | none => isoDate d
       | some f => strf f d) ++ substGo strf d fuel after
    | none => c :: substGo strf d fuel rest

/-- Python `substitute_file_date_tokens` from cli.py.  The strftime branch
delegates to `strf`, a parameter standing for the platform `strftime`
implementation (an external C-library behaviour). -/
def substitute_file_date_tokens (strf : Str → Nat × Nat × Nat → Str)
    (d : Nat × Nat × Nat) (s : Str) : Str :=
  substGo strf d s.length s

/-- Glob (fnmatch-style) matching of one pattern against one string:
`*`, `?`, and `[...]` classes with ranges and `!` negation; a `[` without a
closing `]` is a literal. -/
def classSpan : Str → Option (Str × Str)
  | [] => none
  | c :: r =>
    if c = ']' then some ([], r)
    else (classSpan r).map (fun p => (c :: p.1, p.2))

/-- Membership of a character in a glob class body (supports `a-z` ranges;
a trailing `-` is a literal). -/
def classMem (c : Char) : Str → Bool
  | a :: b :: d :: r =>
    if b = '-' then (decide (a ≤ c) && decide (c ≤ d)) || classMem c r
    else (a == c) || classMem c (b :: d :: r)
  | [a, b] => (a == c) || (b == c)
  | [a] => a == c
  | [] => false

/-- Body and negation flag of a glob class starting after `[`.  The first
character (after an optional `!`) is always part of the body, so `[]]`
matches a literal `]`. -/
def classParse (s : Str) : Option (Bool × Str × Str) :=
  let neg := s.head? = some '!'
  let s1 := if neg then s.tail else s
  match s1 with
  | c :: r => (classSpan r).map (fun p => (neg, c :: p.1, p.2))
  | [] => none

/-- Worker for the anchored glob match.  `fuel` bounds the number of steps;
every step shrinks `p.length + s.length`, so that sum always suffices. -/
def globMatchF : Nat → Str → Str → Bool
  | _, [], [] => true
  | _, [], _ :: _ => false
  | 0, _ :: _, _ => false
  | fuel + 1, p :: pr, s =>
    if p = '*' then
      globMatchF fuel pr s ||
        (match s with
         | [] => false
         | _ :: sr => globMatchF fuel ('*' :: pr) sr)
    else
      match s with
      | [] => false
      | c :: sr =>
        if p = '?' then globMatchF fuel pr sr
        else if p = '[' then
          match classParse pr with
          | some (neg, body, pr2) =>
            (if neg then !(classMem c body) else classMem c body) && globMatchF fuel pr2 sr
          | none => (p == c) && globMatchF fuel pr sr
        else (p == c) && globMatchF fuel pr sr

/-- fnmatch-style anchored glob matching of a pattern against a string. -/
def globMatch (p s : Str) : Bool := globMatchF (p.length + s.length) p s

/-! Discovery engine (`collect_target_files` from cli.py).  The filesystem is
modelled as a finitely branching tree; `os.walk(topdown)` with in-place
pruning of `dirnames` becomes a recursive traversal that records excluded
child directories and does not descend into them.  The run is modelled with
POSIX semantics (`os.name != "nt"`, so exclusion comparison is
case-sensitive and paths join with `/`). -/

/-- A directory: named subdirectories and file names, in enumeration order. -/
inductive FSTree where
  | mk (dirs : List (Str × FSTree)) (files : List Str)
deriving Repr

/-- Python `str(dirpath / name)` for a relative POSIX path. -/
def pathJoin (dir name : Str) : Str := dir ++ '/' :: name

/-- Components of a POSIX pattern (`PurePosixPath(p).parts` for a relative
pattern; empty components collapse). -/
def pathParts (p : Str) : List Str :=
  (p.splitOn '/').filter (fun c => c ≠ [])

/-- Componentwise glob matching of pattern parts against path parts. -/
def matchZip : List Str → List Str → Bool
  | [], [] => true
  | p :: ps, s :: ss => globMatch p s && matchZip ps ss
  | _, _ => false

/-- Python `PurePosixPath(rel).match(pat)` (as of the Pythons this code
supports, `**` in `match` acts like a non-recursive `*`): a relative pattern
matches from the right; an absolute pattern must cover the whole path. -/
def pathMatch (pat : Str) (relParts : List Str) : Bool :=
  let pp := pathParts pat
  if pp = [] then false
  else if pat.head? = some '/' then
    false
  else
    decide (pp.length ≤ relParts.length) && matchZip pp (relParts.drop (relParts.length - pp.length))

/-- The per-file pattern filter of `collect_target_files`: `**/*.md` is
special-cased, a separator-free pattern is a root-only basename glob, and any
other pattern is path-matched, additionally with a leading `**/` stripped. -/
def fileMatches (pattern : Str) (relParts : List Str) : Bool :=
  let pp := replace1 '\\' "/".data pattern
  if pp = "**/*.md".data then
    pathMatch "**/*.md".data relParts || pathMatch "*.md".data relParts
  else if !pp.contains '/' then
    relParts.length = 1 &&
      (match relParts.getLast? with
       | some n => globMatch pp n
       | none => false)
  else
    pathMatch pp relParts ||
      (if "**/".data.isPrefixOf pp then pathMatch (pp.drop 3) relParts else false)

mutual

/-- One `os.walk` visit: record excluded children as skipped, collect the
matching files of this directory, then descend into the kept children in
order. -/
def walkTree (excl : List Str) (pm : List Str → Bool) (dirPath : Str)
    (rel : List Str) : FSTree → List Str × List Str
  | .mk dirs files =>
    let skippedHere := (dirs.filter (fun d => decide (d.1 ∈ excl))).map
      (fun d => pathJoin dirPath d.1)
    let here := (files.filter (fun f => pm (rel ++ [f]))).map (fun f => pathJoin dirPath f)
    let rest := walkDirs excl pm dirPath rel dirs
    (here ++ rest.1, skippedHere ++ rest.2)

/-- Descend into the children that are not excluded, left to right. -/
def walkDirs (excl : List Str) (pm : List Str → Bool) (dirPath : Str)
    (rel : List Str) : List (Str × FSTree) → List Str × List Str
  | [] => ([], [])
  | (n, sub) :: rest =>
    if n ∈ excl then walkDirs excl pm dirPath rel rest
    else
      let r1 := walkTree excl pm (pathJoin dirPath n) (rel ++ [n]) sub
      let r2 := walkDirs excl pm dirPath rel rest
      (r1.1 ++ r2.1, r1.2 ++ r2.2)

end

/-- Lexicographic order on Python strings (code-point order, a strict prefix
sorts first): the `sort(key=str)` order of cli.py. -/
def strLe : Str → Str → Bool
  | [], _ => true
  | _ :: _, [] => false
  | a :: as, b :: bs => if a = b then strLe as bs else decide (a < b)

/-- `strLe` as a relation, for the sorting lemmas. -/
def SLe (a b : Str) : Prop := strLe a b = true

instance : DecidableRel SLe := fun a b => instDecidableEqBool (strLe a b) true

/-- Python `collect_target_files` from cli.py for a directory target: walk,
prune, filter, then sort both lists lexicographically by full path (Python
`list.sort` is a stable comparison sort; it is modelled by a stable
insertion sort over the same order). -/
def collect_target_files (root : FSTree) (rootPath : Str) (pattern : Str)
    (excl : List Str) : List Str × List Str :=
  let w := walkTree excl (fileMatches pattern) rootPath [] root
  (w.1.insertionSort SLe, w.2.insertionSort SLe)

mutual

/-- Canonical form of a tree: children sorted (stably) by name, files sorted,
subtrees canonicalized.  Two trees have the same canonical form exactly when
they present the same directory contents in possibly different enumeration
orders. -/
def FSTree.canon : FSTree → FSTree
  | .mk dirs files =>
    .mk ((canonDirs dirs).insertionSort (fun a b => SLe a.1 b.1))
      (files.insertionSort SLe)

/-- Canonicalize every subtree of an association list of children. -/
def canonDirs : List (Str × FSTree) → List (Str × FSTree)
  | [] => []
  | (n, t) :: rest => (n, FSTree.canon t) :: canonDirs rest

end

mutual

/-- Well-formed naming: every child-directory name and file name is nonempty
and free of `/`, and sibling directory names are distinct. -/
def FSTree.wf : FSTree → Prop
  | .mk dirs files =>
    (∀ d ∈ dirs, d.1 ≠ [] ∧ '/' ∉ d.1) ∧ (∀ f ∈ files, f ≠ [] ∧ '/' ∉ f) ∧
    (dirs.map Prod.fst).Nodup ∧ files.Nodup ∧ wfDirs dirs

/-- Well-formedness of all subtrees. -/
def wfDirs : List (Str × FSTree) → Prop
  | [] => True
  | (_, t) :: rest => FSTree.wf t ∧ wfDirs rest

end

/-- Spec wording for C9: the tree positions that the walk records as pruned —
an excluded child of the current directory, or a pruned position inside a
child that is itself not excluded (pruned directories are never entered). -/
inductive SkipSpec (excl : List Str) : FSTree → Str → Str → Prop where
  | here (dirs : List (Str × FSTree)) (files : List Str) (dp n : Str) (sub : FSTree) :
      (n, sub) ∈ dirs → n ∈ excl →
      SkipSpec excl (.mk dirs files) dp (pathJoin dp n)
  | deeper (dirs : List (Str × FSTree)) (files : List Str) (dp n : Str) (sub : FSTree)
      (p : Str) : (n, sub) ∈ dirs → n ∉ excl →
      SkipSpec excl sub (pathJoin dp n) p →
      SkipSpec excl (.mk dirs files) dp p

/-- Spec wording for C9: the files the walk returns — a matching file of the
current directory, or a returned file of a child that is not excluded. -/
inductive FileSpec (excl : List Str) (pm : List Str → Bool) :
    FSTree → Str → List Str → Str → Prop where
  | here (dirs : List (Str × FSTree)) (files : List Str) (dp : Str) (rel : List Str)
      (f : Str) : f ∈ files → pm (rel ++ [f]) = true →
      FileSpec excl pm (.mk dirs files) dp rel (pathJoin dp f)
  | deeper (dirs : List (Str × FSTree)) (files : List Str) (dp : Str) (rel : List Str)
      (n : Str) (sub : FSTree) (p : Str) : (n, sub) ∈ dirs → n ∉ excl →
      FileSpec excl pm sub (pathJoin dp n) (rel ++ [n]) p →
      FileSpec excl pm (.mk dirs files) dp rel p

/-- A string with no splitlines break characters. -/
def BreakFree (l : Str) : Bool := l.all (fun c => !isLineBreak c)

/-- A keepends line with a proper terminator: a break-free body followed by
`\r\n` or by a single break character. -/
def TermedLine (l : Str) : Prop :=
  (∃ b, l = b ++ ['\r', '\n'] ∧ BreakFree b) ∨
  (∃ b c, l = b ++ [c] ∧ BreakFree b ∧ isLineBreak c)

/-- Shape of the final line of a keepends split: terminated, or a nonempty
break-free remainder. -/
def GoodLast (l : Str) : Prop := TermedLine l ∨ (BreakFree l ∧ l ≠ [])

/-- Well-formed keepends line lists: every line before the last is terminated,
a line ending in a lone `\r` is never followed by a line starting with `\n`,
and the last line is terminated or a bare remainder. -/
inductive LinesWF : List Str → Prop where
  | nil : LinesWF []
  | single (l : Str) : GoodLast l → LinesWF [l]
  | cons (l l2 : Str) (rest : List Str) : TermedLine l →
      (l.getLast? = some '\r' → l2.head? ≠ some '\n') →
      LinesWF (l2 :: rest) → LinesWF (l :: l2 :: rest)

/-- Spec wording: a text "uses CRLF throughout" when every carriage return
is immediately followed by a line feed and every line feed is immediately
preceded by a carriage return. -/
def crlfOnly : Str → Bool
  | [] => true
  | c :: rest =>
    if c = '\r' then
      match rest with
      | d :: rest2 => if d = '\n' then crlfOnly rest2 else false
      | [] => false
    else if c = '\n' then false
    else crlfOnly rest

/-- The last `k` hexadecimal digits of `n`, big-endian, zero-padded to width
`k`; proof-side normal form for `hex32`. -/
def hexChars : Nat → Nat → Str
  | 0, _ => []
  | k + 1, n => hexChars k (n / 16) ++ [Nat.digitChar (n % 16)]

/-- Spec wording: a lowercase hexadecimal digit. -/
def specHexLower (c : Char) : Bool :=
  ('0' ≤ c && c ≤ '9') || ('a' ≤ c && c ≤ 'f')

/-- Spec wording for the generated-identifier format: a 36-character
8-4-4-4-12 hyphenated lowercase-hexadecimal string whose version nibble
(first digit of the third group) is `7` and whose variant nibble (first
digit of the fourth group) has top two bits `10`, so it reads `8`, `9`,
`a` or `b`. -/
def specUuidFormat (s : Str) : Prop :=
  s.length = 36 ∧
  ∃ g1 g2 g3 g4 g5 : Str,
    s = g1 ++ '-' :: (g2 ++ '-' :: (g3 ++ '-' :: (g4 ++ '-' :: g5))) ∧
    g1.length = 8 ∧ g2.length = 4 ∧ g3.length = 4 ∧ g4.length = 4 ∧
    g5.length = 12 ∧
    (∀ c ∈ g1 ++ g2 ++ g3 ++ g4 ++ g5, specHexLower c) ∧
    g3.head? = some '7' ∧
    ∃ c, g4.head? = some c ∧ (c = '8' ∨ c = '9' ∨ c = 'a' ∨ c = 'b')

theorem splitlinesAux_flatten (acc s : Str) :
    (splitlinesAux acc s).flatten = acc.reverse ++ s := by
  induction acc, s using splitlinesAux.induct with
  | case1 acc hacc => rw [splitlinesAux]; simp_all [List.isEmpty_iff]
  | case2 acc hacc => rw [splitlinesAux]; simp_all [List.isEmpty_iff]
  | case3 acc rest2 ih => rw [splitlinesAux]; simp_all
  | case4 acc d rest2 hd ih => rw [splitlinesAux]; simp_all
  | case5 acc ih => simp_all [splitlinesAux]
  | case6 acc c rest hc hb ih => rw [splitlinesAux.eq_def]; simp_all
  | case7 acc c rest hc hb ih => rw [splitlinesAux.eq_def]; simp_all

theorem flatten_splitlines (s : Str) : (splitlines s).flatten = s := by
  simpa using splitlinesAux_flatten [] s

theorem splitlinesAux_head (acc s : Str) (h : ¬(acc = [] ∧ s = [])) :
    ∃ l L, splitlinesAux acc s = l :: L ∧ l.head? = (acc.reverse ++ s).head? := by
  induction acc, s using splitlinesAux.induct with
  | case1 acc hacc => simp_all [List.isEmpty_iff]
  | case2 acc hacc =>
    rw [splitlinesAux]
    simp_all [List.isEmpty_iff]
  | case3 acc rest2 ih =>
    rw [splitlinesAux]
    simp only [if_pos rfl, reduceIte]
    refine ⟨_, _, rfl, ?_⟩
    cases hr : acc.reverse with
    | nil => simp
    | cons x xs => simp
  | case4 acc d rest2 hd ih =>
    rw [splitlinesAux]
    simp only [if_pos rfl, if_neg hd]
    refine ⟨_, _, rfl, ?_⟩
    cases hr : acc.reverse with
    | nil => simp
    | cons x xs => simp
  | case5 acc ih =>
    rw [splitlinesAux.eq_def]
    simp only [if_pos rfl]
    refine ⟨_, _, rfl, ?_⟩
    cases hr : acc.reverse with
    | nil => simp
    | cons x xs => simp
  | case6 acc c rest hc hb ih =>
    rw [splitlinesAux.eq_def]
    simp only [if_neg hc, hb, reduceIte]
    refine ⟨_, _, rfl, ?_⟩
    cases hrr : acc.reverse with
    | nil => simp
    | cons x xs => simp
  | case7 acc c rest hc hb ih =>
    rw [splitlinesAux.eq_def]
    simp only [if_neg hc, hb, reduceIte]
    obtain ⟨l, L, hL, hhd⟩ := ih (by simp)
    refine ⟨l, L, hL, ?_⟩
    rw [hhd]
    simp

theorem TermedLine.termed_ne_nil {l : Str} (h : TermedLine l) : l ≠ [] := by
  rcases h with ⟨b, hb, -⟩ | ⟨b, c, hb, -, -⟩ <;> subst hb <;> simp

theorem GoodLast.good_ne_nil {l : Str} (h : GoodLast l) : l ≠ [] := by
  rcases h with h | ⟨-, h⟩
  · exact h.termed_ne_nil
  · exact h

theorem LinesWF.head_ne_nil {l : Str} {L : List Str} (h : LinesWF (l :: L)) : l ≠ [] := by
  cases h with
  | single _ hg => exact hg.good_ne_nil
  | cons _ _ _ ht _ _ => exact ht.termed_ne_nil

theorem breakFree_reverse {l : Str} (h : BreakFree l) : BreakFree l.reverse := by
  simp [BreakFree] at h ⊢
  exact h

theorem splitlinesAux_wf (acc s : Str) (hacc : BreakFree acc) :
    LinesWF (splitlinesAux acc s) := by
  induction acc, s using splitlinesAux.induct with
  | case1 acc hy =>
    rw [splitlinesAux]
    simp [hy]
    exact LinesWF.nil
  | case2 acc hy =>
    rw [splitlinesAux]
    simp [List.isEmpty_iff.not.mp hy]
    exact LinesWF.single _ (Or.inr ⟨breakFree_reverse hacc,
      by simpa using List.isEmpty_iff.not.mp hy⟩)
  | case3 acc rest2 ih =>
    rw [splitlinesAux]
    simp only [if_pos rfl, reduceIte]
    have hterm : TermedLine (acc.reverse ++ ['\r', '\n']) :=
      Or.inl ⟨_, rfl, breakFree_reverse hacc⟩
    cases hE : splitlinesAux [] rest2 with
    | nil => exact LinesWF.single _ (Or.inl hterm)
    | cons l2 L2 =>
      refine LinesWF.cons _ _ _ hterm ?_ (hE ▸ ih (by simp [BreakFree]))
      intro hlast
      exfalso
      have : (acc.reverse ++ ['\r', '\n']).getLast? = some '\n' := by
        rw [show acc.reverse ++ ['\r', '\n'] = (acc.reverse ++ ['\r']) ++ ['\n'] by simp]
        simp
      rw [this] at hlast
      simp at hlast
  | case4 acc d rest2 hd ih =>
    rw [splitlinesAux]
    simp only [if_pos rfl, if_neg hd]
    have hterm : TermedLine (acc.reverse ++ ['\r']) :=
      Or.inr ⟨_, _, rfl, breakFree_reverse hacc, by simp [isLineBreak]⟩
    cases hE : splitlinesAux [] (d :: rest2) with
    | nil => exact LinesWF.single _ (Or.inl hterm)
    | cons l2 L2 =>
      refine LinesWF.cons _ _ _ hterm ?_ (hE ▸ ih (by simp [BreakFree]))
      intro _ hl2
      obtain ⟨l2a, L2a, hsplit, hhd⟩ := splitlinesAux_head [] (d :: rest2) (by simp)
      rw [hE] at hsplit
      have h1 : l2 = l2a := (List.cons.inj hsplit).1
      subst h1
      rw [hl2] at hhd
      simp at hhd
      exact hd hhd.symm
  | case5 acc ih =>
    rw [splitlinesAux.eq_def]
    simp only [if_pos rfl]
    rw [show splitlinesAux [] ([] : Str) = [] by simp [splitlinesAux]]
    exact LinesWF.single _ (Or.inl (Or.inr ⟨_, _, rfl, breakFree_reverse hacc,
      by simp [isLineBreak]⟩))
  | case6 acc c rest hc hb ih =>
    rw [splitlinesAux.eq_def]
    simp only [if_neg hc, hb, reduceIte]
    have hterm : TermedLine (acc.reverse ++ [c]) :=
      Or.inr ⟨_, _, rfl, breakFree_reverse hacc, hb⟩
    cases hE : splitlinesAux [] rest with
    | nil => exact LinesWF.single _ (Or.inl hterm)
    | cons l2 L2 =>
      refine LinesWF.cons _ _ _ hterm ?_ (hE ▸ ih (by simp [BreakFree]))
      intro hlast
      exfalso
      have : (acc.reverse ++ [c]).getLast? = some c := by simp
      rw [this] at hlast
      simp at hlast
      exact hc hlast
  | case7 acc c rest hc hb ih =>
    rw [splitlinesAux.eq_def]
    simp only [if_neg hc, hb, reduceIte]
    refine ih ?_
    simp [BreakFree] at hacc ⊢
    exact ⟨by simpa using hb, hacc⟩

theorem splitlines_wf (s : Str) : LinesWF (splitlines s) :=
  splitlinesAux_wf [] s (by simp [BreakFree])

theorem splitlinesAux_breakfree_pre (b : Str) (hb : BreakFree b) (acc s : Str) :
    splitlinesAux acc (b ++ s) = splitlinesAux (b.reverse ++ acc) s := by
  induction b generalizing acc with
  | nil => simp
  | cons c b2 ih =>
    simp only [BreakFree, List.all_cons, Bool.and_eq_true, Bool.not_eq_true'] at hb
    have hcr : ¬(c = '\r') := by
      intro hcc
      subst hcc
      simp [isLineBreak] at hb
    rw [List.cons_append, splitlinesAux.eq_def]
    simp only [if_neg hcr, if_neg (by simp [hb.1] : ¬(isLineBreak c = true))]
    rw [ih (by simpa [BreakFree] using hb.2)]
    simp

theorem splitlines_termed_cons (l rest : Str) (hl : TermedLine l)
    (hadj : l.getLast? = some '\r' → rest.head? ≠ some '\n') :
    splitlines (l ++ rest) = l :: splitlines rest := by
  rcases hl with ⟨b, hb, hbf⟩ | ⟨b, c, hb, hbf, hbrk⟩
  · subst hb
    rw [splitlines, show (b ++ ['\r', '\n']) ++ rest = b ++ ('\r' :: '\n' :: rest) by simp]
    rw [splitlinesAux_breakfree_pre b hbf]
    rw [splitlinesAux]
    simp [splitlines]
  · subst hb
    by_cases hcr : c = '\r'
    · subst hcr
      have hrest : rest.head? ≠ some '\n' := hadj (by simp)
      rw [splitlines, show (b ++ ['\r']) ++ rest = b ++ ('\r' :: rest) by simp]
      rw [splitlinesAux_breakfree_pre b hbf]
      cases rest with
      | nil =>
        simp [splitlines, splitlinesAux]
      | cons d r2 =>
        have hd : d ≠ '\n' := by simpa using hrest
        rw [splitlinesAux]
        simp [hd, splitlines]
    · rw [splitlines, show (b ++ [c]) ++ rest = b ++ (c :: rest) by simp]
      rw [splitlinesAux_breakfree_pre b hbf]
      rw [splitlinesAux.eq_def]
      simp [hcr, hbrk, splitlines]

theorem LinesWF.suffix {l : Str} {L : List Str} (h : LinesWF (l :: L)) : LinesWF L := by
  cases h with
  | single _ _ => exact LinesWF.nil
  | cons _ _ _ _ _ h2 => exact h2

theorem LinesWF.flatten_head {l : Str} {L : List Str} (h : LinesWF (l :: L)) :
    ((l :: L).flatten).head? = l.head? := by
  have hne := h.head_ne_nil
  cases l with
  | nil => exact absurd rfl hne
  | cons c cs => simp

/-- Composite split-prepend: a well-formed list of terminated lines splits off
the front of any continuation whose head cannot merge with the final line. -/
theorem splitlines_flatten_append (L : List Str) (t : Str) (hwf : LinesWF L)
    (hterm : ∀ l ∈ L, TermedLine l)
    (hadj : ∀ l, L.getLast? = some l → l.getLast? = some '\r' → t.head? ≠ some '\n') :
    splitlines (L.flatten ++ t) = L ++ splitlines t := by
  induction L with
  | nil => simp
  | cons l L2 ih =>
    have hl : TermedLine l := hterm l (by simp)
    cases L2 with
    | nil =>
      have : splitlines (l ++ t) = l :: splitlines t := by
        refine splitlines_termed_cons l t hl ?_
        intro hlast
        exact hadj l (by simp) hlast
      simpa using this
    | cons l2 L3 =>
      have hwf2 : LinesWF (l2 :: L3) := hwf.suffix
      have hstep : splitlines (l ++ ((l2 :: L3).flatten ++ t)) =
          l :: splitlines ((l2 :: L3).flatten ++ t) := by
        refine splitlines_termed_cons l _ hl ?_
        intro hlast
        cases hwf with
        | cons _ _ _ _ hnomerge _ =>
          have hh : ((l2 :: L3).flatten).head? = l2.head? := hwf2.flatten_head
          have hl2 : l2 ≠ [] := hwf2.head_ne_nil
          rw [List.head?_append_of_ne_nil]
          · rw [hh]
            exact hnomerge hlast
          · intro hfl
            have := congrArg List.head? hfl
            rw [hh] at this
            cases l2 with
            | nil => exact hl2 rfl
            | cons c cs => simp at this
      have hrec := ih hwf2 (fun x hx => hterm x (by simp [hx]))
        (fun x hx => hadj x (by simpa using hx))
      rw [show ((l :: l2 :: L3).flatten ++ t) = l ++ ((l2 :: L3).flatten ++ t) by simp]
      rw [hstep, hrec]
      simp

/-- Every line of a well-formed list whose flattening ends in `\n` is a
terminated line. -/
theorem LinesWF.all_termed_of_ends_lf {L : List Str} (h : LinesWF L)
    (hend : L.flatten.getLast? = some '\n') : ∀ l ∈ L, TermedLine l := by
  induction L with
  | nil => simp
  | cons l L2 ih =>
    intro x hx
    cases L2 with
    | nil =>
      simp at hx
      subst hx
      cases h with
      | single _ hg =>
        rcases hg with ht | ⟨hbf, hne⟩
        · exact ht
        · exfalso
          simp at hend
          have : '\n' ∈ x := by
            rcases List.getLast?_eq_some_iff.mp hend with ⟨ys, hys⟩
            rw [hys]
            simp
          simp [BreakFree] at hbf
          have := hbf '\n' this
          simp [isLineBreak] at this
    | cons l2 L3 =>
      rcases List.mem_cons.mp hx with hx1 | hx2
      · subst hx1
        cases h with
        | cons _ _ _ ht _ _ => exact ht
      · have hwf2 : LinesWF (l2 :: L3) := h.suffix
        refine ih hwf2 ?_ x hx2
        have hfl : ((l2 :: L3).flatten) ≠ [] := by
          intro hc
          have := congrArg List.head? hc
          rw [hwf2.flatten_head] at this
          have hl2 := hwf2.head_ne_nil
          cases l2 with
          | nil => exact hl2 rfl
          | cons c cs => simp at this
        rw [show (l :: l2 :: L3).flatten = l ++ (l2 :: L3).flatten by simp] at hend
        rwa [List.getLast?_append_of_ne_nil _ hfl] at hend

/-- When the flattening ends in `\n`, so does the final line. -/
theorem LinesWF.last_ends_lf {L : List Str} {l : Str} (h : LinesWF L)
    (hend : L.flatten.getLast? = some '\n') (hl : L.getLast? = some l) :
    l.getLast? = some '\n' := by
  induction L with
  | nil => simp at hl
  | cons x L2 ih =>
    cases L2 with
    | nil =>
      simp at hl hend
      subst hl
      simpa using hend
    | cons l2 L3 =>
      have hwf2 : LinesWF (l2 :: L3) := h.suffix
      have hfl : ((l2 :: L3).flatten) ≠ [] := by
        intro hc
        have := congrArg List.head? hc
        rw [hwf2.flatten_head] at this
        have hl2 := hwf2.head_ne_nil
        cases l2 with
        | nil => exact hl2 rfl
        | cons c cs => simp at this
      refine ih hwf2 ?_ ?_
      · rw [show (x :: l2 :: L3).flatten = x ++ (l2 :: L3).flatten by simp] at hend
        rwa [List.getLast?_append_of_ne_nil _ hfl] at hend
      · simpa using hl

/-- The split of a terminated-line flattening recovers the lines. -/
theorem splitlines_flatten_eq (L : List Str) (hwf : LinesWF L)
    (hterm : ∀ l ∈ L, TermedLine l) : splitlines L.flatten = L := by
  have := splitlines_flatten_append L [] hwf hterm (by intro l _ _ hc; simp at hc)
  simpa [splitlines, splitlinesAux] using this

/-- Appending after a text that ends in `\n` splits independently. -/
theorem splitlines_append_of_ends_lf (s t : Str) (h : s.getLast? = some '\n') :
    splitlines (s ++ t) = splitlines s ++ splitlines t := by
  have hwf := splitlines_wf s
  have hfl : (splitlines s).flatten = s := flatten_splitlines s
  have hterm := hwf.all_termed_of_ends_lf (by rwa [hfl])
  have := splitlines_flatten_append (splitlines s) t hwf hterm ?_
  · rwa [hfl] at this
  · intro l hlast hcr
    have := hwf.last_ends_lf (by rwa [hfl]) hlast
    rw [this] at hcr
    simp at hcr

theorem scanClose_none_iff (L : List Str) :
    scanClose L = none ↔ ∀ l ∈ L, rstripCRLF l ∉ closeMarkers := by
  induction L with
  | nil => simp [scanClose]
  | cons l ls ih =>
    rw [scanClose]
    by_cases hm : rstripCRLF l ∈ closeMarkers
    · simp [hm]
    · simp [hm, ih]

theorem scanClose_some {L pre post : List Str} (h : scanClose L = some (pre, post)) :
    ∃ cl, L = pre ++ cl :: post ∧ rstripCRLF cl ∈ closeMarkers ∧
      ∀ l ∈ pre, rstripCRLF l ∉ closeMarkers := by
  induction L generalizing pre post with
  | nil => simp [scanClose] at h
  | cons l ls ih =>
    rw [scanClose] at h
    by_cases hm : rstripCRLF l ∈ closeMarkers
    · rw [if_pos hm] at h
      obtain ⟨h1, h2⟩ := Prod.mk.inj (Option.some.inj h)
      exact ⟨l, by simp [← h1, ← h2], hm, by simp [← h1]⟩
    · rw [if_neg hm] at h
      cases hs : scanClose ls with
      | none => rw [hs] at h; simp at h
      | some q =>
        obtain ⟨pre2, post2⟩ := q
        rw [hs] at h
        simp only [Option.map_some'] at h
        obtain ⟨h1, h2⟩ := Prod.mk.inj (Option.some.inj h)
        obtain ⟨cl, hL, hcl, hpre⟩ := ih hs
        refine ⟨cl, ?_, hcl, ?_⟩
        · rw [← h1, hL, ← h2]
          simp
        · intro x hx
          rw [← h1] at hx
          rcases List.mem_cons.mp hx with hx1 | hx2
          · subst hx1; exact hm
          · exact hpre x hx2

theorem scanClose_pre_takeWhile {L pre post : List Str}
    (h : scanClose L = some (pre, post)) :
    pre = L.takeWhile (fun l => !(decide (rstripCRLF l ∈ closeMarkers))) := by
  induction L generalizing pre post with
  | nil => simp [scanClose] at h
  | cons l ls ih =>
    rw [scanClose] at h
    by_cases hm : rstripCRLF l ∈ closeMarkers
    · rw [if_pos hm] at h
      obtain ⟨h1, -⟩ := Prod.mk.inj (Option.some.inj h)
      rw [← h1]
      simp [hm]
    · rw [if_neg hm] at h
      cases hs : scanClose ls with
      | none => rw [hs] at h; simp at h
      | some q =>
        obtain ⟨pre2, post2⟩ := q
        rw [hs] at h
        simp only [Option.map_some'] at h
        obtain ⟨h1, -⟩ := Prod.mk.inj (Option.some.inj h)
        rw [← h1, ih hs]
        simp [hm]

theorem rstripCRLF_decomp (l : Str) :
    ∃ w, l = rstripCRLF l ++ w ∧ ∀ c ∈ w, c = '\r' ∨ c = '\n' := by
  refine ⟨(l.reverse.takeWhile (fun c => c == '\r' || c == '\n')).reverse, ?_, ?_⟩
  · rw [rstripCRLF]
    conv_lhs => rw [← l.reverse_reverse]
    conv_lhs =>
      rw [← List.takeWhile_append_dropWhile (fun c => c == '\r' || c == '\n')
        l.reverse]
    rw [List.reverse_append]
  · intro c hc
    have hmem : c ∈ l.reverse.takeWhile (fun c => c == '\r' || c == '\n') := by
      simpa using hc
    have := List.mem_takeWhile_imp hmem
    simpa using this

theorem rstrip_head {l : Str} {m : Str} (hm : rstripCRLF l = m) (hne : m ≠ []) :
    l.head? = m.head? := by
  obtain ⟨w, hw, -⟩ := rstripCRLF_decomp l
  rw [hm] at hw
  rw [hw]
  exact List.head?_append_of_ne_nil _ hne

/-- Claim C2 (malformed-block atomicity): a document whose first line is
exactly `---` and which has no subsequent close-marker line is returned
byte-for-byte unchanged with an error status, for every payload, preserve
flag and generated identifier. -/
theorem C2_malformed_atomicity (d p : Str) (pres : Bool) (g : Str)
    (l0 : Str) (rest : List Str)
    (hsplit : splitlines d = l0 :: rest)
    (hl0 : rstripCRLF l0 = "---".data)
    (hrest : ∀ l ∈ rest, rstripCRLF l ∉ closeMarkers) :
    transform_markdown d p pres g =
      .ok (d, ⟨true, false, false, true,
        "Front matter starts with '---' but has no closing marker."⟩) := by
  have hhead : d.head? = some '-' := by
    have h1 : d = l0 ++ rest.flatten := by
      conv_lhs => rw [← flatten_splitlines d]
      rw [hsplit]
      simp
    have h2 : l0.head? = some '-' := by
      rw [rstrip_head hl0 (by simp)]
      rfl
    rw [h1, List.head?_append_of_ne_nil]
    · exact h2
    · intro hc
      rw [hc] at h2
      simp at h2
  have hbom : stripBom d = d := by
    cases d with
    | nil => rfl
    | cons c cs =>
      simp only [List.head?_cons, Option.some.injEq] at hhead
      subst hhead
      rw [stripBom]
      exact if_neg (by decide)
  have hparse : parse_frontmatter d =
      (true, [], d, "Front matter starts with '---' but has no closing marker.") := by
    rw [parse_frontmatter, hsplit]
    dsimp only
    rw [if_neg (by simp [hl0]), (scanClose_none_iff rest).mpr hrest]
  rw [transform_markdown, hbom, hparse]
  simp

/-- Claim C6 (payload normalization contract): a payload whose (BOM-stripped)
first line is not `---` is returned unchanged; a wrapped payload returns
exactly the lines strictly between the opening line and the first close
marker; an error is raised exactly when a wrapped payload has no close
marker; and the concrete round trip holds. -/
theorem C6_normalize_contract (p : Str) :
    (splitlines (stripBom p) = [] → normalize_payload_text p = .ok (stripBom p)) ∧
    (∀ l0 rest, splitlines (stripBom p) = l0 :: rest → rstripCRLF l0 ≠ "---".data →
      normalize_payload_text p = .ok (stripBom p)) ∧
    (∀ l0 rest, splitlines (stripBom p) = l0 :: rest → rstripCRLF l0 = "---".data →
      ((∃ e, normalize_payload_text p = .error e) ↔ ∀ l ∈ rest, rstripCRLF l ∉ closeMarkers) ∧
      (∀ pre post, scanClose rest = some (pre, post) →
        normalize_payload_text p = .ok pre.flatten ∧
        pre = rest.takeWhile (fun l => !(decide (rstripCRLF l ∈ closeMarkers))))) ∧
    normalize_payload_text "---\ntitle: x\n---\n".data = .ok "title: x\n".data := by
  refine ⟨?_, ?_, ?_, by rfl⟩
  · intro hempty
    rw [normalize_payload_text, hempty]
  · intro l0 rest hsplit hne
    rw [normalize_payload_text, hsplit]
    dsimp only
    rw [if_pos hne]
  · intro l0 rest hsplit heq
    constructor
    · constructor
      · rintro ⟨e, he⟩
        rw [normalize_payload_text, hsplit] at he
        dsimp only at he
        rw [if_neg (by simp [heq])] at he
        cases hs : scanClose rest with
        | none => exact (scanClose_none_iff rest).mp hs
        | some q =>
          obtain ⟨pre, post⟩ := q
          rw [hs] at he
          simp at he
      · intro hnone
        refine ⟨"Payload starts with '---' but has no closing marker ('---' or '...').", ?_⟩
        rw [normalize_payload_text, hsplit]
        dsimp only
        rw [if_neg (by simp [heq]), (scanClose_none_iff rest).mpr hnone]
    · intro pre post hs
      refine ⟨?_, scanClose_pre_takeWhile hs⟩
      rw [normalize_payload_text, hsplit]
      dsimp only
      rw [if_neg (by simp [heq]), hs]

theorem stripBom_eq_of_head {r : Str} (h : r.head? ≠ some '﻿') : stripBom r = r := by
  cases r with
  | nil => rfl
  | cons c cs =>
    rw [stripBom]
    refine if_neg ?_
    intro hc
    exact h (by simp [hc])

/-- A prefix of a well-formed line list followed by a nonempty remainder is
itself well-formed and consists of terminated lines. -/
theorem LinesWF.prefix_termed {A B : List Str} (h : LinesWF (A ++ B)) (hB : B ≠ []) :
    LinesWF A ∧ ∀ l ∈ A, TermedLine l := by
  induction A with
  | nil => exact ⟨LinesWF.nil, by simp⟩
  | cons a A2 ih =>
    have h2 : LinesWF (A2 ++ B) := by
      have : LinesWF (a :: (A2 ++ B)) := by simpa using h
      exact this.suffix
    obtain ⟨hwfA2, htermA2⟩ := ih h2
    have hab : LinesWF (a :: (A2 ++ B)) := by simpa using h
    have hterm_a : TermedLine a := by
      cases hx : A2 ++ B with
      | nil =>
        rcases List.append_eq_nil.mp hx with ⟨-, hBnil⟩
        exact absurd hBnil hB
      | cons x xs =>
        rw [hx] at hab
        cases hab with
        | cons _ _ _ ht _ _ => exact ht
    have hadj_a : ∀ x xs, A2 ++ B = x :: xs → a.getLast? = some '\r' → x.head? ≠ some '\n' := by
      intro x xs hx hlast
      rw [hx] at hab
      cases hab with
      | cons _ _ _ _ hnm _ => exact hnm hlast
    constructor
    · cases hA2 : A2 with
      | nil => exact LinesWF.single a (Or.inl hterm_a)
      | cons a2 A3 =>
        refine LinesWF.cons _ _ _ hterm_a ?_ (hA2 ▸ hwfA2)
        intro hlast
        exact hadj_a a2 (A3 ++ B) (by simp [hA2]) hlast
    · intro l hl
      rcases List.mem_cons.mp hl with h1 | h2
      · subst h1; exact hterm_a
      · exact htermA2 l h2

/-- Claim C10 (amended): normalization is idempotent on every payload whose
normalized result does not itself begin with a byte-order mark. -/
theorem C10_normalize_idempotent (p r : Str)
    (hn : normalize_payload_text p = .ok r)
    (hbom : r.head? ≠ some '﻿') :
    normalize_payload_text r = .ok r := by
  have hsb : stripBom r = r := stripBom_eq_of_head hbom
  rw [normalize_payload_text] at hn
  dsimp only at hn
  cases hq : splitlines (stripBom p) with
  | nil =>
    rw [hq] at hn
    dsimp only at hn
    have hr : stripBom p = r := Except.ok.inj hn
    rw [normalize_payload_text]
    dsimp only
    rw [hsb, ← hr, hq]
  | cons l0 rest =>
    rw [hq] at hn
    dsimp only at hn
    by_cases hm : rstripCRLF l0 ≠ "---".data
    · rw [if_pos hm] at hn
      have hr : stripBom p = r := Except.ok.inj hn
      rw [normalize_payload_text]
      dsimp only
      rw [hsb, ← hr, hq]
      dsimp only
      rw [if_pos hm]
    · rw [if_neg hm] at hn
      cases hs : scanClose rest with
      | none =>
        rw [hs] at hn
        simp at hn
      | some q =>
        obtain ⟨pre, post⟩ := q
        rw [hs] at hn
        dsimp only at hn
        have hr : pre.flatten = r := Except.ok.inj hn
        obtain ⟨cl, hrest, hclm, hpre⟩ := scanClose_some hs
        have hwfall : LinesWF (l0 :: rest) := by
          rw [← hq]; exact splitlines_wf (stripBom p)
        have hwfrest : LinesWF rest := hwfall.suffix
        have hwfpre : LinesWF pre ∧ ∀ l ∈ pre, TermedLine l := by
          refine LinesWF.prefix_termed ?_ (by simp : cl :: post ≠ [])
          rwa [← hrest]
        have hresplit : splitlines pre.flatten = pre :=
          splitlines_flatten_eq pre hwfpre.1 hwfpre.2
        rw [normalize_payload_text]
        dsimp only
        rw [hsb, ← hr, hresplit]
        cases hpre0 : pre with
        | nil =>
          subst hpre0
          simp at hr
          rw [← hr]
        | cons p0 pre2 =>
          have hp0 : rstripCRLF p0 ∉ closeMarkers := hpre p0 (by simp [hpre0])
          have hner : rstripCRLF p0 ≠ "---".data := by
            intro hc
            exact hp0 (by simp [closeMarkers, hc])
          dsimp only
          rw [if_pos hner]

/-- Claim C10 counterexample: normalization is not idempotent as stated; a
payload opening with two byte-order marks has one stripped per application. -/
theorem C10_counterexample :
    ∃ p r, normalize_payload_text p = .ok r ∧ normalize_payload_text r ≠ .ok r := by
  refine ⟨"﻿﻿x".data, "﻿x".data, rfl, ?_⟩
  intro h
  rw [show normalize_payload_text "﻿x".data = .ok "x".data from rfl] at h
  exact absurd (Except.ok.inj h) (by decide)

theorem C10_normalize_idempotent_witness :
    normalize_payload_text "a: 1\n".data = .ok "a: 1\n".data :=
  C10_normalize_idempotent "---\na: 1\n---\n".data "a: 1\n".data (by rfl) (by decide)

theorem C2_malformed_atomicity_witness :
    transform_markdown "---\nabc\n".data "t: 1\n".data true [] =
      .ok ("---\nabc\n".data, ⟨true, false, false, true,
        "Front matter starts with '---' but has no closing marker."⟩) :=
  C2_malformed_atomicity "---\nabc\n".data "t: 1\n".data true [] "---\n".data
    ["abc\n".data] (by decide) (by decide) (by decide)

theorem C6_normalize_contract_witness :
    normalize_payload_text "---\na: 1\n...\nrest\n".data = .ok "a: 1\n".data :=
  (((C6_normalize_contract "---\na: 1\n...\nrest\n".data).2.2.1 "---\n".data
    ["a: 1\n".data, "...\n".data, "rest\n".data] (by decide) (by decide)).2
    ["a: 1\n".data] ["rest\n".data] (by decide)).1

theorem matchLE_decomp {u le rem : Str} (h : matchLE u = some (le, rem)) :
    u = le ++ rem ∧ (le = ['\n'] ∨ le = ['\r', '\n'] ∨ (le = [] ∧ rem = [])) := by
  match u with
  | [] =>
    rw [matchLE.eq_def] at h
    dsimp only at h
    obtain ⟨h1, h2⟩ := Prod.mk.inj (Option.some.inj h)
    subst h1
    subst h2
    simp
  | c :: r =>
    rw [matchLE.eq_def] at h
    dsimp only at h
    by_cases hc : c = '\n'
    · rw [if_pos hc] at h
      obtain ⟨h1, h2⟩ := Prod.mk.inj (Option.some.inj h)
      subst h1
      subst h2
      simp [hc]
    · rw [if_neg hc] at h
      by_cases hcr : c = '\r'
      · rw [if_pos hcr] at h
        match r with
        | [] => simp at h
        | d :: r2 =>
          dsimp only at h
          by_cases hd : d = '\n'
          · rw [if_pos hd] at h
            obtain ⟨h1, h2⟩ := Prod.mk.inj (Option.some.inj h)
            subst h1
            subst h2
            simp [hcr, hd]
          · rw [if_neg hd] at h
            simp at h
      · rw [if_neg hcr] at h
        simp at h

theorem postAttempt_decomp {ws rest : Str} {k : Nat} {post v le rem : Str}
    (h : postAttempt ws rest k = some (post, v, le, rem)) :
    post = ws.take k ∧ ws ++ rest = post ++ v ++ le ++ rem ∧
    (∀ c ∈ v, notCRLF c) ∧ (le = ['\n'] ∨ le = ['\r', '\n'] ∨ (le = [] ∧ rem = [])) := by
  rw [postAttempt] at h
  dsimp only [takeValueRun] at h
  cases hm : matchLE ((ws.drop k ++ rest).dropWhile notCRLF) with
  | none => rw [hm] at h; simp at h
  | some q =>
    obtain ⟨le2, rem2⟩ := q
    rw [hm] at h
    simp only [Option.map_some'] at h
    have h1 := Option.some.inj h
    have hpost : ws.take k = post := congrArg (fun x => x.1) h1
    have hv : (ws.drop k ++ rest).takeWhile notCRLF = v := congrArg (fun x => x.2.1) h1
    have hle : le2 = le := congrArg (fun x => x.2.2.1) h1
    have hrem : rem2 = rem := congrArg (fun x => x.2.2.2) h1
    subst hle
    subst hrem
    obtain ⟨hsplit, hshape⟩ := matchLE_decomp hm
    refine ⟨hpost.symm, ?_, ?_, hshape⟩
    · conv_lhs => rw [← List.take_append_drop k ws]
      rw [List.append_assoc, hpost]
      conv_lhs =>
        rw [← List.takeWhile_append_dropWhile notCRLF (ws.drop k ++ rest)]
      rw [hsplit, hv]
      simp
    · intro c hc
      rw [← hv] at hc
      exact List.mem_takeWhile_imp hc

theorem tryPostColon_decomp {ws rest : Str} {k0 : Nat} {r : Str × Str × Str × Str}
    (h : tryPostColon ws rest k0 = some r) :
    ∃ k, k ≤ k0 ∧ postAttempt ws rest k = some r := by
  induction k0 with
  | zero => exact ⟨0, Nat.le_refl 0, by rwa [tryPostColon] at h⟩
  | succ k ih =>
    rw [tryPostColon] at h
    cases hp : postAttempt ws rest (k + 1) with
    | some r2 =>
      rw [hp] at h
      exact ⟨k + 1, Nat.le_refl _, by rw [hp, Option.some.inj h]⟩
    | none =>
      rw [hp] at h
      obtain ⟨k2, hk2, hp2⟩ := ih h
      exact ⟨k2, by omega, hp2⟩

theorem matchUuidAt_decomp {s : Str} {m : UuidMatch} (h : matchUuidAt s = some m) :
    s = "uuid".data ++ m.key_ws ++ ':' :: (m.post_ws ++ m.value ++ m.line_end ++ m.rest) ∧
    (∀ c ∈ m.key_ws, pyWs c) ∧ (∀ c ∈ m.post_ws, pyWs c) ∧ (∀ c ∈ m.value, notCRLF c) ∧
    (m.line_end = ['\n'] ∨ m.line_end = ['\r', '\n'] ∨ (m.line_end = [] ∧ m.rest = [])) := by
  rw [matchUuidAt] at h
  by_cases hp : "uuid".data.isPrefixOf s
  swap
  · rw [if_neg (by simpa using hp)] at h
    simp at h
  rw [if_pos (by simpa using hp)] at h
  dsimp only at h
  have hs4 : s = "uuid".data ++ s.drop 4 := by
    obtain ⟨t, ht⟩ := List.isPrefixOf_iff_prefix.mp hp
    conv_lhs => rw [← ht]
    rw [← ht]
    simp
  cases hd : (s.drop 4).dropWhile pyWs with
  | nil => rw [hd] at h; simp at h
  | cons c s3 =>
    rw [hd] at h
    dsimp only at h
    by_cases hc : c = ':'
    swap
    · rw [if_neg hc] at h; simp at h
    rw [if_pos hc] at h
    cases ht : tryPostColon (s3.takeWhile pyWs) (s3.dropWhile pyWs)
        (s3.takeWhile pyWs).length with
    | none => rw [ht] at h; simp at h
    | some q =>
      obtain ⟨post, v, le, rem⟩ := q
      rw [ht] at h
      dsimp only at h
      have hm := Option.some.inj h
      obtain ⟨k, -, hpa⟩ := tryPostColon_decomp ht
      obtain ⟨hpost, hsplit, hvchars, hshape⟩ := postAttempt_decomp hpa
      have hkey : m.key_ws = (s.drop 4).takeWhile pyWs := by rw [← hm]
      have hpostm : m.post_ws = post := by rw [← hm]
      have hvm : m.value = v := by rw [← hm]
      have hlem : m.line_end = le := by rw [← hm]
      have hremm : m.rest = rem := by rw [← hm]
      refine ⟨?_, ?_, ?_, ?_, ?_⟩
      · have h3 : s3 = post ++ v ++ le ++ rem := by
          conv_lhs =>
            rw [← List.takeWhile_append_dropWhile pyWs s3]
          exact hsplit
        have h4 : s.drop 4 =
            m.key_ws ++ ':' :: (m.post_ws ++ m.value ++ m.line_end ++ m.rest) := by
          rw [hkey, hpostm, hvm, hlem, hremm]
          conv_lhs =>
            rw [← List.takeWhile_append_dropWhile pyWs (s.drop 4), hd]
          rw [hc, h3]
        conv_lhs => rw [hs4]
        rw [h4]
        simp only [List.append_assoc]
      · intro x hx
        rw [hkey] at hx
        exact List.mem_takeWhile_imp hx
      · intro x hx
        rw [hpostm, hpost] at hx
        have : x ∈ s3.takeWhile pyWs := List.mem_of_mem_take hx
        exact List.mem_takeWhile_imp this
      · intro x hx
        rw [hvm] at hx
        exact hvchars x hx
      · rw [hlem, hremm]
        exact hshape

theorem uuidSkip_decomp : ∀ (u pre0 pre : Str) (m : UuidMatch),
    uuidSkip pre0 u = some (pre, m) →
    ∃ x tail, u = x ++ tail ∧ pre = pre0 ++ x ∧ x.getLast? = some '\n' ∧
      matchUuidAt tail = some m := by
  intro u
  induction u with
  | nil =>
    intro pre0 pre m h
    rw [uuidSkip] at h
    simp at h
  | cons c r ih =>
    intro pre0 pre m h
    rw [uuidSkip] at h
    by_cases hc : c = '\n'
    · rw [if_pos hc] at h
      cases hm : matchUuidAt r with
      | some m2 =>
        rw [hm] at h
        obtain ⟨h1, h2⟩ := Prod.mk.inj (Option.some.inj h)
        refine ⟨[c], r, by simp, by rw [← h1], by simp [hc], by rw [hm, h2]⟩
      | none =>
        rw [hm] at h
        obtain ⟨x, tail, hu, hpre, hlast, hmt⟩ := ih (pre0 ++ [c]) pre m h
        refine ⟨c :: x, tail, by simp [hu], by simp [hpre], ?_, hmt⟩
        cases x with
        | nil => simp at hlast
        | cons y ys => rw [List.getLast?_cons_cons]; exact hlast
    · rw [if_neg hc] at h
      obtain ⟨x, tail, hu, hpre, hlast, hmt⟩ := ih (pre0 ++ [c]) pre m h
      refine ⟨c :: x, tail, by simp [hu], by simp [hpre], ?_, hmt⟩
      cases x with
      | nil => simp at hlast
      | cons y ys => rw [List.getLast?_cons_cons]; exact hlast

theorem uuidSearch_decomp {s pre : Str} {m : UuidMatch}
    (h : uuidSearch s = some (pre, m)) :
    ∃ tail, s = pre ++ tail ∧ matchUuidAt tail = some m ∧
      (pre = [] ∨ pre.getLast? = some '\n') := by
  rw [uuidSearch] at h
  cases hm : matchUuidAt s with
  | some m2 =>
    rw [hm] at h
    obtain ⟨h1, h2⟩ := Prod.mk.inj (Option.some.inj h)
    exact ⟨s, by rw [← h1, List.nil_append], by rw [hm, h2], Or.inl h1.symm⟩
  | none =>
    rw [hm] at h
    obtain ⟨x, tail, hu, hpre, hlast, hmt⟩ := uuidSkip_decomp s [] pre m h
    refine ⟨tail, ?_, hmt, Or.inr ?_⟩
    · rw [hu, hpre]
      simp
    · rw [hpre]
      simpa using hlast

/-- Claim C4 (column-zero restriction): a `uuid` key that occurs only at
positions that are neither the start of the text nor immediately after a
newline is never found by the identifier regex, hence never extracted for
preservation and never rewritten; and, unconditionally, any found match
starts at column zero of its line. -/
theorem C4_column_zero (s v : Str)
    (h : ∀ i, i < s.length → "uuid".data.isPrefixOf (s.drop i) →
      0 < i ∧ s.get? (i - 1) ≠ some '\n') :
    uuidSearch s = none ∧ extract_uuid_value s = none ∧
    replace_first_uuid_value s v = (s, false) ∧
    (∀ (t pre : Str) (m : UuidMatch), uuidSearch t = some (pre, m) →
      pre = [] ∨ pre.getLast? = some '\n') := by
  have hnone : uuidSearch s = none := by
    cases hs : uuidSearch s with
    | none => rfl
    | some q =>
      exfalso
      obtain ⟨pre, m⟩ := q
      obtain ⟨tail, hsplit, hmt, hcol⟩ := uuidSearch_decomp hs
      have hpref : "uuid".data.isPrefixOf tail := by
        obtain ⟨heq, -⟩ := matchUuidAt_decomp hmt
        rw [heq, List.isPrefixOf_iff_prefix, List.append_assoc]
        exact List.prefix_append _ _
      have hdrop : s.drop pre.length = tail := by
        rw [hsplit, List.drop_left]
      have hlen : pre.length < s.length := by
        rw [hsplit]
        have : tail ≠ [] := by
          intro ht
          rw [ht] at hpref
          simp [List.isPrefixOf_iff_prefix] at hpref
        simp only [List.length_append]
        cases tail with
        | nil => exact absurd rfl this
        | cons a b => simp
      obtain ⟨hpos, hprev⟩ := h pre.length hlen (by rwa [hdrop])
      rcases hcol with hnil | hlast
      · rw [hnil] at hpos
        simp at hpos
      · have hget : s.get? (pre.length - 1) = pre.getLast? := by
          rw [hsplit, List.getLast?_eq_getElem?, List.get?_eq_getElem?]
          exact List.getElem?_append_left (by omega)
        rw [hget, hlast] at hprev
        exact hprev rfl
  refine ⟨hnone, ?_, ?_, ?_⟩
  · rw [extract_uuid_value, hnone]
    rfl
  · rw [replace_first_uuid_value, hnone]
  · intro t pre m ht
    obtain ⟨-, -, -, hcol⟩ := uuidSearch_decomp ht
    exact hcol

theorem lor_disjoint (a b k : Nat) (hb : b < 2 ^ k) :
    (a <<< k) ||| b = 2 ^ k * a + b := by
  apply Nat.eq_of_testBit_eq
  intro i
  rw [Nat.testBit_lor, Nat.testBit_shiftLeft, Nat.testBit_mul_pow_two_add a hb i]
  by_cases hik : i < k
  · rw [if_pos hik, decide_eq_false (by omega : ¬ i ≥ k)]
    simp
  · have h2 : i ≥ k := by omega
    have hbf : b.testBit i = false :=
      Nat.testBit_lt_two_pow
        (Nat.lt_of_lt_of_le hb (Nat.pow_le_pow_right (by omega) h2))
    rw [if_neg hik, decide_eq_true h2, hbf]
    simp

theorem uuid_value_add (ms ra rb : Nat) (hra : ra < 2 ^ 12) (hrb : rb < 2 ^ 62) :
    ((((ms <<< 80) ||| (7 <<< 76)) ||| (ra <<< 64)) ||| (2 <<< 62)) ||| rb =
      2 ^ 80 * ms + 2 ^ 76 * 7 + 2 ^ 64 * ra + 2 ^ 63 + rb := by
  have e1 : (ms <<< 80) ||| (7 <<< 76) = 2 ^ 80 * ms + 2 ^ 76 * 7 := by
    rw [show (7 : Nat) <<< 76 = 7 * 2 ^ 76 from Nat.shiftLeft_eq 7 76]
    rw [lor_disjoint ms (7 * 2 ^ 76) 80 (by norm_num)]
    ring
  have e2 : (2 ^ 80 * ms + 2 ^ 76 * 7) ||| (ra <<< 64) =
      2 ^ 80 * ms + 2 ^ 76 * 7 + 2 ^ 64 * ra := by
    rw [show 2 ^ 80 * ms + 2 ^ 76 * 7 = (16 * ms + 7) <<< 76 by
      rw [Nat.shiftLeft_eq]; ring]
    rw [show ra <<< 64 = ra * 2 ^ 64 from Nat.shiftLeft_eq ra 64]
    rw [lor_disjoint (16 * ms + 7) (ra * 2 ^ 64) 76 (by
      calc ra * 2 ^ 64 < 2 ^ 12 * 2 ^ 64 := by
            exact mul_lt_mul_of_pos_right hra (by norm_num)
        _ = 2 ^ 76 := by norm_num)]
    simp only [Nat.shiftLeft_eq]
    ring
  have e3 : (2 ^ 80 * ms + 2 ^ 76 * 7 + 2 ^ 64 * ra) ||| (2 <<< 62) =
      2 ^ 80 * ms + 2 ^ 76 * 7 + 2 ^ 64 * ra + 2 ^ 63 := by
    rw [show 2 ^ 80 * ms + 2 ^ 76 * 7 + 2 ^ 64 * ra =
      (2 ^ 16 * ms + 2 ^ 12 * 7 + ra) <<< 64 by rw [Nat.shiftLeft_eq]; ring]
    rw [lor_disjoint _ (2 <<< 62) 64 (by norm_num [Nat.shiftLeft_eq])]
    simp only [Nat.shiftLeft_eq]
    ring
  have e4 : (2 ^ 80 * ms + 2 ^ 76 * 7 + 2 ^ 64 * ra + 2 ^ 63) ||| rb =
      2 ^ 80 * ms + 2 ^ 76 * 7 + 2 ^ 64 * ra + 2 ^ 63 + rb := by
    rw [show 2 ^ 80 * ms + 2 ^ 76 * 7 + 2 ^ 64 * ra + 2 ^ 63 =
      (2 ^ 18 * ms + 2 ^ 14 * 7 + 4 * ra + 2) <<< 62 by rw [Nat.shiftLeft_eq]; ring]
    rw [lor_disjoint _ rb 62 hrb]
    simp only [Nat.shiftLeft_eq]
    ring
  rw [e1, e2, e3, e4]

theorem digitsF_zero (b f : Nat) : digitsF b f 0 = [] := by
  cases f <;> rfl

theorem digitsF_congr (b : Nat) (hb : 2 ≤ b) :
    ∀ (f1 f2 n : Nat), n ≤ f1 → n ≤ f2 → digitsF b f1 n = digitsF b f2 n := by
  intro f1
  induction f1 with
  | zero =>
    intro f2 n h1 h2
    have hn : n = 0 := by omega
    subst hn
    rw [digitsF_zero, digitsF_zero]
  | succ f1 ih =>
    intro f2 n h1 h2
    cases n with
    | zero => rw [digitsF_zero, digitsF_zero]
    | succ m =>
      cases f2 with
      | zero => omega
      | succ f2 =>
        simp only [digitsF]
        have hdb : (m + 1) / b ≤ (m + 1) / 2 := Nat.div_le_div_left hb (by norm_num)
        exact congrArg _ (ih f2 ((m + 1) / b) (by omega) (by omega))

theorem pyDigits_pos (b n : Nat) (hb : 2 ≤ b) (hn : 0 < n) :
    pyDigits b n = n % b :: pyDigits b (n / b) := by
  cases n with
  | zero => omega
  | succ m =>
    rw [pyDigits]
    simp only [digitsF]
    have hdb : (m + 1) / b ≤ (m + 1) / 2 := Nat.div_le_div_left hb (by norm_num)
    exact congrArg _ (digitsF_congr b hb m ((m + 1) / b) ((m + 1) / b)
      (by omega) (by omega))

theorem pyHexLower_lt16 (n : Nat) (hn : n < 16) : pyHexLower n = [Nat.digitChar n] := by
  by_cases h0 : n = 0
  · subst h0; rfl
  · rw [pyHexLower, if_neg h0, pyDigits_pos 16 n (by norm_num) (by omega)]
    rw [Nat.mod_eq_of_lt hn, Nat.div_eq_of_lt hn]
    rfl

theorem pyHexLower_step (n : Nat) (hn : 16 ≤ n) :
    pyHexLower n = pyHexLower (n / 16) ++ [Nat.digitChar (n % 16)] := by
  have h1 : n ≠ 0 := by omega
  have h2 : n / 16 ≠ 0 := by omega
  rw [pyHexLower, pyHexLower, if_neg h1, if_neg h2,
    pyDigits_pos 16 n (by norm_num) (by omega)]
  simp

theorem hexChars_succ (k n : Nat) :
    hexChars (k + 1) n = hexChars k (n / 16) ++ [Nat.digitChar (n % 16)] := rfl

theorem hexChars_zero (k : Nat) : hexChars k 0 = List.replicate k '0' := by
  induction k with
  | zero => rfl
  | succ k ih =>
    rw [hexChars_succ, Nat.zero_div, Nat.zero_mod, ih]
    show List.replicate k '0' ++ ['0'] = List.replicate (k + 1) '0'
    rw [← List.replicate_succ']

theorem hexChars_length (k : Nat) : ∀ n, (hexChars k n).length = k := by
  induction k with
  | zero => intro n; rfl
  | succ k ih =>
    intro n
    rw [hexChars_succ]
    simp [ih]

theorem hexChars_pad : ∀ (k n : Nat), n < 16 ^ (k + 1) →
    hexChars (k + 1) n =
      List.replicate ((k + 1) - (pyHexLower n).length) '0' ++ pyHexLower n := by
  intro k
  induction k with
  | zero =>
    intro n hn
    rw [pow_one] at hn
    rw [pyHexLower_lt16 n hn, hexChars_succ, Nat.mod_eq_of_lt hn]
    show hexChars 0 (n / 16) ++ [n.digitChar] =
      List.replicate (0 + 1 - 1) '0' ++ [n.digitChar]
    rfl
  | succ k ih =>
    intro n hn
    by_cases h16 : n < 16
    · rw [pyHexLower_lt16 n h16, hexChars_succ,
        Nat.div_eq_of_lt h16, Nat.mod_eq_of_lt h16, hexChars_zero]
      show List.replicate (k + 1) '0' ++ [n.digitChar] =
        List.replicate (k + 1 + 1 - 1) '0' ++ [n.digitChar]
      rw [show k + 1 + 1 - 1 = k + 1 from by omega]
    · push_neg at h16
      rw [hexChars_succ]
      have hdiv : n / 16 < 16 ^ (k + 1) := by
        rw [Nat.div_lt_iff_lt_mul (by norm_num)]
        calc n < 16 ^ (k + 1 + 1) := hn
          _ = 16 ^ (k + 1) * 16 := by ring
      rw [ih (n / 16) hdiv, pyHexLower_step n h16]
      rw [List.length_append]
      show _ = List.replicate (k + 1 + 1 - ((pyHexLower (n / 16)).length + 1)) '0' ++
        (pyHexLower (n / 16) ++ [Nat.digitChar (n % 16)])
      rw [show (k + 1 + 1) - ((pyHexLower (n / 16)).length + 1) =
        (k + 1) - (pyHexLower (n / 16)).length from by omega]
      rw [List.append_assoc]

theorem hex32_eq (n : Nat) (hn : n < 16 ^ 32) : hex32 n = hexChars 32 n := by
  have h := hexChars_pad 31 n (by norm_num; omega)
  norm_num at h
  rw [hex32, h]

theorem hexChars_split (a b : Nat) : ∀ n,
    hexChars (a + b) n = hexChars a (n / 16 ^ b) ++ hexChars b n := by
  induction b with
  | zero =>
    intro n
    rw [Nat.add_zero, pow_zero, Nat.div_one]
    show hexChars a n = hexChars a n ++ hexChars 0 n
    rw [show hexChars 0 n = [] from rfl, List.append_nil]
  | succ b ih =>
    intro n
    rw [show a + (b + 1) = (a + b) + 1 from rfl, hexChars_succ, hexChars_succ]
    rw [ih (n / 16), Nat.div_div_eq_div_mul,
      show 16 * 16 ^ b = 16 ^ (b + 1) from by ring, List.append_assoc]

theorem hexChars_all (k : Nat) : ∀ n, ∀ c ∈ hexChars k n,
    ∃ d, d < 16 ∧ c = Nat.digitChar d := by
  induction k with
  | zero =>
    intro n c hc
    rw [show hexChars 0 n = [] from rfl] at hc
    simp at hc
  | succ k ih =>
    intro n c hc
    rw [hexChars_succ] at hc
    simp only [List.mem_append, List.mem_singleton] at hc
    rcases hc with hc | hc
    · exact ih (n / 16) c hc
    · exact ⟨n % 16, Nat.mod_lt n (by norm_num), hc⟩

theorem hexChars_head (k n : Nat) :
    (hexChars (k + 1) n).head? = some (Nat.digitChar (n / 16 ^ k % 16)) := by
  have h := hexChars_split 1 k n
  rw [Nat.add_comm 1 k] at h
  rw [h, show ∀ m, hexChars 1 m = [Nat.digitChar (m % 16)] from fun m => rfl]
  rfl

theorem hexChars_get (k n i : Nat) (h : i < k) :
    (hexChars k n).get? i = some (Nat.digitChar (n / 16 ^ (k - 1 - i) % 16)) := by
  have hsplit := hexChars_split i (k - i) n
  rw [show i + (k - i) = k from by omega] at hsplit
  rw [List.get?_eq_getElem?, hsplit,
    List.getElem?_append_right (by simp [hexChars_length]),
    hexChars_length, Nat.sub_self,
    show k - i = (k - i - 1) + 1 from by omega,
    ← List.head?_eq_getElem?, hexChars_head,
    show k - i - 1 = k - 1 - i from by omega]

theorem specHexLower_digitChar (d : Nat) (hd : d < 16) :
    specHexLower (Nat.digitChar d) := by
  interval_cases d <;> decide

theorem take_head {α : Type} (l : List α) (n : Nat) (hn : 0 < n) :
    (l.take n).head? = l.head? := by
  rw [List.head?_take, if_neg (by omega)]

theorem generate_uuidv7_spec (ms ra rb : Nat) (hra : ra < 2 ^ 12) (hrb : rb < 2 ^ 62) :
    specUuidFormat (generate_uuidv7 ms ra rb) := by
  have hmslt : ms &&& (2 ^ 48 - 1) < 2 ^ 48 := Nat.and_lt_two_pow ms (by norm_num)
  have hVadd := uuid_value_add (ms &&& (2 ^ 48 - 1)) ra rb hra hrb
  set m48 := ms &&& (2 ^ 48 - 1) with hm48
  set V : Nat := ((((m48 <<< 80) ||| (7 <<< 76)) ||| (ra <<< 64)) ||| (2 <<< 62)) ||| rb
    with hVdef
  have hVlt : V < 16 ^ 32 := by rw [hVadd]; omega
  have h32 : hex32 V = hexChars 32 V := hex32_eq V hVlt
  have hlen : (hex32 V).length = 32 := by rw [h32, hexChars_length]
  have hgform : generate_uuidv7 ms ra rb =
      ((hex32 V).take 8) ++
      '-' :: (((hex32 V).drop 8).take 4) ++
      '-' :: (((hex32 V).drop 12).take 4) ++
      '-' :: (((hex32 V).drop 16).take 4) ++
      '-' :: (((hex32 V).drop 20).take 12) := by
    rw [hVdef, hm48]
    rfl
  rw [hgform]
  have hmemAll : ∀ c, c ∈ hex32 V → specHexLower c := by
    intro c hc
    rw [h32] at hc
    obtain ⟨d, hd, rfl⟩ := hexChars_all 32 V c hc
    exact specHexLower_digitChar d hd
  have hget : ∀ i, i < 32 →
      (hex32 V).get? i = some (Nat.digitChar (V / 16 ^ (32 - 1 - i) % 16)) := by
    intro i hi
    rw [h32]
    exact hexChars_get 32 V i hi
  refine ⟨?_, (hex32 V).take 8, ((hex32 V).drop 8).take 4, ((hex32 V).drop 12).take 4,
    ((hex32 V).drop 16).take 4, ((hex32 V).drop 20).take 12, ?_,
    ?_, ?_, ?_, ?_, ?_, ?_, ?_, ?_⟩
  · simp only [List.length_append, List.length_cons, List.length_take,
      List.length_drop, hlen]
    omega
  · simp only [List.cons_append, List.append_assoc]
  · simp only [List.length_take, hlen]
    omega
  · simp only [List.length_take, List.length_drop, hlen]
    omega
  · simp only [List.length_take, List.length_drop, hlen]
    omega
  · simp only [List.length_take, List.length_drop, hlen]
    omega
  · simp only [List.length_take, List.length_drop, hlen]
    omega
  · intro c hc
    simp only [List.mem_append] at hc
    rcases hc with (((hc | hc) | hc) | hc) | hc
    · exact hmemAll c (List.mem_of_mem_take hc)
    · exact hmemAll c (List.mem_of_mem_drop (List.mem_of_mem_take hc))
    · exact hmemAll c (List.mem_of_mem_drop (List.mem_of_mem_take hc))
    · exact hmemAll c (List.mem_of_mem_drop (List.mem_of_mem_take hc))
    · exact hmemAll c (List.mem_of_mem_drop (List.mem_of_mem_take hc))
  · rw [take_head _ 4 (by norm_num), List.head?_drop,
      ← List.get?_eq_getElem?, hget 12 (by norm_num)]
    have h7 : V / 16 ^ (32 - 1 - 12) % 16 = 7 := by rw [hVadd]; omega
    rw [h7]
    rfl
  · have hnib : V / 16 ^ (32 - 1 - 16) % 16 = 8 + rb / 2 ^ 60 := by rw [hVadd]; omega
    have hq : rb / 2 ^ 60 < 4 := by omega
    refine ⟨Nat.digitChar (8 + rb / 2 ^ 60), ?_, ?_⟩
    · rw [take_head _ 4 (by norm_num), List.head?_drop,
        ← List.get?_eq_getElem?, hget 16 (by norm_num), hnib]
    · rcases (by omega : rb / 2 ^ 60 = 0 ∨ rb / 2 ^ 60 = 1 ∨ rb / 2 ^ 60 = 2 ∨
        rb / 2 ^ 60 = 3) with h | h | h | h <;> rw [h] <;> decide

theorem generate_uuidv7_ne_token (ms ra rb : Nat) (hra : ra < 2 ^ 12)
    (hrb : rb < 2 ^ 62) : generate_uuidv7 ms ra rb ≠ "{uuidv7}".data := by
  intro heq
  have h36 := (generate_uuidv7_spec ms ra rb hra hrb).1
  rw [heq] at h36
  simp at h36

/-- Claim C3 (corrected): with preservation enabled, a fresh identifier is
generated only when the document carries no column-zero `uuid` (the
existing-identifier extraction yields nothing) and the coerced payload has a
column-zero `uuid` line whose value passes the placeholder check; and the
generator (for in-range random draws) always produces a canonically
formatted version-7, variant-`10` identifier distinct from the literal
placeholder.  (The original claim's further assertion that the output never
contains the literal placeholder is refuted by `C3_counterexample`.) -/
theorem C3_generation (d p g out : Str) (info : Info)
    (hok : transform_markdown d p true g = .ok (out, info))
    (hgen : info.generated_uuid = true) :
    (∃ payload0, normalize_payload_text p = .ok payload0 ∧
      (if (parse_frontmatter (stripBom d)).1 then
        extract_uuid_value (parse_frontmatter (stripBom d)).2.1 else none) = none ∧
      ∃ pre m,
        uuidSearch (coerce_newlines payload0 (detect_newline (stripBom d))) =
          some (pre, m) ∧
        is_uuidv7_token m.value = true) ∧
    (∀ ms ra rb, ra < 2 ^ 12 → rb < 2 ^ 62 →
      specUuidFormat (generate_uuidv7 ms ra rb) ∧
      generate_uuidv7 ms ra rb ≠ "{uuidv7}".data) := by
  refine ⟨?_, fun ms ra rb hra hrb =>
    ⟨generate_uuidv7_spec ms ra rb hra hrb, generate_uuidv7_ne_token ms ra rb hra hrb⟩⟩
  rw [transform_markdown] at hok
  dsimp only at hok
  by_cases hpe : (parse_frontmatter (stripBom d)).2.2.2 ≠ ""
  · rw [if_pos hpe] at hok
    have hi := (Prod.mk.inj (Except.ok.inj hok)).2
    rw [← hi] at hgen
    simp at hgen
  · rw [if_neg hpe] at hok
    cases hnorm : normalize_payload_text p with
    | error e =>
      rw [hnorm] at hok
      exact absurd hok (by simp)
    | ok payload0 =>
      rw [hnorm] at hok
      dsimp only at hok
      cases hex : (if (parse_frontmatter (stripBom d)).1 = true then
          extract_uuid_value (parse_frontmatter (stripBom d)).2.1 else none) with
      | some u =>
        rw [hex] at hok
        dsimp only at hok
        have hi := (Prod.mk.inj (Except.ok.inj hok)).2
        rw [← hi] at hgen
        simp at hgen
      | none =>
        rw [hex] at hok
        dsimp only at hok
        cases hsearch : uuidSearch
            (coerce_newlines payload0 (detect_newline (stripBom d))) with
        | none =>
          rw [hsearch] at hok
          dsimp only at hok
          have hi := (Prod.mk.inj (Except.ok.inj hok)).2
          rw [← hi] at hgen
          simp at hgen
        | some pm =>
          obtain ⟨pre, m⟩ := pm
          rw [hsearch] at hok
          dsimp only at hok
          by_cases htok : is_uuidv7_token m.value = true
          · exact ⟨payload0, rfl, rfl, pre, m, hsearch, htok⟩
          · rw [if_neg htok] at hok
            dsimp only at hok
            have hi := (Prod.mk.inj (Except.ok.inj hok)).2
            rw [← hi] at hgen
            simp at hgen

theorem C3_generation_witness :
    (∃ payload0, normalize_payload_text "uuid: {uuidv7}\n".data = .ok payload0 ∧
      (if (parse_frontmatter (stripBom [])).1 then
        extract_uuid_value (parse_frontmatter (stripBom [])).2.1 else none) = none ∧
      ∃ pre m,
        uuidSearch (coerce_newlines payload0 (detect_newline (stripBom []))) =
          some (pre, m) ∧
        is_uuidv7_token m.value = true) ∧
    (∀ ms ra rb, ra < 2 ^ 12 → rb < 2 ^ 62 →
      specUuidFormat (generate_uuidv7 ms ra rb) ∧
      generate_uuidv7 ms ra rb ≠ "{uuidv7}".data) :=
  C3_generation [] "uuid: {uuidv7}\n".data (generate_uuidv7 0 0 0)
    "---\nuuid: 00000000-0000-7000-8000-000000000000\n---\n".data
    ⟨false, false, true, false, ""⟩ rfl rfl

/-- Claim C3 counterexample: a run that generates an identifier whose output
still contains the literal placeholder `\x7buuidv7\x7d` (on a second,
non-first `uuid`-like line), refuting "the output text never contains the
literal placeholder". -/
theorem C3_counterexample :
    ∃ out info,
      transform_markdown [] "uuid: {uuidv7}\nnote: {uuidv7}\n".data true
          (generate_uuidv7 0 0 0) = .ok (out, info) ∧
      info.generated_uuid = true ∧
      ∃ s1 s2, out = s1 ++ "{uuidv7}".data ++ s2 :=
  ⟨"---\nuuid: 00000000-0000-7000-8000-000000000000\nnote: {uuidv7}\n---\n".data,
    ⟨false, false, true, false, ""⟩, rfl, rfl,
    "---\nuuid: 00000000-0000-7000-8000-000000000000\nnote: ".data,
    "\n---\n".data, rfl⟩

theorem crlfOnly_crlf (rest : Str) : crlfOnly ('\r' :: '\n' :: rest) = crlfOnly rest := rfl

theorem crlfOnly_nl_false (rest : Str) : crlfOnly ('\n' :: rest) = false := by
  rw [crlfOnly.eq_def]
  dsimp only
  rw [if_neg (by decide), if_pos rfl]

theorem crlfOnly_other {c : Char} (h1 : ¬c = '\r') (h2 : ¬c = '\n') (rest : Str) :
    crlfOnly (c :: rest) = crlfOnly rest := by
  rw [crlfOnly.eq_def]
  dsimp only
  rw [if_neg h1, if_neg h2]

theorem crlfOnly_cr_case {rest : Str} (h : crlfOnly ('\r' :: rest) = true) :
    ∃ rest2, rest = '\n' :: rest2 ∧ crlfOnly rest2 = true := by
  cases rest with
  | nil => exact absurd h (by decide)
  | cons d rest2 =>
    rw [show crlfOnly ('\r' :: d :: rest2) = if d = '\n' then crlfOnly rest2 else false
      from rfl] at h
    by_cases hd : d = '\n'
    · exact ⟨rest2, by rw [hd], by rwa [if_pos hd] at h⟩
    · rw [if_neg hd] at h
      simp at h

theorem getLast?_tail_ne {α : Type} (c : α) (l : List α) (a : α)
    (h : (c :: l).getLast? ≠ some a) (hl : l ≠ []) : l.getLast? ≠ some a := by
  cases l with
  | nil => exact absurd rfl hl
  | cons d t => rw [List.getLast?_cons_cons] at h; exact h

theorem crlfOnly_append_aux : ∀ (n : Nat) (a b : Str), a.length ≤ n →
    crlfOnly a = true → crlfOnly b = true → crlfOnly (a ++ b) = true := by
  intro n
  induction n with
  | zero =>
    intro a b ha h1 h2
    have : a = [] := by cases a with | nil => rfl | cons => simp at ha
    subst this
    simpa using h2
  | succ n ih =>
    intro a b ha h1 h2
    cases a with
    | nil => simpa using h2
    | cons c rest =>
      rw [List.cons_append]
      by_cases hc : c = '\r'
      · subst hc
        obtain ⟨r2, hr2, hcr2⟩ := crlfOnly_cr_case h1
        subst hr2
        rw [List.cons_append, crlfOnly_crlf]
        exact ih r2 b (by simp at ha ⊢; omega) hcr2 h2
      · by_cases hn : c = '\n'
        · subst hn
          rw [crlfOnly_nl_false] at h1
          simp at h1
        · rw [crlfOnly_other hc hn] at h1 ⊢
          exact ih rest b (by simp at ha ⊢; omega) h1 h2

theorem crlfOnly_append (a b : Str) (h1 : crlfOnly a = true) (h2 : crlfOnly b = true) :
    crlfOnly (a ++ b) = true :=
  crlfOnly_append_aux a.length a b (Nat.le_refl _) h1 h2

theorem crlfOnly_of_bf : ∀ a : Str, a.all notCRLF = true → crlfOnly a = true := by
  intro a
  induction a with
  | nil => intro; rfl
  | cons c rest ih =>
    intro h
    simp only [List.all_cons, Bool.and_eq_true] at h
    have hc : ¬c = '\r' ∧ ¬c = '\n' := by
      have := h.1
      simp [notCRLF] at this
      exact ⟨this.1, this.2⟩
    rw [crlfOnly_other hc.1 hc.2]
    exact ih h.2

theorem crlfOnly_bf_append : ∀ (v B : Str), v.all notCRLF = true →
    crlfOnly (v ++ B) = crlfOnly B := by
  intro v
  induction v with
  | nil => intro B _; rfl
  | cons c rest ih =>
    intro B h
    simp only [List.all_cons, Bool.and_eq_true] at h
    have hc : ¬c = '\r' ∧ ¬c = '\n' := by
      have := h.1
      simp [notCRLF] at this
      exact ⟨this.1, this.2⟩
    rw [List.cons_append, crlfOnly_other hc.1 hc.2]
    exact ih B h.2

theorem crlfOnly_pair_aux : ∀ (n : Nat) (x y : Str), x.length ≤ n →
    crlfOnly (x ++ '\r' :: y) = true → ∃ y2, y = '\n' :: y2 := by
  intro n
  induction n with
  | zero =>
    intro x y hx h
    have : x = [] := by cases x with | nil => rfl | cons => simp at hx
    subst this
    rw [List.nil_append] at h
    obtain ⟨r2, hr2, -⟩ := crlfOnly_cr_case h
    exact ⟨r2, hr2⟩
  | succ n ih =>
    intro x y hx h
    cases x with
    | nil =>
      rw [List.nil_append] at h
      obtain ⟨r2, hr2, -⟩ := crlfOnly_cr_case h
      exact ⟨r2, hr2⟩
    | cons c rest =>
      rw [List.cons_append] at h
      by_cases hc : c = '\r'
      · subst hc
        obtain ⟨r2, hr2, hcr2⟩ := crlfOnly_cr_case h
        cases rest with
        | nil =>
          rw [List.nil_append] at hr2
          exact absurd (List.cons.inj hr2).1 (by decide)
        | cons e rest2 =>
          rw [List.cons_append] at hr2
          rw [← (List.cons.inj hr2).2] at hcr2
          exact ih rest2 y (by simp at hx ⊢; omega) hcr2
      · by_cases hn : c = '\n'
        · subst hn
          rw [crlfOnly_nl_false] at h
          simp at h
        · rw [crlfOnly_other hc hn] at h
          exact ih rest y (by simp at hx ⊢; omega) h

theorem crlfOnly_pair {s x y : Str} (hs : crlfOnly s = true) (he : s = x ++ '\r' :: y) :
    ∃ y2, y = '\n' :: y2 :=
  crlfOnly_pair_aux x.length x y (Nat.le_refl _) (he ▸ hs)

theorem crlfOnly_subst_aux : ∀ (n : Nat) (A v v2 B : Str), A.length ≤ n →
    crlfOnly (A ++ (v ++ B)) = true → v.all notCRLF = true → v2.all notCRLF = true →
    A.getLast? ≠ some '\r' → crlfOnly (A ++ (v2 ++ B)) = true := by
  intro n
  induction n with
  | zero =>
    intro A v v2 B hA h hv hv2 hlast
    have : A = [] := by cases A with | nil => rfl | cons => simp at hA
    subst this
    rw [List.nil_append] at h ⊢
    rw [crlfOnly_bf_append v B hv] at h
    rw [crlfOnly_bf_append v2 B hv2]
    exact h
  | succ n ih =>
    intro A v v2 B hA h hv hv2 hlast
    cases A with
    | nil =>
      rw [List.nil_append] at h ⊢
      rw [crlfOnly_bf_append v B hv] at h
      rw [crlfOnly_bf_append v2 B hv2]
      exact h
    | cons c rest =>
      rw [List.cons_append] at h ⊢
      by_cases hc : c = '\r'
      · subst hc
        obtain ⟨r2, hr2, hcr2⟩ := crlfOnly_cr_case h
        cases rest with
        | nil => exact absurd rfl hlast
        | cons e rest2 =>
          rw [List.cons_append] at hr2
          have he := (List.cons.inj hr2).1
          rw [← (List.cons.inj hr2).2] at hcr2
          subst he
          rw [List.cons_append, crlfOnly_crlf]
          by_cases hr2n : rest2 = []
          · subst hr2n
            rw [List.nil_append] at hcr2 ⊢
            rw [crlfOnly_bf_append v B hv] at hcr2
            rw [crlfOnly_bf_append v2 B hv2]
            exact hcr2
          · exact ih rest2 v v2 B (by simp at hA ⊢; omega) hcr2 hv hv2
              (getLast?_tail_ne _ _ _ (getLast?_tail_ne _ _ _ hlast (by simp)) hr2n)
      · by_cases hn : c = '\n'
        · subst hn
          rw [crlfOnly_nl_false] at h
          simp at h
        · rw [crlfOnly_other hc hn] at h ⊢
          by_cases hrn : rest = []
          · subst hrn
            rw [List.nil_append] at h ⊢
            rw [crlfOnly_bf_append v B hv] at h
            rw [crlfOnly_bf_append v2 B hv2]
            exact h
          · exact ih rest v v2 B (by simp at hA ⊢; omega) h hv hv2
              (getLast?_tail_ne _ _ _ hlast hrn)

theorem crlfOnly_subst (A v v2 B : Str)
    (h : crlfOnly (A ++ (v ++ B)) = true) (hv : v.all notCRLF = true)
    (hv2 : v2.all notCRLF = true) (hlast : A.getLast? ≠ some '\r') :
    crlfOnly (A ++ (v2 ++ B)) = true :=
  crlfOnly_subst_aux A.length A v v2 B (Nat.le_refl _) h hv hv2 hlast

theorem mem_replace1 {a : Char} {rep : Str} : ∀ {y : Str} {c : Char},
    c ∈ replace1 a rep y → (c ∈ y ∧ c ≠ a) ∨ c ∈ rep := by
  intro y
  induction y with
  | nil => intro c hc; simp [replace1] at hc
  | cons e rest ih =>
    intro c hc
    rw [replace1] at hc
    by_cases he : e = a
    · rw [if_pos he] at hc
      rcases List.mem_append.mp hc with hc | hc
      · exact Or.inr hc
      · rcases ih hc with ⟨h1, h2⟩ | h1
        · exact Or.inl ⟨List.mem_cons_of_mem _ h1, h2⟩
        · exact Or.inr h1
    · rw [if_neg he] at hc
      rcases List.mem_cons.mp hc with hc | hc
      · subst hc
        exact Or.inl ⟨List.mem_cons_self _ _, he⟩
      · rcases ih hc with ⟨h1, h2⟩ | h1
        · exact Or.inl ⟨List.mem_cons_of_mem _ h1, h2⟩
        · exact Or.inr h1

theorem coerce_lf_no_cr (x : Str) : ∀ c ∈ coerce_newlines x "\n".data, c ≠ '\r' := by
  intro c hc hcr
  subst hcr
  rw [coerce_newlines] at hc
  rcases mem_replace1 hc with ⟨hy, -⟩ | hs
  · rcases mem_replace1 hy with ⟨-, hne⟩ | hs2
    · exact hne rfl
    · simp at hs2
  · simp at hs

theorem crlfOnly_replace_nl : ∀ (y : Str), (∀ c ∈ y, c ≠ '\r') →
    crlfOnly (replace1 '\n' "\r\n".data y) = true := by
  intro y
  induction y with
  | nil => intro; rfl
  | cons c rest ih =>
    intro h
    rw [replace1]
    by_cases hc : c = '\n'
    · rw [if_pos hc]
      show crlfOnly ('\r' :: '\n' :: replace1 '\n' "\r\n".data rest) = true
      rw [crlfOnly_crlf]
      exact ih (fun c2 hc2 => h c2 (List.mem_cons_of_mem _ hc2))
    · rw [if_neg hc, crlfOnly_other (h c (List.mem_cons_self c rest)) hc]
      exact ih (fun c2 hc2 => h c2 (List.mem_cons_of_mem _ hc2))

theorem crlfOnly_coerce (x : Str) : crlfOnly (coerce_newlines x "\r\n".data) = true := by
  rw [coerce_newlines]
  apply crlfOnly_replace_nl
  intro c hc hceq
  subst hceq
  rcases mem_replace1 hc with ⟨-, hne⟩ | hs
  · exact hne rfl
  · simp at hs

theorem hasCRLF_iff : ∀ t : Str, hasCRLF t = true ↔
    ∃ i, t.get? i = some '\r' ∧ t.get? (i + 1) = some '\n' := by
  intro t
  induction t with
  | nil => simp [hasCRLF]
  | cons c rest ih =>
    rw [hasCRLF]
    simp only [Bool.or_eq_true]
    constructor
    · intro h
      rcases h with h | h
      · rw [List.isPrefixOf_iff_prefix] at h
        obtain ⟨tl, htl⟩ := h
        have h2 : '\r' :: '\n' :: tl = c :: rest := htl
        refine ⟨0, ?_, ?_⟩
        · rw [← (List.cons.inj h2).1]; rfl
        · rw [← (List.cons.inj h2).2]; rfl
      · obtain ⟨i, h1, h2⟩ := ih.mp h
        exact ⟨i + 1, by simpa using h1, by simpa using h2⟩
    · rintro ⟨i, h1, h2⟩
      cases i with
      | zero =>
        left
        simp only [List.get?] at h1 h2
        have hc : c = '\r' := Option.some.inj h1
        cases rest with
        | nil => simp at h2
        | cons d r =>
          have hd : d = '\n' := Option.some.inj h2
          rw [List.isPrefixOf_iff_prefix]
          exact ⟨r, by rw [hc, hd]; rfl⟩
      | succ j =>
        right
        exact ih.mpr ⟨j, by simpa using h1, by simpa using h2⟩

theorem matchUuidAt_post_ws {s : Str} {m : UuidMatch} (hm : matchUuidAt s = some m)
    (hcr : ∀ x y, s = x ++ '\r' :: y → ∃ y2, y = '\n' :: y2) :
    m.post_ws.getLast? ≠ some '\r' := by
  rw [matchUuidAt] at hm
  by_cases hp : "uuid".data.isPrefixOf s
  swap
  · rw [if_neg (by simpa using hp)] at hm
    simp at hm
  rw [if_pos (by simpa using hp)] at hm
  dsimp only at hm
  have hs4 : s = "uuid".data ++ s.drop 4 := by
    obtain ⟨t, ht⟩ := List.isPrefixOf_iff_prefix.mp hp
    conv_lhs => rw [← ht]
    rw [← ht]
    simp
  cases hd : (s.drop 4).dropWhile pyWs with
  | nil => rw [hd] at hm; simp at hm
  | cons c s3 =>
    rw [hd] at hm
    dsimp only at hm
    by_cases hc : c = ':'
    swap
    · rw [if_neg hc] at hm; simp at hm
    rw [if_pos hc] at hm
    have e3 : s.drop 4 = (s.drop 4).takeWhile pyWs ++ (c :: s3) := by
      conv_lhs => rw [← List.takeWhile_append_dropWhile pyWs (s.drop 4)]
      rw [hd]
    have e1 : s3 = s3.takeWhile pyWs ++ s3.dropWhile pyWs :=
      (List.takeWhile_append_dropWhile pyWs s3).symm
    have hfa : ∃ v le rem,
        postAttempt (s3.takeWhile pyWs) (s3.dropWhile pyWs) (s3.takeWhile pyWs).length =
          some (s3.takeWhile pyWs, v, le, rem) := by
      rw [postAttempt]
      dsimp only [takeValueRun]
      rw [List.drop_length, List.nil_append, List.take_length]
      cases hml : (s3.dropWhile pyWs).dropWhile notCRLF with
      | nil =>
        exact ⟨(s3.dropWhile pyWs).takeWhile notCRLF, [], [], rfl⟩
      | cons e t =>
        by_cases he : e = '\n'
        · subst he
          exact ⟨(s3.dropWhile pyWs).takeWhile notCRLF, ['\n'], t, rfl⟩
        · have henot : notCRLF e = false := by
            have h2 := List.head?_dropWhile_not notCRLF (s3.dropWhile pyWs)
            rw [hml] at h2
            simpa using h2
          have her : e = '\r' := by
            simp only [notCRLF, Bool.not_eq_false', Bool.or_eq_true, beq_iff_eq] at henot
            rcases henot with h | h
            · exact h
            · exact absurd h he
          subst her
          have e2 : s3.dropWhile pyWs =
              (s3.dropWhile pyWs).takeWhile notCRLF ++ '\r' :: t := by
            conv_lhs =>
              rw [← List.takeWhile_append_dropWhile notCRLF (s3.dropWhile pyWs)]
            rw [hml]
          have hsv : s = ("uuid".data ++ ((s.drop 4).takeWhile pyWs ++
              (c :: (s3.takeWhile pyWs ++ (s3.dropWhile pyWs).takeWhile notCRLF)))) ++
              '\r' :: t := by
            calc s = "uuid".data ++ s.drop 4 := hs4
              _ = "uuid".data ++ ((s.drop 4).takeWhile pyWs ++ (c :: s3)) := by
                  rw [← e3]
              _ = "uuid".data ++ ((s.drop 4).takeWhile pyWs ++
                  (c :: (s3.takeWhile pyWs ++ s3.dropWhile pyWs))) := by
                  rw [← e1]
              _ = "uuid".data ++ ((s.drop 4).takeWhile pyWs ++
                  (c :: (s3.takeWhile pyWs ++
                    ((s3.dropWhile pyWs).takeWhile notCRLF ++ '\r' :: t)))) := by
                  rw [← e2]
              _ = ("uuid".data ++ ((s.drop 4).takeWhile pyWs ++
                  (c :: (s3.takeWhile pyWs ++ (s3.dropWhile pyWs).takeWhile notCRLF)))) ++
                  '\r' :: t := by
                  simp [List.append_assoc]
          obtain ⟨y2, hy2⟩ := hcr _ _ hsv
          subst hy2
          exact ⟨(s3.dropWhile pyWs).takeWhile notCRLF, ['\r', '\n'], y2, rfl⟩
    obtain ⟨v, le, rem, hfa⟩ := hfa
    have htc : tryPostColon (s3.takeWhile pyWs) (s3.dropWhile pyWs)
        (s3.takeWhile pyWs).length = some (s3.takeWhile pyWs, v, le, rem) := by
      cases hlen : (s3.takeWhile pyWs).length with
      | zero =>
        rw [hlen] at hfa
        rw [tryPostColon]
        exact hfa
      | succ k =>
        rw [hlen] at hfa
        rw [tryPostColon, hfa]
    rw [htc] at hm
    dsimp only at hm
    have hmm := Option.some.inj hm
    have hpost : m.post_ws = s3.takeWhile pyWs := by rw [← hmm]
    rw [hpost]
    intro hlast
    obtain ⟨pw, hpw⟩ := List.getLast?_eq_some_iff.mp hlast
    have hsv2 : s = ("uuid".data ++ ((s.drop 4).takeWhile pyWs ++ (c :: pw))) ++
        '\r' :: s3.dropWhile pyWs := by
      calc s = "uuid".data ++ s.drop 4 := hs4
        _ = "uuid".data ++ ((s.drop 4).takeWhile pyWs ++ (c :: s3)) := by rw [← e3]
        _ = "uuid".data ++ ((s.drop 4).takeWhile pyWs ++
            (c :: (s3.takeWhile pyWs ++ s3.dropWhile pyWs))) := by rw [← e1]
        _ = "uuid".data ++ ((s.drop 4).takeWhile pyWs ++
            (c :: ((pw ++ ['\r']) ++ s3.dropWhile pyWs))) := by rw [← hpw]
        _ = ("uuid".data ++ ((s.drop 4).takeWhile pyWs ++ (c :: pw))) ++
            '\r' :: s3.dropWhile pyWs := by simp [List.append_assoc]
    obtain ⟨y2, hy2⟩ := hcr _ _ hsv2
    have h2 := List.head?_dropWhile_not pyWs s3
    rw [hy2] at h2
    simp only [List.head?_cons] at h2
    exact absurd h2 (by decide)

theorem replace_first_shape (u : Str) {text : Str} {pre : Str} {m : UuidMatch}
    (hs : uuidSearch text = some (pre, m)) :
    text = (pre ++ ("uuid".data ++ m.key_ws ++ ':' :: m.post_ws)) ++
      (m.value ++ (m.line_end ++ m.rest)) ∧
    (replace_first_uuid_value text u).1 =
      (pre ++ ("uuid".data ++ m.key_ws ++ ':' :: m.post_ws)) ++
      (u ++ (m.line_end ++ m.rest)) := by
  obtain ⟨tail, hsplit, hmt, -⟩ := uuidSearch_decomp hs
  obtain ⟨heq, -, -, -, -⟩ := matchUuidAt_decomp hmt
  constructor
  · rw [hsplit, heq]
    simp [List.append_assoc]
  · rw [replace_first_uuid_value, hs]
    simp [List.append_assoc]

theorem stripWs_mem {v : Str} {c : Char} (h : c ∈ stripWs v) : c ∈ v := by
  rw [stripWs, List.mem_reverse] at h
  have h2 := (List.dropWhile_sublist pyWs).subset h
  rw [List.mem_reverse] at h2
  exact (List.dropWhile_sublist pyWs).subset h2

theorem stripBom_mem {t : Str} {c : Char} (h : c ∈ stripBom t) : c ∈ t := by
  rw [stripBom.eq_def] at h
  cases t with
  | nil => exact h
  | cons c0 rest =>
    dsimp only at h
    by_cases hb : c0 = '﻿'
    · rw [if_pos hb] at h
      exact List.mem_cons_of_mem _ h
    · rwa [if_neg hb] at h

theorem parse_body_mem (t : Str) (c : Char)
    (hc : c ∈ (parse_frontmatter t).2.2.1) : c ∈ t := by
  rw [parse_frontmatter] at hc
  cases hsp : splitlines t with
  | nil =>
    rw [hsp] at hc
    exact hc
  | cons l0 rest =>
    rw [hsp] at hc
    dsimp only at hc
    by_cases h0 : rstripCRLF l0 ≠ "---".data
    · rw [if_pos h0] at hc
      exact hc
    · rw [if_neg h0] at hc
      cases hsc : scanClose rest with
      | none =>
        rw [hsc] at hc
        exact hc
      | some pp =>
        obtain ⟨pre, post⟩ := pp
        rw [hsc] at hc
        dsimp only at hc
        rw [List.mem_flatten] at hc
        obtain ⟨l, hl, hcl⟩ := hc
        obtain ⟨cl, hrest, -, -⟩ := scanClose_some hsc
        have hlr : l ∈ rest := by
          rw [hrest]
          exact List.mem_append_right _ (List.mem_cons_of_mem _ hl)
        have hmem : c ∈ (splitlines t).flatten := by
          rw [hsp]
          exact List.mem_flatten_of_mem (List.mem_cons_of_mem _ hlr) hcl
        rwa [flatten_splitlines] at hmem

theorem hasCRLF_none {t : Str} (h : ∀ c ∈ t, c ≠ '\r') : hasCRLF t = false := by
  by_contra hc
  rw [Bool.not_eq_false] at hc
  obtain ⟨i, h1, -⟩ := (hasCRLF_iff t).mp hc
  exact h '\r' (List.get?_mem h1) rfl

theorem extract_uuid_bf {fm u : Str} (h : extract_uuid_value fm = some u) :
    u.all notCRLF = true := by
  rw [extract_uuid_value, Option.map_eq_some'] at h
  obtain ⟨⟨pre, m⟩, hsr, hu⟩ := h
  obtain ⟨tail, -, hmt, -⟩ := uuidSearch_decomp hsr
  obtain ⟨-, -, -, hval, -⟩ := matchUuidAt_decomp hmt
  rw [← hu, List.all_eq_true]
  intro x hx
  exact hval x (stripWs_mem hx)

theorem transform_success (d p : Str) (pres : Bool) (g out : Str) (info : Info)
    (hok : transform_markdown d p pres g = .ok (out, info))
    (herr : info.error = false) (hg : g.all notCRLF = true) :
    ∃ payload0 payload2,
      normalize_payload_text p = .ok payload0 ∧
      (payload2 = coerce_newlines payload0 (detect_newline (stripBom d)) ∨
       (∃ u, u.all notCRLF = true ∧
         payload2 = prepend_uuid_line
           (coerce_newlines payload0 (detect_newline (stripBom d))) u
           (detect_newline (stripBom d))) ∨
       (∃ u pre2 m2, u.all notCRLF = true ∧
         uuidSearch (coerce_newlines payload0 (detect_newline (stripBom d))) =
           some (pre2, m2) ∧
         payload2 = (replace_first_uuid_value
           (coerce_newlines payload0 (detect_newline (stripBom d))) u).1)) ∧
      (out = "---".data ++ detect_newline (stripBom d) ++ payload2 ++ "---".data ++
         detect_newline (stripBom d) ++ (parse_frontmatter (stripBom d)).2.2.1 ∨
       out = "---".data ++ detect_newline (stripBom d) ++
         (payload2 ++ detect_newline (stripBom d)) ++ "---".data ++
         detect_newline (stripBom d) ++ (parse_frontmatter (stripBom d)).2.2.1) := by
  rw [transform_markdown] at hok
  dsimp only at hok
  by_cases hpe : (parse_frontmatter (stripBom d)).2.2.2 ≠ ""
  · rw [if_pos hpe] at hok
    have hi := (Prod.mk.inj (Except.ok.inj hok)).2
    rw [← hi] at herr
    simp at herr
  · rw [if_neg hpe] at hok
    cases hnorm : normalize_payload_text p with
    | error e => rw [hnorm] at hok; exact absurd hok (by simp)
    | ok payload0 =>
      rw [hnorm] at hok
      dsimp only at hok
      have hfin : ∀ (pl2 : Str) (i2 : Info),
          (Except.ok ("---".data ++ detect_newline (stripBom d) ++
            (if pl2 ≠ [] ∧ ¬(pl2.getLast? = some '\n' ∨ pl2.getLast? = some '\r') then
              pl2 ++ detect_newline (stripBom d) else pl2) ++ "---".data ++
            detect_newline (stripBom d) ++ (parse_frontmatter (stripBom d)).2.2.1, i2) :
            Except String (Str × Info)) = .ok (out, info) →
          (out = "---".data ++ detect_newline (stripBom d) ++ pl2 ++ "---".data ++
             detect_newline (stripBom d) ++ (parse_frontmatter (stripBom d)).2.2.1 ∨
           out = "---".data ++ detect_newline (stripBom d) ++
             (pl2 ++ detect_newline (stripBom d)) ++ "---".data ++
             detect_newline (stripBom d) ++ (parse_frontmatter (stripBom d)).2.2.1) := by
        intro pl2 i2 h
        have ht := (Prod.mk.inj (Except.ok.inj h)).1
        by_cases hb : pl2 ≠ [] ∧ ¬(pl2.getLast? = some '\n' ∨ pl2.getLast? = some '\r')
        · right
          rw [← ht, if_pos hb]
        · left
          rw [← ht, if_neg hb]
      cases pres with
      | true =>
        cases hex : (if (parse_frontmatter (stripBom d)).1 = true then
            extract_uuid_value (parse_frontmatter (stripBom d)).2.1 else none) with
        | some u =>
          rw [hex] at hok
          dsimp only at hok
          have hu : u.all notCRLF = true := by
            by_cases hhf : (parse_frontmatter (stripBom d)).1 = true
            · rw [if_pos hhf] at hex
              exact extract_uuid_bf hex
            · rw [if_neg hhf] at hex
              simp at hex
          cases hsr : uuidSearch
              (coerce_newlines payload0 (detect_newline (stripBom d))) with
          | some pm2 =>
            obtain ⟨pre2, m2⟩ := pm2
            have hr2 : (replace_first_uuid_value
                (coerce_newlines payload0 (detect_newline (stripBom d))) u).2 = true := by
              rw [replace_first_uuid_value, hsr]
            rw [hr2] at hok
            rw [if_pos rfl] at hok
            exact ⟨payload0, _, rfl, Or.inr (Or.inr ⟨u, pre2, m2, hu, hsr, rfl⟩),
              hfin _ _ hok⟩
          | none =>
            have hr : replace_first_uuid_value
                (coerce_newlines payload0 (detect_newline (stripBom d))) u =
                (coerce_newlines payload0 (detect_newline (stripBom d)), false) := by
              rw [replace_first_uuid_value, hsr]
            rw [hr] at hok
            dsimp only at hok
            rw [if_neg (by decide : ¬(false = true))] at hok
            exact ⟨payload0, _, rfl, Or.inr (Or.inl ⟨u, hu, rfl⟩), hfin _ _ hok⟩
        | none =>
          rw [hex] at hok
          dsimp only at hok
          cases hsr : uuidSearch
              (coerce_newlines payload0 (detect_newline (stripBom d))) with
          | some pm2 =>
            obtain ⟨pre2, m2⟩ := pm2
            rw [hsr] at hok
            dsimp only at hok
            by_cases htok : is_uuidv7_token m2.value = true
            · rw [if_pos htok] at hok
              exact ⟨payload0, _, rfl, Or.inr (Or.inr ⟨g, pre2, m2, hg, hsr, rfl⟩),
                hfin _ _ hok⟩
            · rw [if_neg htok] at hok
              exact ⟨payload0, _, rfl, Or.inl rfl, hfin _ _ hok⟩
          | none =>
            rw [hsr] at hok
            dsimp only at hok
            exact ⟨payload0, _, rfl, Or.inl rfl, hfin _ _ hok⟩
      | false =>
        dsimp only at hok
        cases hsr : uuidSearch
            (coerce_newlines payload0 (detect_newline (stripBom d))) with
        | some pm2 =>
          obtain ⟨pre2, m2⟩ := pm2
          rw [hsr] at hok
          dsimp only at hok
          by_cases htok : is_uuidv7_token m2.value = true
          · rw [if_pos htok] at hok
            exact ⟨payload0, _, rfl, Or.inr (Or.inr ⟨g, pre2, m2, hg, hsr, rfl⟩),
              hfin _ _ hok⟩
          · rw [if_neg htok] at hok
            exact ⟨payload0, _, rfl, Or.inl rfl, hfin _ _ hok⟩
        | none =>
          rw [hsr] at hok
          dsimp only at hok
          exact ⟨payload0, _, rfl, Or.inl rfl, hfin _ _ hok⟩

/-- Claim C5 (corrected): the detected newline style is CRLF exactly when a
CRLF pair occurs somewhere in the text; a document that uses CRLF throughout
(and contains at least one CRLF) produces, on success, an output whose front
matter block — both delimiters and every payload line — uses CRLF throughout,
with the parsed body appended unchanged; and a document containing no
carriage return at all produces an output with no carriage return.  (The
original claim's "no CRLF implies LF-only output" is refuted by
`C5_counterexample`: a lone CR in the body survives.) -/
theorem C5_newline_fidelity (d p : Str) (pres : Bool) (g out : Str) (info : Info)
    (hok : transform_markdown d p pres g = .ok (out, info))
    (herr : info.error = false) (hg : g.all notCRLF = true) :
    (∀ t : Str, detect_newline t = "\r\n".data ↔
      ∃ i, t.get? i = some '\r' ∧ t.get? (i + 1) = some '\n') ∧
    (crlfOnly (stripBom d) = true → hasCRLF (stripBom d) = true →
      ∃ pb, crlfOnly pb = true ∧
        out = "---".data ++ "\r\n".data ++ pb ++ "---".data ++ "\r\n".data ++
          (parse_frontmatter (stripBom d)).2.2.1) ∧
    ((∀ c ∈ d, c ≠ '\r') → ∀ c ∈ out, c ≠ '\r') := by
  obtain ⟨payload0, payload2, hnorm, hcases, hshape⟩ :=
    transform_success d p pres g out info hok herr hg
  refine ⟨?_, ?_, ?_⟩
  · intro t
    rw [detect_newline]
    by_cases h : hasCRLF t = true
    · rw [if_pos h]
      exact ⟨fun _ => (hasCRLF_iff t).mp h, fun _ => rfl⟩
    · rw [if_neg h]
      constructor
      · intro heq
        exact absurd heq (by decide)
      · intro hex
        exact absurd ((hasCRLF_iff t).mpr hex) h
  · intro hco hhas
    have hnl : detect_newline (stripBom d) = "\r\n".data := by
      rw [detect_newline, if_pos hhas]
    have hcp : crlfOnly (coerce_newlines payload0 (detect_newline (stripBom d))) = true := by
      rw [hnl]
      exact crlfOnly_coerce payload0
    have hp2 : crlfOnly payload2 = true := by
      rcases hcases with h | ⟨u, hu, h⟩ | ⟨u, pre2, m2, hu, hsr, h⟩
      · rw [h]
        exact hcp
      · rw [h, prepend_uuid_line, hnl]
        exact crlfOnly_append _ _
          (crlfOnly_append _ _
            (crlfOnly_append _ _ (by decide) (crlfOnly_of_bf u hu)) (by decide))
          (crlfOnly_coerce payload0)
      · have hpair : ∀ x y,
            coerce_newlines payload0 (detect_newline (stripBom d)) = x ++ '\r' :: y →
            ∃ y2, y = '\n' :: y2 := fun x y hxy => crlfOnly_pair hcp hxy
        obtain ⟨tail, hsplit, hmt, -⟩ := uuidSearch_decomp hsr
        have htail : ∀ x y, tail = x ++ '\r' :: y → ∃ y2, y = '\n' :: y2 := by
          intro x y hxy
          exact hpair (pre2 ++ x) y (by rw [hsplit, hxy, List.append_assoc])
        have hpostcr := matchUuidAt_post_ws hmt htail
        obtain ⟨hshape1, hshape2⟩ := replace_first_shape u hsr
        obtain ⟨-, -, -, hval, -⟩ := matchUuidAt_decomp hmt
        have hAlast : (pre2 ++ ("uuid".data ++ m2.key_ws ++
            ':' :: m2.post_ws)).getLast? ≠ some '\r' := by
          cases hpw : m2.post_ws with
          | nil =>
            rw [List.getLast?_append_of_ne_nil _ (by simp),
              List.getLast?_append_of_ne_nil _ (by simp)]
            decide
          | cons pc pr =>
            rw [List.getLast?_append_of_ne_nil _ (by simp),
              List.getLast?_append_of_ne_nil _ (by simp),
              List.getLast?_cons_cons]
            rw [hpw] at hpostcr
            exact hpostcr
        rw [h, hshape2]
        rw [hshape1] at hcp
        exact crlfOnly_subst _ _ _ _ hcp (List.all_eq_true.mpr hval) hu hAlast
    rcases hshape with h | h
    · refine ⟨payload2, hp2, ?_⟩
      rw [h, hnl]
    · refine ⟨payload2 ++ "\r\n".data, crlfOnly_append _ _ hp2 (by decide), ?_⟩
      rw [h, hnl]
  · intro hnc c hcout hceq
    subst hceq
    have hscd : ∀ c2 ∈ stripBom d, c2 ≠ '\r' := fun c2 h2 => hnc c2 (stripBom_mem h2)
    have hnl : detect_newline (stripBom d) = "\n".data := by
      rw [detect_newline, if_neg (by rw [hasCRLF_none hscd]; simp)]
    have hp2 : ∀ c2 ∈ payload2, c2 ≠ '\r' := by
      rcases hcases with h | ⟨u, hu, h⟩ | ⟨u, pre2, m2, hu, hsr, h⟩
      · intro c2 h2
        rw [h, hnl] at h2
        exact coerce_lf_no_cr payload0 c2 h2
      · intro c2 h2
        rw [h, prepend_uuid_line] at h2
        simp only [List.mem_append] at h2
        rcases h2 with ((h2 | h2) | h2) | h2
        · intro hc2; subst hc2; exact absurd h2 (by decide)
        · intro hc2
          subst hc2
          have := List.all_eq_true.mp hu _ h2
          simp [notCRLF] at this
        · intro hc2
          subst hc2
          rw [hnl] at h2
          exact absurd h2 (by decide)
        · intro hc2
          subst hc2
          rw [hnl] at h2
          exact coerce_lf_no_cr payload0 _ h2 rfl
      · intro c2 h2
        obtain ⟨hs1, hs2⟩ := replace_first_shape u hsr
        rw [h, hs2] at h2
        rcases List.mem_append.mp h2 with h2 | h2
        · have h3 : c2 ∈ coerce_newlines payload0 (detect_newline (stripBom d)) := by
            rw [hs1]
            exact List.mem_append_left _ h2
          rw [hnl] at h3
          exact coerce_lf_no_cr payload0 c2 h3
        · rcases List.mem_append.mp h2 with h2 | h2
          · intro hc2
            subst hc2
            have := List.all_eq_true.mp hu _ h2
            simp [notCRLF] at this
          · have h3 : c2 ∈ coerce_newlines payload0 (detect_newline (stripBom d)) := by
              rw [hs1]
              exact List.mem_append_right _ (List.mem_append_right _ h2)
            rw [hnl] at h3
            exact coerce_lf_no_cr payload0 c2 h3
    rcases hshape with h | h
    · rw [h, hnl] at hcout
      simp only [List.mem_append] at hcout
      rcases hcout with ((((h1 | h1) | h1) | h1) | h1) | h1
      · exact absurd h1 (by decide)
      · exact absurd h1 (by decide)
      · exact hp2 _ h1 rfl
      · exact absurd h1 (by decide)
      · exact absurd h1 (by decide)
      · exact hnc '\r' (stripBom_mem (parse_body_mem _ _ h1)) rfl
    · rw [h, hnl] at hcout
      simp only [List.mem_append] at hcout
      rcases hcout with ((((h1 | h1) | (h1 | h1)) | h1) | h1) | h1
      · exact absurd h1 (by decide)
      · exact absurd h1 (by decide)
      · exact hp2 _ h1 rfl
      · exact absurd h1 (by decide)
      · exact absurd h1 (by decide)
      · exact absurd h1 (by decide)
      · exact hnc '\r' (stripBom_mem (parse_body_mem _ _ h1)) rfl

/-- Claim C5 counterexample: a document with a lone carriage return contains
no CRLF pair (so the detected style is LF), yet the transform output is not
LF-only — the body keeps its bare CR. -/
theorem C5_counterexample :
    ∃ out info,
      transform_markdown "a\rb".data "t: 1\n".data true [] = .ok (out, info) ∧
      hasCRLF "a\rb".data = false ∧
      '\r' ∈ out :=
  ⟨"---\nt: 1\n---\na\rb".data, ⟨false, false, false, false, ""⟩, rfl, rfl, by decide⟩

theorem C5_newline_fidelity_witness :
    (∀ t : Str, detect_newline t = "\r\n".data ↔
      ∃ i, t.get? i = some '\r' ∧ t.get? (i + 1) = some '\n') ∧
    (crlfOnly (stripBom "B\r\n".data) = true → hasCRLF (stripBom "B\r\n".data) = true →
      ∃ pb, crlfOnly pb = true ∧
        "---\r\nt: 1\r\n---\r\nB\r\n".data =
          "---".data ++ "\r\n".data ++ pb ++ "---".data ++ "\r\n".data ++
          (parse_frontmatter (stripBom "B\r\n".data)).2.2.1) ∧
    ((∀ c ∈ "B\r\n".data, c ≠ '\r') → ∀ c ∈ "---\r\nt: 1\r\n---\r\nB\r\n".data, c ≠ '\r') :=
  C5_newline_fidelity "B\r\n".data "t: 1\n".data true [] "---\r\nt: 1\r\n---\r\nB\r\n".data
    ⟨false, false, false, false, ""⟩ rfl rfl rfl

/-- Claim C7 (corrected): the day comes from the mandatory one- or two-digit
prefix of the base name's stem (absence is a per-document failure); when the
last year-month pattern match in the path is in range it is used and the
fallback is ignored; the fallback is consulted exactly when the extraction
yields nothing — which happens either when no pattern occurrence exists or
when the last occurrence carries an out-of-range month (the latter case
refutes the claim's "fallback only when no occurrence exists", see
`C7_counterexample`); an invalid calendar date is a per-document failure; and
the concrete `03_monday.md` under `2025-12` example substitutes
`2025-12-03`. -/
theorem C7_date_derivation (path : Str) (fb : Option (Nat × Nat)) :
    (dayPrefix (pyStem (pyBasename path)) = none →
      derive_file_date path fb = .error .missingDay) ∧
    (∀ day y m, dayPrefix (pyStem (pyBasename path)) = some day →
      extract_year_month_from_path path = some (y, m) →
      derive_file_date path fb =
        if validDate y m day then .ok (y, m, day) else .error .invalidDate) ∧
    (∀ day, dayPrefix (pyStem (pyBasename path)) = some day →
      extract_year_month_from_path path = none →
      derive_file_date path fb = (match fb with
        | none => .error .noYearMonth
        | some (y, m) =>
          if validDate y m day then .ok (y, m, day) else .error .invalidDate)) ∧
    (∀ y m, extract_year_month_from_path path = some (y, m) ↔
      ((ymList path).getLast? = some (y, m) ∧ 1 ≤ m ∧ m ≤ 12)) ∧
    (∀ strf, derive_file_date "journal/2025-12/03_monday.md".data none =
        .ok (2025, 12, 3) ∧
      substitute_file_date_tokens strf (2025, 12, 3)
        "journal_entry_date: \"{file_date}\"\n".data =
        "journal_entry_date: \"2025-12-03\"\n".data) := by
  refine ⟨?_, ?_, ?_, ?_, ?_⟩
  · intro h
    rw [derive_file_date, h]
  · intro day y m h1 h2
    rw [derive_file_date, h1]
    dsimp only
    rw [h2]
    rfl
  · intro day h1 h2
    rw [derive_file_date, h1]
    dsimp only
    rw [h2]
    cases fb with
    | none => rfl
    | some ym =>
      obtain ⟨y, m⟩ := ym
      rfl
  · intro y m
    rw [extract_year_month_from_path]
    cases hl : (ymList path).getLast? with
    | none => simp
    | some ym2 =>
      obtain ⟨y2, m2⟩ := ym2
      dsimp only
      by_cases hm : 1 ≤ m2 ∧ m2 ≤ 12
      · rw [if_pos hm]
        constructor
        · intro h
          obtain ⟨hy, hm2⟩ := Prod.mk.inj (Option.some.inj h)
          subst hy
          subst hm2
          exact ⟨rfl, hm.1, hm.2⟩
        · rintro ⟨h1, -, -⟩
          exact h1
      · rw [if_neg hm]
        constructor
        · intro h
          exact absurd h (by simp)
        · rintro ⟨h1, hm1, hm2⟩
          obtain ⟨hy, hmm⟩ := Prod.mk.inj (Option.some.inj h1)
          subst hmm
          exact absurd ⟨hm1, hm2⟩ hm
  · intro strf
    exact ⟨rfl, rfl⟩

/-- Claim C7 counterexample: the path `docs/2025-13/05_x.md` contains an
occurrence of the 4-digit/2-digit year-month pattern (`2025-13`), yet the
caller-supplied fallback is used because the occurrence's month is out of
range. -/
theorem C7_counterexample :
    ymList "docs/2025-13/05_x.md".data = [(2025, 13)] ∧
    derive_file_date "docs/2025-13/05_x.md".data (some (2024, 6)) =
      .ok (2024, 6, 5) := by
  exact ⟨rfl, rfl⟩

theorem C7_date_derivation_witness :
    derive_file_date "b/07_note.md".data none = .error .noYearMonth ∧
    derive_file_date "journal/2025-12/03_monday.md".data none = .ok (2025, 12, 3) ∧
    substitute_file_date_tokens (fun _ _ => []) (2025, 12, 3)
      "journal_entry_date: \"{file_date}\"\n".data =
      "journal_entry_date: \"2025-12-03\"\n".data :=
  ⟨(C7_date_derivation "b/07_note.md".data none).2.2.1 7 rfl rfl,
   ((C7_date_derivation "journal/2025-12/03_monday.md".data none).2.2.2.2
     (fun _ _ => [])).1,
   ((C7_date_derivation "journal/2025-12/03_monday.md".data none).2.2.2.2
     (fun _ _ => [])).2⟩

theorem globMatchF_nil_nil (f : Nat) : globMatchF f [] [] = true := by
  cases f <;> rfl

theorem globMatchF_star1 : ∀ (s : Str) (f : Nat), s.length + 1 ≤ f →
    globMatchF f ['*'] s = true := by
  intro s
  induction s with
  | nil =>
    intro f hf
    cases f with
    | zero => omega
    | succ g =>
      rw [globMatchF, if_pos rfl]
      rw [globMatchF_nil_nil]
      rfl
  | cons c sr ih =>
    intro f hf
    cases f with
    | zero => simp at hf
    | succ g =>
      rw [globMatchF, if_pos rfl]
      have h2 := ih g (by simp at hf ⊢; omega)
      rw [h2]
      simp

theorem globMatchF_star2 (s : Str) (f : Nat) (hf : s.length + 2 ≤ f) :
    globMatchF f ('*' :: '*' :: []) s = true := by
  cases f with
  | zero => omega
  | succ g =>
    cases s with
    | nil =>
      rw [globMatchF, if_pos rfl]
      rw [globMatchF_star1 [] g (by simp; omega)]
      rfl
    | cons c sr =>
      rw [globMatchF, if_pos rfl]
      rw [globMatchF_star1 (c :: sr) g (by simp at hf ⊢; omega)]
      rfl

theorem globMatch_starstar (s : Str) : globMatch "**".data s = true := by
  rw [globMatch]
  exact globMatchF_star2 s _ (by rw [show "**".data.length = 2 from rfl]; omega)

theorem drop_last_eq {α : Type} : ∀ (l : List α) (n : α), l.getLast? = some n →
    l.drop (l.length - 1) = [n] := by
  intro l
  induction l with
  | nil => intro n h; simp at h
  | cons a rest ih =>
    intro n h
    cases rest with
    | nil =>
      simp at h
      subst h
      simp
    | cons b r =>
      rw [List.getLast?_cons_cons] at h
      have h2 := ih n h
      rw [show (a :: b :: r).length - 1 = (b :: r).length - 1 + 1 from by
        simp only [List.length_cons]; omega]
      rw [List.drop_succ_cons]
      exact h2

theorem drop_two_shape {α : Type} (l : List α) (h2 : 2 ≤ l.length) (n : α)
    (hl : l.getLast? = some n) : ∃ x, l.drop (l.length - 2) = [x, n] := by
  have hlen : (l.drop (l.length - 2)).length = 2 := by
    rw [List.length_drop]
    omega
  have hlast : (l.drop (l.length - 2)).getLast? = some n := by
    conv_rhs => rw [← hl]
    conv_rhs => rw [← List.take_append_drop (l.length - 2) l]
    rw [List.getLast?_append_of_ne_nil _ (by
      intro hnil
      rw [hnil] at hlen
      simp at hlen)]
  match hd : l.drop (l.length - 2) with
  | [] => rw [hd] at hlen; simp at hlen
  | [x] => rw [hd] at hlen; simp at hlen
  | [x, y] =>
    rw [hd] at hlast
    simp at hlast
    exact ⟨x, by rw [hlast]⟩
  | x :: y :: z :: r => rw [hd] at hlen; simp at hlen

theorem pathMatch_md (rel : List Str) :
    pathMatch "*.md".data rel = true ↔
      ∃ n, rel.getLast? = some n ∧ globMatch "*.md".data n = true := by
  rw [pathMatch]
  dsimp only
  rw [show pathParts "*.md".data = ["*.md".data] from by decide]
  rw [if_neg (by decide), if_neg (by decide)]
  cases rel with
  | nil => simp
  | cons a rest =>
    have hne : (a :: rest) ≠ [] := by simp
    obtain ⟨n, hn⟩ := Option.isSome_iff_exists.mp (List.getLast?_isSome.mpr hne)
    rw [show (["*.md".data] : List Str).length = 1 from rfl]
    rw [drop_last_eq _ n hn]
    rw [show matchZip ["*.md".data] [n] = (globMatch "*.md".data n && true) from rfl]
    constructor
    · intro h
      simp only [Bool.and_eq_true] at h
      exact ⟨n, hn, h.2.1⟩
    · rintro ⟨n2, hn2, hg⟩
      rw [hn] at hn2
      rw [← Option.some.inj hn2] at hg
      simp [hg]

theorem pathMatch_anymd (rel : List Str) :
    pathMatch "**/*.md".data rel = true ↔
      2 ≤ rel.length ∧ ∃ n, rel.getLast? = some n ∧ globMatch "*.md".data n = true := by
  rw [pathMatch]
  dsimp only
  rw [show pathParts "**/*.md".data = ["**".data, "*.md".data] from by decide]
  rw [if_neg (by decide), if_neg (by decide)]
  rw [show (["**".data, "*.md".data] : List Str).length = 2 from rfl]
  constructor
  · intro h
    simp only [Bool.and_eq_true, decide_eq_true_eq] at h
    obtain ⟨hlen, hmz⟩ := h
    have hne : rel ≠ [] := by
      intro hr
      rw [hr] at hlen
      simp at hlen
    obtain ⟨n, hn⟩ := Option.isSome_iff_exists.mp (List.getLast?_isSome.mpr hne)
    obtain ⟨x, hx⟩ := drop_two_shape rel hlen n hn
    rw [hx] at hmz
    rw [show matchZip ["**".data, "*.md".data] [x, n] =
      (globMatch "**".data x && (globMatch "*.md".data n && true)) from rfl] at hmz
    simp only [Bool.and_eq_true] at hmz
    exact ⟨hlen, n, hn, hmz.2.1⟩
  · rintro ⟨hlen, n, hn, hg⟩
    obtain ⟨x, hx⟩ := drop_two_shape rel hlen n hn
    rw [hx]
    rw [show matchZip ["**".data, "*.md".data] [x, n] =
      (globMatch "**".data x && (globMatch "*.md".data n && true)) from rfl]
    rw [globMatch_starstar, hg]
    simp [hlen]

theorem fileMatches_anymd (rel : List Str) :
    fileMatches "**/*.md".data rel = true ↔
      ∃ n, rel.getLast? = some n ∧ globMatch "*.md".data n = true := by
  rw [fileMatches]
  dsimp only
  rw [show replace1 '\\' "/".data "**/*.md".data = "**/*.md".data from by decide]
  rw [if_pos rfl]
  rw [Bool.or_eq_true, pathMatch_anymd, pathMatch_md]
  constructor
  · rintro (⟨-, h⟩ | h) <;> exact h
  · rintro ⟨n, hn, hg⟩
    by_cases h2 : 2 ≤ rel.length
    · exact Or.inl ⟨h2, n, hn, hg⟩
    · exact Or.inr ⟨n, hn, hg⟩

theorem fileMatches_basename (pattern : Str) (rel : List Str)
    (hne : replace1 '\\' "/".data pattern ≠ "**/*.md".data)
    (hns : (replace1 '\\' "/".data pattern).contains '/' = false) :
    fileMatches pattern rel = true ↔
      ∃ n, rel = [n] ∧ globMatch (replace1 '\\' "/".data pattern) n = true := by
  rw [fileMatches]
  dsimp only
  rw [if_neg hne, if_pos (by rw [hns]; rfl)]
  cases rel with
  | nil => simp
  | cons a rest =>
    cases rest with
    | nil =>
      simp only [List.length_cons, List.length_nil, List.getLast?_singleton]
      constructor
      · intro h
        simp only [Bool.and_eq_true, decide_eq_true_eq] at h
        exact ⟨a, rfl, h.2⟩
      · rintro ⟨n, hn, hg⟩
        obtain ⟨ha, -⟩ := List.cons.inj hn
        subst ha
        simp [hg]
    | cons b r =>
      constructor
      · intro h
        simp only [Bool.and_eq_true, decide_eq_true_eq] at h
        have := h.1
        simp at this
      · rintro ⟨n, hn, -⟩
        simp at hn

theorem strLe_cons (a b : Char) (as bs : Str) :
    strLe (a :: as) (b :: bs) = if a = b then strLe as bs else decide (a < b) := rfl

theorem strLe_total : ∀ a b : Str, strLe a b = true ∨ strLe b a = true := by
  intro a
  induction a with
  | nil => intro b; left; rfl
  | cons x xs ih =>
    intro b
    cases b with
    | nil => right; rfl
    | cons y ys =>
      rw [strLe_cons, strLe_cons]
      by_cases hxy : x = y
      · subst hxy
        rw [if_pos rfl, if_pos rfl]
        exact ih ys
      · rw [if_neg hxy, if_neg (Ne.symm hxy)]
        rcases lt_trichotomy x y with h | h | h
        · left; exact decide_eq_true h
        · exact absurd h hxy
        · right; exact decide_eq_true h

theorem strLe_trans : ∀ a b c : Str, strLe a b = true → strLe b c = true →
    strLe a c = true := by
  intro a
  induction a with
  | nil => intro b c _ _; rfl
  | cons x xs ih =>
    intro b c hab hbc
    cases b with
    | nil =>
      rw [show strLe (x :: xs) [] = false from rfl] at hab
      simp at hab
    | cons y ys =>
      cases c with
      | nil =>
        rw [show strLe (y :: ys) [] = false from rfl] at hbc
        simp at hbc
      | cons z zs =>
        rw [strLe_cons] at hab hbc ⊢
        by_cases hxy : x = y
        · subst hxy
          rw [if_pos rfl] at hab
          by_cases hxz : x = z
          · subst hxz
            rw [if_pos rfl] at hbc ⊢
            exact ih ys zs hab hbc
          · rw [if_neg hxz] at hbc ⊢
            exact hbc
        · rw [if_neg hxy] at hab
          have hlt1 : x < y := of_decide_eq_true hab
          by_cases hyz : y = z
          · subst hyz
            rw [if_neg hxy]
            exact decide_eq_true hlt1
          · rw [if_neg hyz] at hbc
            have hlt2 : y < z := of_decide_eq_true hbc
            rw [if_neg (ne_of_lt (lt_trans hlt1 hlt2))]
            exact decide_eq_true (lt_trans hlt1 hlt2)

theorem strLe_antisymm : ∀ a b : Str, strLe a b = true → strLe b a = true →
    a = b := by
  intro a
  induction a with
  | nil =>
    intro b _ hba
    cases b with
    | nil => rfl
    | cons y ys =>
      rw [show strLe (y :: ys) [] = false from rfl] at hba
      simp at hba
  | cons x xs ih =>
    intro b hab hba
    cases b with
    | nil =>
      rw [show strLe (x :: xs) [] = false from rfl] at hab
      simp at hab
    | cons y ys =>
      rw [strLe_cons] at hab hba
      by_cases hxy : x = y
      · subst hxy
        rw [if_pos rfl] at hab hba
        rw [ih ys hab hba]
      · rw [if_neg hxy] at hab
        rw [if_neg (Ne.symm hxy)] at hba
        exact absurd (of_decide_eq_true hba) (lt_asymm (of_decide_eq_true hab))

instance : IsTotal Str SLe :=
  ⟨fun a b => by
    rcases strLe_total a b with h | h
    · exact Or.inl h
    · exact Or.inr h⟩

instance : IsTrans Str SLe := ⟨fun a b c => strLe_trans a b c⟩

instance : IsAntisymm Str SLe := ⟨fun a b => strLe_antisymm a b⟩

theorem walkDirs_eq_flatten (excl : List Str) (pm : List Str → Bool) (dp : Str)
    (rel : List Str) : ∀ l : List (Str × FSTree),
    walkDirs excl pm dp rel l =
      ((l.map (fun d => if d.1 ∈ excl then [] else
          (walkTree excl pm (pathJoin dp d.1) (rel ++ [d.1]) d.2).1)).flatten,
       (l.map (fun d => if d.1 ∈ excl then [] else
          (walkTree excl pm (pathJoin dp d.1) (rel ++ [d.1]) d.2).2)).flatten) := by
  intro l
  induction l with
  | nil => rfl
  | cons d rest ih =>
    obtain ⟨n, sub⟩ := d
    rw [walkDirs]
    by_cases hx : n ∈ excl
    · rw [if_pos hx, ih]
      simp [hx]
    · rw [if_neg hx, ih]
      simp [hx]

theorem walkDirs_perm (excl : List Str) (pm : List Str → Bool) (dp : Str)
    (rel : List Str) {l1 l2 : List (Str × FSTree)} (hp : l1.Perm l2) :
    (walkDirs excl pm dp rel l1).1.Perm (walkDirs excl pm dp rel l2).1 ∧
    (walkDirs excl pm dp rel l1).2.Perm (walkDirs excl pm dp rel l2).2 := by
  rw [walkDirs_eq_flatten, walkDirs_eq_flatten]
  exact ⟨(hp.map _).flatten, (hp.map _).flatten⟩

theorem canonDirs_skip_map (excl : List Str) (dp : Str) : ∀ l : List (Str × FSTree),
    ((canonDirs l).filter (fun d => decide (d.1 ∈ excl))).map
      (fun d => pathJoin dp d.1) =
    (l.filter (fun d => decide (d.1 ∈ excl))).map (fun d => pathJoin dp d.1) := by
  intro l
  induction l with
  | nil => rfl
  | cons d rest ih =>
    obtain ⟨n, sub⟩ := d
    rw [canonDirs]
    by_cases hx : n ∈ excl
    · simp [List.filter_cons, hx, ih]
    · simp [List.filter_cons, hx, ih]

mutual

theorem walkTree_canon_perm (excl : List Str) (pm : List Str → Bool) :
    ∀ (t : FSTree) (dp : Str) (rel : List Str),
      (walkTree excl pm dp rel t.canon).1.Perm (walkTree excl pm dp rel t).1 ∧
      (walkTree excl pm dp rel t.canon).2.Perm (walkTree excl pm dp rel t).2
  | .mk dirs files => by
    intro dp rel
    rw [FSTree.canon]
    rw [walkTree, walkTree]
    dsimp only
    have hfiles : ((files.insertionSort SLe).filter
        (fun f => pm (rel ++ [f]))).map (fun f => pathJoin dp f) |>.Perm
        ((files.filter (fun f => pm (rel ++ [f]))).map (fun f => pathJoin dp f)) :=
      (((List.perm_insertionSort SLe files).filter _).map _)
    have hdirsPerm : ((canonDirs dirs).insertionSort (fun a b => SLe a.1 b.1)).Perm
        (canonDirs dirs) := List.perm_insertionSort _ _
    have hskip : (((canonDirs dirs).insertionSort (fun a b => SLe a.1 b.1)).filter
        (fun d => decide (d.1 ∈ excl))).map (fun d => pathJoin dp d.1) |>.Perm
        ((dirs.filter (fun d => decide (d.1 ∈ excl))).map (fun d => pathJoin dp d.1)) := by
      refine ((hdirsPerm.filter _).map _).trans ?_
      rw [canonDirs_skip_map]
    have hwd1 := walkDirs_perm excl pm dp rel hdirsPerm
    have hwd2 := walkDirs_canon_perm excl pm dirs dp rel
    exact ⟨hfiles.append (hwd1.1.trans hwd2.1), hskip.append (hwd1.2.trans hwd2.2)⟩

theorem walkDirs_canon_perm (excl : List Str) (pm : List Str → Bool) :
    ∀ (l : List (Str × FSTree)) (dp : Str) (rel : List Str),
      (walkDirs excl pm dp rel (canonDirs l)).1.Perm (walkDirs excl pm dp rel l).1 ∧
      (walkDirs excl pm dp rel (canonDirs l)).2.Perm (walkDirs excl pm dp rel l).2
  | [] => by
    intro dp rel
    exact ⟨.refl _, .refl _⟩
  | (n, sub) :: rest => by
    intro dp rel
    rw [canonDirs]
    rw [walkDirs, walkDirs]
    by_cases hx : n ∈ excl
    · rw [if_pos hx, if_pos hx]
      exact walkDirs_canon_perm excl pm rest dp rel
    · rw [if_neg hx, if_neg hx]
      dsimp only
      have h1 := walkTree_canon_perm excl pm sub (pathJoin dp n) (rel ++ [n])
      have h2 := walkDirs_canon_perm excl pm rest dp rel
      exact ⟨h1.1.append h2.1, h1.2.append h2.2⟩

end

theorem collect_canon (t : FSTree) (rootPath pattern : Str) (excl : List Str) :
    collect_target_files t.canon rootPath pattern excl =
      collect_target_files t rootPath pattern excl := by
  rw [collect_target_files, collect_target_files]
  obtain ⟨h1, h2⟩ := walkTree_canon_perm excl (fileMatches pattern) t rootPath []
  have e1 : ((walkTree excl (fileMatches pattern) rootPath [] t.canon).1.insertionSort
      SLe) = ((walkTree excl (fileMatches pattern) rootPath [] t).1.insertionSort
      SLe) :=
    List.eq_of_perm_of_sorted
      (((List.perm_insertionSort SLe _).trans h1).trans
        (List.perm_insertionSort SLe _).symm)
      (List.sorted_insertionSort SLe _) (List.sorted_insertionSort SLe _)
  have e2 : ((walkTree excl (fileMatches pattern) rootPath [] t.canon).2.insertionSort
      SLe) = ((walkTree excl (fileMatches pattern) rootPath [] t).2.insertionSort
      SLe) :=
    List.eq_of_perm_of_sorted
      (((List.perm_insertionSort SLe _).trans h2).trans
        (List.perm_insertionSort SLe _).symm)
      (List.sorted_insertionSort SLe _) (List.sorted_insertionSort SLe _)
  rw [e1, e2]

/-- Claim C8 (discovery pattern semantics and deterministic order): a
separator-free pattern (other than the special `**/*.md`) accepts exactly the
root-level files whose base name it glob-matches; `**/*.md` accepts exactly
the files whose base name glob-matches `*.md`, at every depth including the
root; both returned lists are sorted lexicographically by full path; the
result only depends on the canonical form of the tree (so it is independent
of filesystem enumeration order); and the two-file example returns `a.md`
alone under `*.md` and both files, sorted, under `**/*.md`. -/
theorem C8_discovery (t : FSTree) (rootPath pattern : Str) (excl : List Str) :
    ((collect_target_files t rootPath pattern excl).1.Sorted SLe ∧
     (collect_target_files t rootPath pattern excl).2.Sorted SLe) ∧
    (collect_target_files t.canon rootPath pattern excl =
      collect_target_files t rootPath pattern excl) ∧
    (replace1 '\\' "/".data pattern ≠ "**/*.md".data →
      (replace1 '\\' "/".data pattern).contains '/' = false →
      ∀ rel, fileMatches pattern rel = true ↔
        ∃ n, rel = [n] ∧ globMatch (replace1 '\\' "/".data pattern) n = true) ∧
    (∀ rel, fileMatches "**/*.md".data rel = true ↔
      ∃ n, rel.getLast? = some n ∧ globMatch "*.md".data n = true) ∧
    (collect_target_files (.mk [("sub".data, .mk [] ["b.md".data])] ["a.md".data])
        "T".data "*.md".data [] = (["T/a.md".data], []) ∧
     collect_target_files (.mk [("sub".data, .mk [] ["b.md".data])] ["a.md".data])
        "T".data "**/*.md".data [] =
        (["T/a.md".data, "T/sub/b.md".data], [])) := by
  refine ⟨⟨List.sorted_insertionSort SLe _, List.sorted_insertionSort SLe _⟩,
    collect_canon t rootPath pattern excl, ?_, fileMatches_anymd, by decide⟩
  intro hne hns rel
  exact fileMatches_basename pattern rel hne hns

theorem C8_discovery_witness :
    fileMatches "**/*.md".data ["sub".data, "b.md".data] = true ∧
    (fileMatches "x*.md".data ["c.md".data, "xa.md".data] = true →
      ∃ n, ["c.md".data, "xa.md".data] = [n] ∧
        globMatch (replace1 '\\' "/".data "x*.md".data) n = true) ∧
    collect_target_files (.mk [("sub".data, .mk [] ["b.md".data])] ["a.md".data])
        "T".data "*.md".data [] = (["T/a.md".data], []) :=
  ⟨((C8_discovery (.mk [] []) "T".data "*.md".data []).2.2.2.1
      ["sub".data, "b.md".data]).mpr ⟨"b.md".data, by decide, by decide⟩,
   fun hm => ((C8_discovery (.mk [] []) "T".data "x*.md".data []).2.2.1
      (by decide) (by decide) ["c.md".data, "xa.md".data]).mp hm,
   ((C8_discovery (.mk [] []) "T".data "*.md".data []).2.2.2.2).1⟩

theorem slashFree_sep_eq : ∀ (a b x y : Str), '/' ∉ a → '/' ∉ b →
    a ++ '/' :: x = b ++ '/' :: y → a = b ∧ x = y := by
  intro a
  induction a with
  | nil =>
    intro b x y _ hb h
    cases b with
    | nil =>
      simp only [List.nil_append, List.cons.injEq] at h
      exact ⟨rfl, h.2⟩
    | cons c bs =>
      simp only [List.nil_append, List.cons_append, List.cons.injEq] at h
      exact absurd (by rw [h.1]; exact List.mem_cons_self c bs) hb
  | cons c as ih =>
    intro b x y ha hb h
    cases b with
    | nil =>
      simp only [List.nil_append, List.cons_append, List.cons.injEq] at h
      exact absurd (by rw [← h.1]; exact List.mem_cons_self c as) ha
    | cons c2 bs =>
      simp only [List.cons_append, List.cons.injEq] at h
      obtain ⟨hc, ht⟩ := h
      obtain ⟨h1, h2⟩ := ih bs x y (fun hm => ha (List.mem_cons_of_mem _ hm))
        (fun hm => hb (List.mem_cons_of_mem _ hm)) ht
      exact ⟨by rw [hc, h1], h2⟩

theorem pathJoin_inj {dp a b : Str} (h : pathJoin dp a = pathJoin dp b) : a = b := by
  rw [pathJoin, pathJoin] at h
  have h2 := List.append_cancel_left h
  injection h2

theorem nodup_keys_eq {α β : Type} : ∀ {l : List (α × β)} {a : α} {b c : β},
    (l.map Prod.fst).Nodup → (a, b) ∈ l → (a, c) ∈ l → b = c := by
  intro l
  induction l with
  | nil => intro a b c _ h; cases h
  | cons d rest ih =>
    intro a b c hnd hb hc
    rw [List.map_cons, List.nodup_cons] at hnd
    cases hb with
    | head =>
      cases hc with
      | head => rfl
      | tail _ hc2 => exact absurd (List.mem_map.mpr ⟨(a, c), hc2, rfl⟩) hnd.1
    | tail _ hb2 =>
      cases hc with
      | head => exact absurd (List.mem_map.mpr ⟨(a, b), hb2, rfl⟩) hnd.1
      | tail _ hc2 => exact ih hnd.2 hb2 hc2

theorem wfDirs_mem : ∀ {l : List (Str × FSTree)} {n : Str} {sub : FSTree},
    wfDirs l → (n, sub) ∈ l → FSTree.wf sub := by
  intro l
  induction l with
  | nil => intro n sub _ h; cases h
  | cons d rest ih =>
    intro n sub hwf hmem
    obtain ⟨d1, d2⟩ := d
    rw [wfDirs] at hwf
    cases hmem with
    | head => exact hwf.1
    | tail _ h => exact ih hwf.2 h

theorem SkipSpec.skip_shape {excl : List Str} {t : FSTree} {dp s : Str}
    (h : SkipSpec excl t dp s) : ∃ r, s = dp ++ '/' :: r := by
  induction h with
  | here dirs files dp2 n sub hmem hx => exact ⟨n, rfl⟩
  | deeper dirs files dp2 n sub p hmem hnx hsk ih =>
    obtain ⟨r, hr⟩ := ih
    refine ⟨n ++ '/' :: r, ?_⟩
    rw [hr, pathJoin]
    simp only [List.cons_append, List.append_assoc]

theorem FileSpec.file_shape {excl : List Str} {pm : List Str → Bool} {t : FSTree}
    {dp : Str} {rel : List Str} {f : Str}
    (h : FileSpec excl pm t dp rel f) : ∃ r, f = dp ++ '/' :: r := by
  induction h with
  | here dirs files dp2 rel2 f0 hf0 hpm => exact ⟨f0, rfl⟩
  | deeper dirs files dp2 rel2 n sub p hmem hnx hsub ih =>
    obtain ⟨r, hr⟩ := ih
    refine ⟨n ++ '/' :: r, ?_⟩
    rw [hr, pathJoin]
    simp only [List.cons_append, List.append_assoc]

mutual

theorem walkTree_skip_iff (excl : List Str) (pm : List Str → Bool) :
    ∀ (t : FSTree) (dp : Str) (rel : List Str) (s : Str),
      s ∈ (walkTree excl pm dp rel t).2 ↔ SkipSpec excl t dp s
  | .mk dirs files => by
    intro dp rel s
    rw [walkTree]
    dsimp only
    rw [List.mem_append]
    have hd := walkDirs_skip_iff excl pm dirs dp rel s
    constructor
    · rintro (hs | hs)
      · rw [List.mem_map] at hs
        obtain ⟨d, hdf, hds⟩ := hs
        rw [List.mem_filter] at hdf
        obtain ⟨n, sub⟩ := d
        rw [← hds]
        exact SkipSpec.here dirs files dp n sub hdf.1 (of_decide_eq_true hdf.2)
      · rw [hd] at hs
        obtain ⟨n, sub, hmem, hnx, hsk⟩ := hs
        exact SkipSpec.deeper dirs files dp n sub s hmem hnx hsk
    · intro h
      cases h with
      | here dirs2 files2 dp2 n sub hmem hx =>
        exact Or.inl (List.mem_map.mpr ⟨(n, sub),
          List.mem_filter.mpr ⟨hmem, decide_eq_true hx⟩, rfl⟩)
      | deeper dirs2 files2 dp2 n sub p hmem hnx hsk =>
        exact Or.inr (hd.mpr ⟨n, sub, hmem, hnx, hsk⟩)

theorem walkDirs_skip_iff (excl : List Str) (pm : List Str → Bool) :
    ∀ (l : List (Str × FSTree)) (dp : Str) (rel : List Str) (s : Str),
      s ∈ (walkDirs excl pm dp rel l).2 ↔
        ∃ n sub, (n, sub) ∈ l ∧ n ∉ excl ∧ SkipSpec excl sub (pathJoin dp n) s
  | [] => by
    intro dp rel s
    rw [walkDirs]
    constructor
    · intro h; cases h
    · rintro ⟨n, sub, hmem, -, -⟩; cases hmem
  | (n, sub) :: rest => by
    intro dp rel s
    rw [walkDirs]
    have ht := walkTree_skip_iff excl pm sub (pathJoin dp n) (rel ++ [n]) s
    have hr := walkDirs_skip_iff excl pm rest dp rel s
    by_cases hx : n ∈ excl
    · rw [if_pos hx, hr]
      constructor
      · rintro ⟨q, sb, hq, hqx, hsk⟩
        exact ⟨q, sb, .tail _ hq, hqx, hsk⟩
      · rintro ⟨q, sb, hq, hqx, hsk⟩
        cases hq with
        | head => exact absurd hx hqx
        | tail _ hq2 => exact ⟨q, sb, hq2, hqx, hsk⟩
    · rw [if_neg hx]
      dsimp only
      rw [List.mem_append, ht, hr]
      constructor
      · rintro (hsk | ⟨q, sb, hq, hqx, hsk⟩)
        · exact ⟨n, sub, .head _, hx, hsk⟩
        · exact ⟨q, sb, .tail _ hq, hqx, hsk⟩
      · rintro ⟨q, sb, hq, hqx, hsk⟩
        cases hq with
        | head => exact Or.inl hsk
        | tail _ hq2 => exact Or.inr ⟨q, sb, hq2, hqx, hsk⟩

end

mutual

theorem walkTree_file_iff (excl : List Str) (pm : List Str → Bool) :
    ∀ (t : FSTree) (dp : Str) (rel : List Str) (f : Str),
      f ∈ (walkTree excl pm dp rel t).1 ↔ FileSpec excl pm t dp rel f
  | .mk dirs files => by
    intro dp rel f
    rw [walkTree]
    dsimp only
    rw [List.mem_append]
    have hd := walkDirs_file_iff excl pm dirs dp rel f
    constructor
    · rintro (hf | hf)
      · rw [List.mem_map] at hf
        obtain ⟨f0, hf0, hff⟩ := hf
        rw [List.mem_filter] at hf0
        rw [← hff]
        exact FileSpec.here dirs files dp rel f0 hf0.1 hf0.2
      · rw [hd] at hf
        obtain ⟨n, sub, hmem, hnx, hsub⟩ := hf
        exact FileSpec.deeper dirs files dp rel n sub f hmem hnx hsub
    · intro h
      cases h with
      | here dirs2 files2 dp2 rel2 f0 hf0 hpm =>
        exact Or.inl (List.mem_map.mpr ⟨f0, List.mem_filter.mpr ⟨hf0, hpm⟩, rfl⟩)
      | deeper dirs2 files2 dp2 rel2 n sub p hmem hnx hsub =>
        exact Or.inr (hd.mpr ⟨n, sub, hmem, hnx, hsub⟩)

theorem walkDirs_file_iff (excl : List Str) (pm : List Str → Bool) :
    ∀ (l : List (Str × FSTree)) (dp : Str) (rel : List Str) (f : Str),
      f ∈ (walkDirs excl pm dp rel l).1 ↔
        ∃ n sub, (n, sub) ∈ l ∧ n ∉ excl ∧
          FileSpec excl pm sub (pathJoin dp n) (rel ++ [n]) f
  | [] => by
    intro dp rel f
    rw [walkDirs]
    constructor
    · intro h; cases h
    · rintro ⟨n, sub, hmem, -, -⟩; cases hmem
  | (n, sub) :: rest => by
    intro dp rel f
    rw [walkDirs]
    have ht := walkTree_file_iff excl pm sub (pathJoin dp n) (rel ++ [n]) f
    have hr := walkDirs_file_iff excl pm rest dp rel f
    by_cases hx : n ∈ excl
    · rw [if_pos hx, hr]
      constructor
      · rintro ⟨q, sb, hq, hqx, hsub⟩
        exact ⟨q, sb, .tail _ hq, hqx, hsub⟩
      · rintro ⟨q, sb, hq, hqx, hsub⟩
        cases hq with
        | head => exact absurd hx hqx
        | tail _ hq2 => exact ⟨q, sb, hq2, hqx, hsub⟩
    · rw [if_neg hx]
      dsimp only
      rw [List.mem_append, ht, hr]
      constructor
      · rintro (hsub | ⟨q, sb, hq, hqx, hsub⟩)
        · exact ⟨n, sub, .head _, hx, hsub⟩
        · exact ⟨q, sb, .tail _ hq, hqx, hsub⟩
      · rintro ⟨q, sb, hq, hqx, hsub⟩
        cases hq with
        | head => exact Or.inl hsub
        | tail _ hq2 => exact Or.inr ⟨q, sb, hq2, hqx, hsub⟩

end

mutual

theorem walkTree_skip_nodup (excl : List Str) (pm : List Str → Bool) :
    ∀ (t : FSTree) (dp : Str) (rel : List Str), FSTree.wf t →
      ((walkTree excl pm dp rel t).2).Nodup
  | .mk dirs files => by
    intro dp rel hwf
    rw [FSTree.wf] at hwf
    obtain ⟨hdn, hfn, hnd, hfd, hsubs⟩ := hwf
    rw [walkTree]
    dsimp only
    refine List.Nodup.append ?_
      (walkDirs_skip_nodup excl pm dirs dp rel hdn hnd hsubs) ?_
    · have e1 : (dirs.filter (fun d => decide (d.1 ∈ excl))).map
          (fun d => pathJoin dp d.1) =
          ((dirs.filter (fun d => decide (d.1 ∈ excl))).map Prod.fst).map
            (fun q => pathJoin dp q) := by
        rw [List.map_map]
        rfl
      rw [e1]
      refine List.Nodup.map (fun a b hab => pathJoin_inj hab) ?_
      exact List.Nodup.sublist ((List.filter_sublist dirs).map Prod.fst) hnd
    · intro s hs1 hs2
      rw [List.mem_map] at hs1
      obtain ⟨d, hdf, hds⟩ := hs1
      rw [List.mem_filter] at hdf
      have hdd : d ∈ dirs := hdf.1
      obtain ⟨q, sb, hq, hqx, hsk⟩ := (walkDirs_skip_iff excl pm dirs dp rel s).mp hs2
      obtain ⟨r2, hr2⟩ := hsk.skip_shape
      have h12 : pathJoin dp d.1 = pathJoin dp q ++ '/' :: r2 := by rw [hds, hr2]
      rw [pathJoin, pathJoin, List.append_assoc, List.cons_append] at h12
      have h13 := List.append_cancel_left h12
      injection h13 with h14 h15
      have hsl : '/' ∈ d.1 := by
        rw [h15]
        exact List.mem_append.mpr (Or.inr (.head _))
      exact (hdn d hdd).2 hsl

theorem walkDirs_skip_nodup (excl : List Str) (pm : List Str → Bool) :
    ∀ (l : List (Str × FSTree)) (dp : Str) (rel : List Str),
      (∀ d ∈ l, d.1 ≠ [] ∧ '/' ∉ d.1) → (l.map Prod.fst).Nodup → wfDirs l →
      ((walkDirs excl pm dp rel l).2).Nodup
  | [] => by
    intro dp rel _ _ _
    rw [walkDirs]
    exact List.nodup_nil
  | (n, sub) :: rest => by
    intro dp rel hsl hnd hwfd
    rw [wfDirs] at hwfd
    rw [List.map_cons, List.nodup_cons] at hnd
    rw [walkDirs]
    by_cases hx : n ∈ excl
    · rw [if_pos hx]
      exact walkDirs_skip_nodup excl pm rest dp rel
        (fun d hd => hsl d (.tail _ hd)) hnd.2 hwfd.2
    · rw [if_neg hx]
      dsimp only
      refine List.Nodup.append
        (walkTree_skip_nodup excl pm sub (pathJoin dp n) (rel ++ [n]) hwfd.1)
        (walkDirs_skip_nodup excl pm rest dp rel
          (fun d hd => hsl d (.tail _ hd)) hnd.2 hwfd.2) ?_
      intro s hs1 hs2
      have h1 := (walkTree_skip_iff excl pm sub (pathJoin dp n) (rel ++ [n]) s).mp hs1
      obtain ⟨q, sb, hq, hqx, hsk⟩ := (walkDirs_skip_iff excl pm rest dp rel s).mp hs2
      obtain ⟨r1, hr1⟩ := h1.skip_shape
      obtain ⟨r2, hr2⟩ := hsk.skip_shape
      have h12 : pathJoin dp n ++ '/' :: r1 = pathJoin dp q ++ '/' :: r2 := by
        rw [← hr1, ← hr2]
      rw [pathJoin, pathJoin, List.append_assoc, List.append_assoc,
        List.cons_append, List.cons_append] at h12
      have h13 := List.append_cancel_left h12
      injection h13 with h14 h15
      obtain ⟨hnq, -⟩ := slashFree_sep_eq n q r1 r2 (hsl (n, sub) (.head _)).2
        (hsl (q, sb) (.tail _ hq)).2 h15
      exact hnd.1 (by rw [hnq]; exact List.mem_map.mpr ⟨(q, sb), hq, rfl⟩)

end

theorem skip_file_disjoint (excl : List Str) (pm : List Str → Bool) :
    ∀ {t : FSTree} {dp s : Str}, SkipSpec excl t dp s → FSTree.wf t →
      ∀ {rel : List Str} {f : Str}, FileSpec excl pm t dp rel f →
      ∀ r : Str, f ≠ s ++ '/' :: r := by
  intro t dp s hskip
  induction hskip with
  | here dirs files dp2 n sub hmem hx =>
    intro hwf rel f hf r hfe
    rw [FSTree.wf] at hwf
    cases hf with
    | here dirs3 files3 dp3 rel3 f0 hf0 hpm =>
      have h12 : pathJoin dp2 f0 = pathJoin dp2 n ++ '/' :: r := hfe
      rw [pathJoin, pathJoin, List.append_assoc, List.cons_append] at h12
      have h13 := List.append_cancel_left h12
      injection h13 with h14 h15
      have hsl : '/' ∈ f0 := by
        rw [h15]
        exact List.mem_append.mpr (Or.inr (.head _))
      exact (hwf.2.1 f0 hf0).2 hsl
    | deeper dirs3 files3 dp3 rel3 q sb p2 hq hqx hsub =>
      obtain ⟨r2, hr2⟩ := hsub.file_shape
      have h12 : pathJoin dp2 q ++ '/' :: r2 = pathJoin dp2 n ++ '/' :: r := by
        rw [← hr2, hfe]
      rw [pathJoin, pathJoin, List.append_assoc, List.append_assoc,
        List.cons_append, List.cons_append] at h12
      have h13 := List.append_cancel_left h12
      injection h13 with h14 h15
      obtain ⟨hqn, -⟩ := slashFree_sep_eq q n r2 r (hwf.1 (q, sb) hq).2
        (hwf.1 (n, sub) hmem).2 h15
      exact hqx (by rw [hqn]; exact hx)
  | deeper dirs files dp2 n sub p hmem hnx hsk ih =>
    intro hwf rel f hf r hfe
    rw [FSTree.wf] at hwf
    obtain ⟨rs, hrs⟩ := hsk.skip_shape
    cases hf with
    | here dirs3 files3 dp3 rel3 f0 hf0 hpm =>
      have h12 : pathJoin dp2 f0 = (pathJoin dp2 n ++ '/' :: rs) ++ '/' :: r := by
        rw [hfe, hrs]
      rw [pathJoin, pathJoin, List.append_assoc, List.append_assoc,
        List.cons_append, List.cons_append] at h12
      have h13 := List.append_cancel_left h12
      injection h13 with h14 h15
      have hsl : '/' ∈ f0 := by
        rw [h15]
        exact List.mem_append.mpr (Or.inr (.head _))
      exact (hwf.2.1 f0 hf0).2 hsl
    | deeper dirs3 files3 dp3 rel3 q sb f2 hq hqx hsub =>
      obtain ⟨rf, hrf⟩ := hsub.file_shape
      have h12 : pathJoin dp2 q ++ '/' :: rf = (pathJoin dp2 n ++ '/' :: rs) ++ '/' :: r := by
        rw [← hrf, hfe, hrs]
      rw [pathJoin, pathJoin, List.append_assoc, List.append_assoc, List.append_assoc,
        List.cons_append, List.cons_append, List.cons_append] at h12
      have h13 := List.append_cancel_left h12
      injection h13 with h14 h15
      obtain ⟨hqn, -⟩ := slashFree_sep_eq q n rf (rs ++ '/' :: r) (hwf.1 (q, sb) hq).2
        (hwf.1 (n, sub) hmem).2 h15
      subst hqn
      have hsbe : sb = sub := nodup_keys_eq hwf.2.2.1 hq hmem
      subst hsbe
      exact ih (wfDirs_mem hwf.2.2.2.2 hmem) hsub r hfe

/-- Claim C9 (pruning invariant): over a well-formed directory tree (nonempty
separator-free names, distinct sibling directory names), the pruned list of
`collect_target_files` contains a path exactly when it is an excluded child
of a directory reached through non-excluded directories only — so an
excluded directory is never descended into and deeper occurrences inside it
are not listed; the pruned list has no duplicates, so each such position
appears exactly once; the returned file list contains exactly the matching
files reachable through non-excluded directories; and no returned file path
lies strictly under any pruned directory path. -/
theorem C9_pruning (t : FSTree) (rootPath pattern : Str) (excl : List Str)
    (hwf : FSTree.wf t) :
    (∀ s, s ∈ (collect_target_files t rootPath pattern excl).2 ↔
       SkipSpec excl t rootPath s) ∧
    ((collect_target_files t rootPath pattern excl).2).Nodup ∧
    (∀ f, f ∈ (collect_target_files t rootPath pattern excl).1 ↔
       FileSpec excl (fileMatches pattern) t rootPath [] f) ∧
    (∀ s ∈ (collect_target_files t rootPath pattern excl).2,
      ∀ f ∈ (collect_target_files t rootPath pattern excl).1,
      ∀ r : Str, f ≠ s ++ '/' :: r) := by
  have hm2 : ∀ s : Str, s ∈ (collect_target_files t rootPath pattern excl).2 ↔
      s ∈ (walkTree excl (fileMatches pattern) rootPath [] t).2 := fun s =>
    (List.perm_insertionSort SLe _).mem_iff
  have hm1 : ∀ f : Str, f ∈ (collect_target_files t rootPath pattern excl).1 ↔
      f ∈ (walkTree excl (fileMatches pattern) rootPath [] t).1 := fun f =>
    (List.perm_insertionSort SLe _).mem_iff
  refine ⟨?_, ?_, ?_, ?_⟩
  · intro s
    exact (hm2 s).trans (walkTree_skip_iff excl (fileMatches pattern) t rootPath [] s)
  · exact (List.perm_insertionSort SLe _).nodup_iff.mpr
      (walkTree_skip_nodup excl (fileMatches pattern) t rootPath [] hwf)
  · intro f
    exact (hm1 f).trans (walkTree_file_iff excl (fileMatches pattern) t rootPath [] f)
  · intro s hs f hf r
    exact skip_file_disjoint excl (fileMatches pattern)
      ((walkTree_skip_iff excl (fileMatches pattern) t rootPath [] s).mp ((hm2 s).mp hs))
      hwf
      ((walkTree_file_iff excl (fileMatches pattern) t rootPath [] f).mp ((hm1 f).mp hf))
      r

theorem C9_pruning_witness :
    "T/.git".data ∈ (collect_target_files (.mk [("sub".data, .mk [] ["b.md".data]),
        (".git".data, .mk [] ["x.md".data, "y.md".data])] ["a.md".data])
        "T".data "**/*.md".data [".git".data]).2 ∧
    ((collect_target_files (.mk [("sub".data, .mk [] ["b.md".data]),
        (".git".data, .mk [] ["x.md".data, "y.md".data])] ["a.md".data])
        "T".data "**/*.md".data [".git".data]).2).Nodup ∧
    "T/sub/b.md".data ∈ (collect_target_files (.mk [("sub".data, .mk [] ["b.md".data]),
        (".git".data, .mk [] ["x.md".data, "y.md".data])] ["a.md".data])
        "T".data "**/*.md".data [".git".data]).1 ∧
    "T/sub/b.md".data ≠ "T/.git".data ++ '/' :: "x.md".data := by
  have hwf0 : FSTree.wf (.mk [("sub".data, .mk [] ["b.md".data]),
      (".git".data, .mk [] ["x.md".data, "y.md".data])] ["a.md".data]) := by
    simp only [FSTree.wf, wfDirs]
    refine ⟨by decide, by decide, by decide, by decide, ⟨by decide, by decide, by decide,
      by decide, trivial⟩, ⟨by decide, by decide, by decide, by decide, trivial⟩, trivial⟩
  have h := C9_pruning (.mk [("sub".data, .mk [] ["b.md".data]),
      (".git".data, .mk [] ["x.md".data, "y.md".data])] ["a.md".data])
      "T".data "**/*.md".data [".git".data] hwf0
  have hskip : SkipSpec [".git".data] (.mk [("sub".data, .mk [] ["b.md".data]),
      (".git".data, .mk [] ["x.md".data, "y.md".data])] ["a.md".data]) "T".data
      "T/.git".data := by
    have he : pathJoin "T".data ".git".data = "T/.git".data := by decide
    rw [← he]
    exact SkipSpec.here _ _ _ _ _ (.tail _ (.head _)) (.head _)
  have hfile : FileSpec [".git".data] (fileMatches "**/*.md".data)
      (.mk [("sub".data, .mk [] ["b.md".data]),
        (".git".data, .mk [] ["x.md".data, "y.md".data])] ["a.md".data]) "T".data []
      "T/sub/b.md".data := by
    have he : pathJoin (pathJoin "T".data "sub".data) "b.md".data =
        "T/sub/b.md".data := by decide
    rw [← he]
    refine FileSpec.deeper _ _ _ _ "sub".data (.mk [] ["b.md".data]) _
      (.head _) (by decide) ?_
    exact FileSpec.here _ _ _ _ _ (.head _) (by decide)
  have h1 := (h.1 "T/.git".data).mpr hskip
  have h3 := (h.2.2.1 "T/sub/b.md".data).mpr hfile
  exact ⟨h1, h.2.1, h3, h.2.2.2 _ h1 _ h3 "x.md".data⟩

theorem takeWhile_append_all {p : Char → Bool} : ∀ (a b : Str), (∀ c ∈ a, p c = true) →
    (a ++ b).takeWhile p = a ++ b.takeWhile p := by
  intro a
  induction a with
  | nil => intro b h; simp
  | cons c as ih =>
    intro b h
    rw [List.cons_append, List.takeWhile_cons, if_pos (h c (.head _)),
      ih b (fun x hx => h x (.tail _ hx)), List.cons_append]

theorem dropWhile_append_all {p : Char → Bool} : ∀ (a b : Str), (∀ c ∈ a, p c = true) →
    (a ++ b).dropWhile p = b.dropWhile p := by
  intro a
  induction a with
  | nil => intro b h; simp
  | cons c as ih =>
    intro b h
    rw [List.cons_append, List.dropWhile_cons, if_pos (h c (.head _)),
      ih b (fun x hx => h x (.tail _ hx))]

theorem dropWhile_append_not_all {p : Char → Bool} : ∀ (a b : Str) (c0 : Char),
    c0 ∈ a → p c0 = false →
    (a ++ b).dropWhile p = a.dropWhile p ++ b ∧ a.dropWhile p ≠ [] := by
  intro a
  induction a with
  | nil => intro b c0 h _; cases h
  | cons c as ih =>
    intro b c0 hmem hp
    by_cases hc : p c = true
    · have hc0 : c0 ∈ as := by
        cases hmem with
        | head => rw [hp] at hc; cases hc
        | tail _ h2 => exact h2
      obtain ⟨h1, h2⟩ := ih b c0 hc0 hp
      constructor
      · rw [List.cons_append, List.dropWhile_cons, if_pos hc, h1, List.dropWhile_cons,
          if_pos hc]
      · rw [List.dropWhile_cons, if_pos hc]
        exact h2
    · constructor
      · rw [List.cons_append, List.dropWhile_cons, if_neg hc, List.dropWhile_cons,
          if_neg hc, List.cons_append]
      · rw [List.dropWhile_cons, if_neg hc]
        simp

theorem rstripCRLF_subset {l : Str} {c : Char} (h : c ∈ rstripCRLF l) : c ∈ l := by
  rw [rstripCRLF, List.mem_reverse] at h
  have h2 := (List.dropWhile_sublist _).subset h
  rwa [List.mem_reverse] at h2

theorem rstrip_not_marker (l : Str) (hsafe : ∀ c ∈ l, c ≠ '-' ∧ c ≠ '.') :
    rstripCRLF l ∉ closeMarkers := by
  intro hmem
  rw [closeMarkers] at hmem
  rcases List.mem_cons.mp hmem with h | h
  · have hm : '-' ∈ rstripCRLF l := by rw [h]; decide
    exact (hsafe '-' (rstripCRLF_subset hm)).1 rfl
  · rcases List.mem_cons.mp h with h2 | h2
    · have hm : '.' ∈ rstripCRLF l := by rw [h2]; decide
      exact (hsafe '.' (rstripCRLF_subset hm)).2 rfl
    · cases h2

theorem rstripCRLF_no_crlf (l : Str) (h : ∀ c ∈ l, c ≠ '\r' ∧ c ≠ '\n') :
    rstripCRLF l = l := by
  rw [rstripCRLF]
  have he : l.reverse.dropWhile (fun c => c == '\r' || c == '\n') = l.reverse := by
    cases hr : l.reverse with
    | nil => simp
    | cons c cs =>
      have hc : c ∈ l := by rw [← List.mem_reverse, hr]; exact .head _
      have hb : (c == '\r' || c == '\n') = false := by
        simp [(h c hc).1, (h c hc).2]
      rw [List.dropWhile_cons, hb]
      simp
  rw [he, List.reverse_reverse]

theorem rstripCRLF_append_nl (l : Str) : rstripCRLF (l ++ ['\n']) = rstripCRLF l := by
  rw [rstripCRLF, rstripCRLF, List.reverse_append,
    show (['\n'] : Str).reverse = ['\n'] from rfl, List.singleton_append,
    List.dropWhile_cons]
  simp

theorem rstripCRLF_append_crlf (l : Str) :
    rstripCRLF (l ++ ['\r', '\n']) = rstripCRLF l := by
  rw [rstripCRLF, rstripCRLF, List.reverse_append,
    show (['\r', '\n'] : Str).reverse = ['\n', '\r'] from rfl, List.cons_append,
    List.singleton_append, List.dropWhile_cons]
  simp [List.dropWhile_cons]

theorem dropWhile_head_false {p : Char → Bool} {l : Str}
    (h : ∀ x, l.head? = some x → p x = false) : l.dropWhile p = l := by
  cases l with
  | nil => rfl
  | cons c cs =>
    rw [List.dropWhile_cons, h c rfl]
    simp

theorem stripWs_head (v : Str) : ∀ x, (stripWs v).head? = some x → pyWs x = false := by
  intro x hx
  rw [stripWs, List.head?_reverse] at hx
  have hBne : (v.dropWhile pyWs).reverse.dropWhile pyWs ≠ [] := by
    intro hc
    rw [hc] at hx
    cases hx
  have h1 : ((v.dropWhile pyWs).reverse.dropWhile pyWs).getLast? =
      (v.dropWhile pyWs).reverse.getLast? := by
    conv_rhs =>
      rw [← List.takeWhile_append_dropWhile pyWs ((v.dropWhile pyWs).reverse)]
    rw [List.getLast?_append_of_ne_nil _ hBne]
  rw [h1, List.getLast?_reverse] at hx
  have h2 := List.head?_dropWhile_not pyWs v
  rw [hx] at h2
  simpa using h2

theorem stripWs_last (v : Str) : ∀ x, (stripWs v).getLast? = some x → pyWs x = false := by
  intro x hx
  rw [stripWs, List.getLast?_reverse] at hx
  have h2 := List.head?_dropWhile_not pyWs (v.dropWhile pyWs).reverse
  rw [hx] at h2
  simpa using h2

theorem stripWs_eq_self (u : Str) (hh : ∀ x, u.head? = some x → pyWs x = false)
    (hl : ∀ x, u.getLast? = some x → pyWs x = false) : stripWs u = u := by
  rw [stripWs, dropWhile_head_false hh, dropWhile_head_false ?_, List.reverse_reverse]
  intro x hx
  rw [List.head?_reverse] at hx
  exact hl x hx

theorem stripWs_idem (v : Str) : stripWs (stripWs v) = stripWs v :=
  stripWs_eq_self _ (stripWs_head v) (stripWs_last v)

theorem crlfOnly_getLast_ne_cr {s : Str} (hs : crlfOnly s = true) :
    s.getLast? ≠ some '\r' := by
  intro h
  obtain ⟨ys, hys⟩ := List.getLast?_eq_some_iff.mp h
  obtain ⟨y2, hy2⟩ := crlfOnly_pair hs (show s = ys ++ '\r' :: [] from hys)
  cases hy2

theorem hasCRLF_cons_ne {c : Char} (hc : c ≠ '\r') (r : Str) :
    hasCRLF (c :: r) = hasCRLF r := by
  rw [hasCRLF, show "\r\n".data = ['\r', '\n'] from by decide]
  have hb : ('\r' == c) = false := by
    cases h : ('\r' == c)
    · rfl
    · exact absurd (beq_iff_eq.mp h).symm hc
  simp [List.isPrefixOf, hb]

theorem hasCRLF_cr_nl (r : Str) : hasCRLF ('\r' :: '\n' :: r) = true := by
  rw [hasCRLF, show "\r\n".data = ['\r', '\n'] from by decide]
  simp [List.isPrefixOf]

theorem hasCRLF_append_no_cr : ∀ (a b : Str), (∀ c ∈ a, c ≠ '\r') →
    hasCRLF (a ++ b) = hasCRLF b := by
  intro a
  induction a with
  | nil => intro b _; rfl
  | cons c as ih =>
    intro b h
    rw [List.cons_append, hasCRLF_cons_ne (h c (.head _)),
      ih b (fun x hx => h x (.tail _ hx))]

theorem hasCRLF_suffix_false : ∀ (a b : Str), hasCRLF (a ++ b) = false →
    hasCRLF b = false := by
  intro a
  induction a with
  | nil => intro b h; exact h
  | cons c as ih =>
    intro b h
    rw [List.cons_append, hasCRLF] at h
    rw [Bool.or_eq_false_iff] at h
    exact ih b h.2

theorem matchLE_nl (t : Str) : matchLE ('\n' :: t) = some (['\n'], t) := by
  rw [matchLE.eq_def]
  simp

theorem matchLE_crlf (t : Str) : matchLE ('\r' :: '\n' :: t) = some (['\r', '\n'], t) := by
  rw [matchLE.eq_def]
  simp

theorem drop4_uuid (X : Str) : ("uuid".data ++ X).drop 4 = X := by
  rw [List.drop_append_of_le_length (by decide),
    show ("uuid".data : Str).drop 4 = [] from by decide, List.nil_append]

theorem matchUuidAt_planted (kws pws u tail : Str)
    (hkws : ∀ c ∈ kws, pyWs c = true) (hpws : ∀ c ∈ pws, pyWs c = true)
    (hune : u ≠ []) (huh : ∀ x, u.head? = some x → pyWs x = false)
    (hubf : ∀ c ∈ u, notCRLF c = true)
    (htail : tail = [] ∨ tail.head? = some '\n' ∨ ∃ t2, tail = '\r' :: '\n' :: t2) :
    ∃ le rest, matchLE tail = some (le, rest) ∧
      matchUuidAt ("uuid".data ++ kws ++ ':' :: (pws ++ (u ++ tail))) =
        some ⟨kws, pws, u, le, rest⟩ := by
  obtain ⟨h0, u', hu'⟩ : ∃ h0 u', u = h0 :: u' := by
    cases u with
    | nil => exact absurd rfl hune
    | cons a b => exact ⟨a, b, rfl⟩
  have hh0 : pyWs h0 = false := huh h0 (by rw [hu']; rfl)
  have hassoc : ("uuid".data ++ kws ++ ':' :: (pws ++ (u ++ tail))) =
      "uuid".data ++ (kws ++ ':' :: (pws ++ (u ++ tail))) := by
    rw [List.append_assoc]
  have hpre : "uuid".data.isPrefixOf
      ("uuid".data ++ kws ++ ':' :: (pws ++ (u ++ tail))) = true := by
    rw [hassoc, List.isPrefixOf_iff_prefix]
    exact List.prefix_append _ _
  have hdrop : (("uuid".data ++ kws ++ ':' :: (pws ++ (u ++ tail))).drop 4) =
      kws ++ ':' :: (pws ++ (u ++ tail)) := by
    rw [hassoc, drop4_uuid]
  have htw : (kws ++ ':' :: (pws ++ (u ++ tail))).takeWhile pyWs = kws := by
    rw [takeWhile_append_all kws _ hkws, List.takeWhile_cons, if_neg (by decide)]
    simp
  have hdw : (kws ++ ':' :: (pws ++ (u ++ tail))).dropWhile pyWs =
      ':' :: (pws ++ (u ++ tail)) := by
    rw [dropWhile_append_all kws _ hkws, List.dropWhile_cons, if_neg (by decide)]
  have hs3tw : (pws ++ (u ++ tail)).takeWhile pyWs = pws := by
    rw [takeWhile_append_all pws _ hpws, hu', List.cons_append, List.takeWhile_cons,
      if_neg (by rw [hh0]; simp)]
    simp
  have hs3dw : (pws ++ (u ++ tail)).dropWhile pyWs = u ++ tail := by
    rw [dropWhile_append_all pws _ hpws]
    refine dropWhile_head_false ?_
    intro x hx
    rw [List.head?_append_of_ne_nil u hune, hu'] at hx
    have hxh : h0 = x := by simpa using hx
    rw [← hxh]
    exact hh0
  have hvr : (u ++ tail).takeWhile notCRLF = u := by
    rw [takeWhile_append_all u _ hubf]
    rcases htail with h | h | ⟨t2, h⟩
    · rw [h]; simp
    · cases tail with
      | nil => simp at h
      | cons c t =>
        have hcn : c = '\n' := by simpa using h
        rw [hcn, List.takeWhile_cons, if_neg (by decide)]
        simp
    · rw [h, List.takeWhile_cons, if_neg (by decide)]
      simp
  have hvd : (u ++ tail).dropWhile notCRLF = tail := by
    rw [dropWhile_append_all u _ hubf]
    refine dropWhile_head_false ?_
    intro x hx
    rcases htail with h | h | ⟨t2, h⟩
    · rw [h] at hx; cases hx
    · have hxn : x = '\n' := Option.some.inj (hx.symm.trans h)
      rw [hxn]; rfl
    · rw [h] at hx
      have hxr : '\r' = x := by simpa using hx
      rw [← hxr]; rfl
  obtain ⟨le, rest, hml⟩ : ∃ le rest, matchLE tail = some (le, rest) := by
    rcases htail with h | h | ⟨t2, h⟩
    · rw [h]; exact ⟨[], [], rfl⟩
    · cases tail with
      | nil => simp at h
      | cons c t =>
        have hcn : c = '\n' := by simpa using h
        rw [hcn, matchLE_nl]
        exact ⟨['\n'], t, rfl⟩
    · rw [h, matchLE_crlf]
      exact ⟨['\r', '\n'], t2, rfl⟩
  have hpa : postAttempt pws (u ++ tail) pws.length = some (pws, u, le, rest) := by
    rw [postAttempt]
    dsimp only [takeValueRun]
    rw [List.drop_length, List.nil_append, List.take_length, hvr, hvd, hml]
    rfl
  have htc : tryPostColon pws (u ++ tail) pws.length = some (pws, u, le, rest) := by
    cases hlen : pws.length with
    | zero =>
      rw [hlen] at hpa
      rw [tryPostColon]
      exact hpa
    | succ k =>
      rw [hlen] at hpa
      rw [tryPostColon, hpa]
  refine ⟨le, rest, hml, ?_⟩
  rw [matchUuidAt, if_pos hpre]
  dsimp only
  rw [hdrop, htw, hdw]
  dsimp only
  rw [if_pos rfl, hs3tw, hs3dw, htc]

theorem matchUuidAt_some_of_colon {s : Str}
    (hcr : ∀ x y, s = x ++ '\r' :: y → ∃ y2, y = '\n' :: y2)
    (hp : "uuid".data.isPrefixOf s = true) {s3 : Str}
    (hd : (s.drop 4).dropWhile pyWs = ':' :: s3) :
    ∃ m, matchUuidAt s = some m := by
  have hs4 : s = "uuid".data ++ s.drop 4 := by
    obtain ⟨t, ht⟩ := List.isPrefixOf_iff_prefix.mp hp
    conv_lhs => rw [← ht]
    rw [← ht]
    simp
  have e3 : s.drop 4 = (s.drop 4).takeWhile pyWs ++ (':' :: s3) := by
    conv_lhs => rw [← List.takeWhile_append_dropWhile pyWs (s.drop 4)]
    rw [hd]
  have e1 : s3 = s3.takeWhile pyWs ++ s3.dropWhile pyWs :=
    (List.takeWhile_append_dropWhile pyWs s3).symm
  have hfa : ∃ v le rem,
      postAttempt (s3.takeWhile pyWs) (s3.dropWhile pyWs) (s3.takeWhile pyWs).length =
        some (s3.takeWhile pyWs, v, le, rem) := by
    rw [postAttempt]
    dsimp only [takeValueRun]
    rw [List.drop_length, List.nil_append, List.take_length]
    cases hml : (s3.dropWhile pyWs).dropWhile notCRLF with
    | nil =>
      exact ⟨(s3.dropWhile pyWs).takeWhile notCRLF, [], [], rfl⟩
    | cons e t =>
      by_cases he : e = '\n'
      · subst he
        exact ⟨(s3.dropWhile pyWs).takeWhile notCRLF, ['\n'], t, rfl⟩
      · have henot : notCRLF e = false := by
          have h2 := List.head?_dropWhile_not notCRLF (s3.dropWhile pyWs)
          rw [hml] at h2
          simpa using h2
        have her : e = '\r' := by
          simp only [notCRLF, Bool.not_eq_false', Bool.or_eq_true, beq_iff_eq] at henot
          rcases henot with h | h
          · exact h
          · exact absurd h he
        subst her
        have e2 : s3.dropWhile pyWs =
            (s3.dropWhile pyWs).takeWhile notCRLF ++ '\r' :: t := by
          conv_lhs =>
            rw [← List.takeWhile_append_dropWhile notCRLF (s3.dropWhile pyWs)]
          rw [hml]
        have hsv : s = ("uuid".data ++ ((s.drop 4).takeWhile pyWs ++
            (':' :: (s3.takeWhile pyWs ++ (s3.dropWhile pyWs).takeWhile notCRLF)))) ++
            '\r' :: t := by
          calc s = "uuid".data ++ s.drop 4 := hs4
            _ = "uuid".data ++ ((s.drop 4).takeWhile pyWs ++ (':' :: s3)) := by
                rw [← e3]
            _ = "uuid".data ++ ((s.drop 4).takeWhile pyWs ++
                (':' :: (s3.takeWhile pyWs ++ s3.dropWhile pyWs))) := by
                rw [← e1]
            _ = "uuid".data ++ ((s.drop 4).takeWhile pyWs ++
                (':' :: (s3.takeWhile pyWs ++
                  ((s3.dropWhile pyWs).takeWhile notCRLF ++ '\r' :: t)))) := by
                rw [← e2]
            _ = ("uuid".data ++ ((s.drop 4).takeWhile pyWs ++
                (':' :: (s3.takeWhile pyWs ++ (s3.dropWhile pyWs).takeWhile notCRLF)))) ++
                '\r' :: t := by
                simp [List.append_assoc]
        obtain ⟨y2, hy2⟩ := hcr _ _ hsv
        subst hy2
        exact ⟨(s3.dropWhile pyWs).takeWhile notCRLF, ['\r', '\n'], y2, rfl⟩
  obtain ⟨v, le, rem, hfa⟩ := hfa
  have htc : tryPostColon (s3.takeWhile pyWs) (s3.dropWhile pyWs)
      (s3.takeWhile pyWs).length = some (s3.takeWhile pyWs, v, le, rem) := by
    cases hlen : (s3.takeWhile pyWs).length with
    | zero =>
      rw [hlen] at hfa
      rw [tryPostColon]
      exact hfa
    | succ k =>
      rw [hlen] at hfa
      rw [tryPostColon, hfa]
  rw [matchUuidAt, if_pos hp]
  dsimp only
  rw [hd]
  dsimp only
  rw [if_pos rfl, htc]
  exact ⟨_, rfl⟩

theorem matchFail_transfer (P s1 s2 : Str) (hlen : 4 ≤ P.length)
    (c0 : Char) (hc0 : c0 ∈ P.drop 4) (hc0ws : pyWs c0 = false)
    (hcr : ∀ x y, P ++ s1 = x ++ '\r' :: y → ∃ y2, y = '\n' :: y2)
    (h1 : matchUuidAt (P ++ s1) = none) :
    matchUuidAt (P ++ s2) = none := by
  have hdr1 : (P ++ s1).drop 4 = P.drop 4 ++ s1 := List.drop_append_of_le_length hlen
  have hdr2 : (P ++ s2).drop 4 = P.drop 4 ++ s2 := List.drop_append_of_le_length hlen
  obtain ⟨hdw1, hne⟩ := dropWhile_append_not_all (P.drop 4) s1 c0 hc0 hc0ws
  obtain ⟨hdw2, -⟩ := dropWhile_append_not_all (P.drop 4) s2 c0 hc0 hc0ws
  have htake : (P ++ s1).take 4 = (P ++ s2).take 4 := by
    rw [List.take_append_of_le_length hlen, List.take_append_of_le_length hlen]
  by_cases hp2 : "uuid".data.isPrefixOf (P ++ s2)
  swap
  · rw [matchUuidAt, if_neg (by simpa using hp2)]
  · have hp2' : "uuid".data = (P ++ s2).take 4 := by
      have h3 := List.isPrefixOf_iff_prefix.mp hp2
      rw [List.prefix_iff_eq_take] at h3
      rw [show ("uuid".data : Str).length = 4 from rfl] at h3
      exact h3
    have hp1 : "uuid".data.isPrefixOf (P ++ s1) = true := by
      rw [List.isPrefixOf_iff_prefix, List.prefix_iff_eq_take,
        show ("uuid".data : Str).length = 4 from rfl, htake]
      exact hp2'
    cases hR : (P.drop 4).dropWhile pyWs with
    | nil => exact absurd hR hne
    | cons r0 R2 =>
      by_cases hr0 : r0 = ':'
      · exfalso
        have hd1 : ((P ++ s1).drop 4).dropWhile pyWs = ':' :: (R2 ++ s1) := by
          rw [hdr1, hdw1, hR, List.cons_append, hr0]
        obtain ⟨m, hm⟩ := matchUuidAt_some_of_colon hcr hp1 hd1
        rw [hm] at h1
        cases h1
      · rw [matchUuidAt, if_pos (by simpa using hp2)]
        dsimp only
        rw [hdr2, hdw2, hR, List.cons_append]
        dsimp only
        rw [if_neg hr0]

theorem uuidSkip_ne_self {acc t : Str} {m : UuidMatch}
    (h : uuidSkip acc t = some (acc, m)) : False := by
  obtain ⟨x, tail, hu, hpre, hlast, -⟩ := uuidSkip_decomp t acc acc m h
  have hl := congrArg List.length hpre
  simp only [List.length_append] at hl
  have hx : x = [] := List.eq_nil_of_length_eq_zero (by omega)
  rw [hx] at hlast
  cases hlast

theorem uuidSkip_transfer (T1 T2 : Str) (m m2 : UuidMatch)
    (_hT1 : matchUuidAt T1 = some m) (hT2 : matchUuidAt T2 = some m2) :
    ∀ (b acc : Str),
      (∀ x y, b = x ++ y → y ≠ [] → matchUuidAt (y ++ T1) = none →
        matchUuidAt (y ++ T2) = none) →
      uuidSkip acc (b ++ T1) = some (acc ++ b, m) → b ≠ [] →
      uuidSkip acc (b ++ T2) = some (acc ++ b, m2) := by
  intro b
  induction b with
  | nil => intro acc _ _ hne; exact absurd rfl hne
  | cons c b' ih =>
    intro acc htrans hskip hne
    rw [List.cons_append] at hskip ⊢
    rw [uuidSkip] at hskip ⊢
    by_cases hc : c = '\n'
    · rw [if_pos hc] at hskip ⊢
      by_cases hb : b' = []
      · subst hb
        rw [List.nil_append] at hskip ⊢
        rw [hT2]
      · cases hmt1 : matchUuidAt (b' ++ T1) with
        | some mm =>
          rw [hmt1] at hskip
          dsimp only at hskip
          have he := (Prod.mk.inj (Option.some.inj hskip)).1
          have he2 := List.append_cancel_left he
          cases b' with
          | nil => exact absurd rfl hb
          | cons e b2 => cases he2
        | none =>
          have hmt2 := htrans [c] b' rfl hb hmt1
          rw [hmt1] at hskip
          dsimp only at hskip
          rw [hmt2]
          dsimp only
          have hskip2 : uuidSkip (acc ++ [c]) (b' ++ T1) =
              some ((acc ++ [c]) ++ b', m) := by
            rw [hskip]
            simp
          have hfin := ih (acc ++ [c])
            (fun x y hxy => htrans (c :: x) y (by rw [hxy]; rfl)) hskip2 hb
          rw [hfin]
          simp
    · rw [if_neg hc] at hskip ⊢
      by_cases hb : b' = []
      · subst hb
        rw [List.nil_append] at hskip
        exfalso
        refine @uuidSkip_ne_self (acc ++ [c]) T1 m ?_
        exact hskip
      · have hskip2 : uuidSkip (acc ++ [c]) (b' ++ T1) =
            some ((acc ++ [c]) ++ b', m) := by
          rw [hskip]
          simp
        have hfin := ih (acc ++ [c])
          (fun x y hxy => htrans (c :: x) y (by rw [hxy]; rfl)) hskip2 hb
        rw [hfin]
        simp

theorem uuidSearch_transfer (pre T1 T2 : Str) (m m2 : UuidMatch)
    (hs : uuidSearch (pre ++ T1) = some (pre, m))
    (hT2 : matchUuidAt T2 = some m2)
    (htrans : ∀ x y, pre = x ++ y → y ≠ [] → matchUuidAt (y ++ T1) = none →
      matchUuidAt (y ++ T2) = none) :
    uuidSearch (pre ++ T2) = some (pre, m2) := by
  have hT1 : matchUuidAt T1 = some m := by
    obtain ⟨tail, hsplit, hmt, -⟩ := uuidSearch_decomp hs
    have : T1 = tail := List.append_cancel_left hsplit
    rw [this]
    exact hmt
  rw [uuidSearch] at hs ⊢
  cases hm1 : matchUuidAt (pre ++ T1) with
  | some mm =>
    rw [hm1] at hs
    dsimp only at hs
    have he := (Prod.mk.inj (Option.some.inj hs)).1
    have hpre : pre = [] := he.symm
    subst hpre
    rw [List.nil_append]
    rw [hT2]
  | none =>
    rw [hm1] at hs
    dsimp only at hs
    have hpre_ne : pre ≠ [] := by
      intro h
      subst h
      rw [List.nil_append] at hm1
      rw [hm1] at hT1
      cases hT1
    have hm2 : matchUuidAt (pre ++ T2) = none := htrans [] pre (by simp) hpre_ne hm1
    rw [hm2]
    dsimp only
    have hs2 : uuidSkip [] (pre ++ T1) = some ([] ++ pre, m) := by
      rw [hs]
      simp
    have hfin := uuidSkip_transfer T1 T2 m m2 hT1 hT2 pre [] htrans hs2 hpre_ne
    rw [hfin]
    simp

theorem rstripCRLF_append_cr (l : Str) : rstripCRLF (l ++ ['\r']) = rstripCRLF l := by
  rw [rstripCRLF, rstripCRLF, List.reverse_append,
    show (['\r'] : Str).reverse = ['\r'] from rfl, List.singleton_append,
    List.dropWhile_cons]
  simp

theorem scanClose_append_marker (A B : List Str) (l0 : Str)
    (hA : ∀ l ∈ A, rstripCRLF l ∉ closeMarkers) (hl0 : rstripCRLF l0 ∈ closeMarkers) :
    scanClose (A ++ l0 :: B) = some (A, B) := by
  induction A with
  | nil =>
    rw [List.nil_append, scanClose, if_pos hl0]
  | cons a A2 ih =>
    rw [List.cons_append, scanClose, if_neg (hA a (.head _)),
      ih (fun l hl => hA l (.tail _ hl))]
    rfl

theorem splitlinesAux_term_nil (t : Str) (ht : t = ['\n'] ∨ t = ['\r', '\n'])
    (acc : Str) (hyp : ∀ l ∈ splitlinesAux acc [], rstripCRLF l ∉ closeMarkers) :
    ∀ l ∈ splitlinesAux acc t, rstripCRLF l ∉ closeMarkers := by
  intro l hl
  have hstrip : rstripCRLF acc.reverse ∉ closeMarkers := by
    by_cases hacc : acc = []
    · subst hacc
      intro hmem
      revert hmem
      decide
    · refine hyp acc.reverse ?_
      rw [splitlinesAux, if_neg (by simpa using hacc)]
      exact .head _
  rcases ht with h | h
  · subst h
    have he : splitlinesAux acc ['\n'] = [acc.reverse ++ ['\n']] := by
      simp [splitlinesAux, isLineBreak]
    rw [he] at hl
    have hle : l = acc.reverse ++ ['\n'] := by simpa using hl
    rw [hle, rstripCRLF_append_nl]
    exact hstrip
  · subst h
    have he : splitlinesAux acc ['\r', '\n'] = [acc.reverse ++ ['\r', '\n']] := by
      simp [splitlinesAux]
    rw [he] at hl
    have hle : l = acc.reverse ++ ['\r', '\n'] := by simpa using hl
    rw [hle, rstripCRLF_append_crlf]
    exact hstrip

theorem splitlinesAux_append_term (t : Str) (ht : t = ['\n'] ∨ t = ['\r', '\n']) :
    ∀ (n : Nat) (s acc : Str), s.length ≤ n →
      (∀ l ∈ splitlinesAux acc s, rstripCRLF l ∉ closeMarkers) →
      ∀ l ∈ splitlinesAux acc (s ++ t), rstripCRLF l ∉ closeMarkers := by
  intro n
  induction n with
  | zero =>
    intro s acc hn hyp l hl
    have hs : s = [] := List.eq_nil_of_length_eq_zero (by omega)
    subst hs
    rw [List.nil_append] at hl
    exact splitlinesAux_term_nil t ht acc hyp l hl
  | succ n ihn =>
    intro s acc hn hyp l hl
    rcases s with _ | ⟨c, s2⟩
    · rw [List.nil_append] at hl
      exact splitlinesAux_term_nil t ht acc hyp l hl
    rw [List.cons_append] at hl
    by_cases hcr : c = '\r'
    · subst hcr
      have hcrline : rstripCRLF (acc.reverse ++ ['\r']) ∉ closeMarkers →
          rstripCRLF (acc.reverse ++ ['\r', '\n']) ∉ closeMarkers := by
        rw [rstripCRLF_append_cr, rstripCRLF_append_crlf]
        exact id
      cases s2 with
      | nil =>
        have hyp1 : rstripCRLF (acc.reverse ++ ['\r']) ∉ closeMarkers := by
          refine hyp _ ?_
          have he2 : splitlinesAux acc ['\r'] = [acc.reverse ++ ['\r']] := by
            simp [splitlinesAux]
          rw [he2]
          exact .head _
        rcases ht with h | h
        · subst h
          rw [List.nil_append] at hl
          have he : splitlinesAux acc ['\r', '\n'] = [acc.reverse ++ ['\r', '\n']] := by
            simp [splitlinesAux]
          rw [he] at hl
          have hle : l = acc.reverse ++ ['\r', '\n'] := by simpa using hl
          rw [hle]
          exact hcrline hyp1
        · subst h
          rw [List.nil_append] at hl
          have he : splitlinesAux acc ('\r' :: ['\r', '\n']) =
              [acc.reverse ++ ['\r'], ['\r', '\n']] := by
            simp [splitlinesAux]
          rw [he] at hl
          rcases List.mem_cons.mp hl with h1 | h1
          · rw [h1]
            exact hyp1
          · have hle : l = ['\r', '\n'] := by simpa using h1
            rw [hle]
            decide
      | cons d s3 =>
        by_cases hd : d = '\n'
        · subst hd
          have he1 : splitlinesAux acc ('\r' :: '\n' :: s3) =
              (acc.reverse ++ ['\r', '\n']) :: splitlinesAux [] s3 := by
            rw [splitlinesAux.eq_def]
            simp
          have he2 : splitlinesAux acc ('\r' :: '\n' :: (s3 ++ t)) =
              (acc.reverse ++ ['\r', '\n']) :: splitlinesAux [] (s3 ++ t) := by
            rw [splitlinesAux.eq_def]
            simp
          rw [List.cons_append] at hl
          rw [he2] at hl
          rw [he1] at hyp
          rcases List.mem_cons.mp hl with h1 | h1
          · rw [h1]
            exact hyp _ (.head _)
          · exact ihn s3 [] (by simp at hn; omega)
              (fun x hx => hyp x (.tail _ hx)) l h1
        · have he1 : splitlinesAux acc ('\r' :: d :: s3) =
              (acc.reverse ++ ['\r']) :: splitlinesAux [] (d :: s3) := by
            rw [splitlinesAux.eq_def]
            simp [hd]
          have he2 : splitlinesAux acc ('\r' :: ((d :: s3) ++ t)) =
              (acc.reverse ++ ['\r']) :: splitlinesAux [] ((d :: s3) ++ t) := by
            rw [splitlinesAux.eq_def]
            simp [hd]
          rw [show ('\r' :: (d :: s3 ++ t) : Str) = '\r' :: ((d :: s3) ++ t) from rfl,
            he2] at hl
          rw [he1] at hyp
          rcases List.mem_cons.mp hl with h1 | h1
          · rw [h1]
            exact hyp _ (.head _)
          · exact ihn (d :: s3) [] (by simp at hn ⊢; omega)
              (fun x hx => hyp x (.tail _ hx)) l h1
    · by_cases hbr : isLineBreak c = true
      · have he1 : splitlinesAux acc (c :: s2) =
            (acc.reverse ++ [c]) :: splitlinesAux [] s2 := by
          rw [splitlinesAux.eq_def]
          simp [hcr, hbr]
        have he2 : splitlinesAux acc (c :: (s2 ++ t)) =
            (acc.reverse ++ [c]) :: splitlinesAux [] (s2 ++ t) := by
          rw [splitlinesAux.eq_def]
          simp [hcr, hbr]
        rw [he2] at hl
        rw [he1] at hyp
        rcases List.mem_cons.mp hl with h1 | h1
        · rw [h1]
          exact hyp _ (.head _)
        · exact ihn s2 [] (by simp at hn; omega)
            (fun x hx => hyp x (.tail _ hx)) l h1
      · have he1 : splitlinesAux acc (c :: s2) = splitlinesAux (c :: acc) s2 := by
          rw [splitlinesAux.eq_def]
          simp [hcr, hbr]
        have he2 : splitlinesAux acc (c :: (s2 ++ t)) =
            splitlinesAux (c :: acc) (s2 ++ t) := by
          rw [splitlinesAux.eq_def]
          simp [hcr, hbr]
        rw [he2] at hl
        rw [he1] at hyp
        exact ihn s2 (c :: acc) (by simp at hn; omega) hyp l hl

theorem noMarker_append_term (s t : Str) (ht : t = ['\n'] ∨ t = ['\r', '\n'])
    (hs : ∀ l ∈ splitlines s, rstripCRLF l ∉ closeMarkers) :
    ∀ l ∈ splitlines (s ++ t), rstripCRLF l ∉ closeMarkers :=
  splitlinesAux_append_term t ht s.length s [] (Nat.le_refl _) hs

theorem mem_of_getLast {X : Str} {c : Char} (h : X.getLast? = some c) : c ∈ X := by
  obtain ⟨ys, hys⟩ := List.getLast?_eq_some_iff.mp h
  rw [hys]
  exact List.mem_append.mpr (Or.inr (.head _))

theorem block_last (P2 nl2 : Str) (hnl : nl2 = "\n".data ∨ nl2 = "\r\n".data)
    (hcr : P2.getLast? ≠ some '\r') :
    (if P2 ≠ [] ∧ ¬(P2.getLast? = some '\n' ∨ P2.getLast? = some '\r') then P2 ++ nl2
      else P2) = [] ∨
    (if P2 ≠ [] ∧ ¬(P2.getLast? = some '\n' ∨ P2.getLast? = some '\r') then P2 ++ nl2
      else P2).getLast? = some '\n' := by
  by_cases hc : P2 ≠ [] ∧ ¬(P2.getLast? = some '\n' ∨ P2.getLast? = some '\r')
  · right
    rw [if_pos hc, List.getLast?_append_of_ne_nil _ (by rcases hnl with h | h <;>
      rw [h] <;> decide)]
    rcases hnl with h | h <;> rw [h] <;> decide
  · rw [if_neg hc]
    push_neg at hc
    by_cases hP : P2 = []
    · exact Or.inl hP
    · rcases hc hP with h | h
      · exact Or.inr h
      · exact absurd h hcr

theorem reparse_out (nl2 BLK body : Str)
    (hnl : nl2 = "\n".data ∨ nl2 = "\r\n".data)
    (hblk : BLK = [] ∨ BLK.getLast? = some '\n')
    (hnm : ∀ l ∈ splitlines BLK, rstripCRLF l ∉ closeMarkers) :
    parse_frontmatter ("---".data ++ nl2 ++ BLK ++ "---".data ++ nl2 ++ body) =
      (true, BLK, body, "") := by
  have hm1 : splitlines ("---".data ++ nl2) = ["---".data ++ nl2] := by
    rcases hnl with h | h <;> rw [h] <;> decide
  have hm2 : rstripCRLF ("---".data ++ nl2) = "---".data := by
    rcases hnl with h | h <;> rw [h] <;> decide
  have hm3 : ("---".data ++ nl2).getLast? = some '\n' := by
    rcases hnl with h | h <;> rw [h] <;> decide
  have hre : "---".data ++ nl2 ++ BLK ++ "---".data ++ nl2 ++ body =
      ("---".data ++ nl2) ++ (BLK ++ (("---".data ++ nl2) ++ body)) := by
    simp [List.append_assoc]
  have hsp2 : splitlines (BLK ++ (("---".data ++ nl2) ++ body)) =
      splitlines BLK ++ (("---".data ++ nl2) :: splitlines body) := by
    rcases hblk with hb | hb
    · rw [hb, List.nil_append, splitlines_append_of_ends_lf _ _ hm3, hm1]
      rfl
    · rw [splitlines_append_of_ends_lf _ _ hb, splitlines_append_of_ends_lf _ _ hm3, hm1]
      rfl
  have hsp : splitlines ("---".data ++ nl2 ++ BLK ++ "---".data ++ nl2 ++ body) =
      ("---".data ++ nl2) :: (splitlines BLK ++ (("---".data ++ nl2) :: splitlines body)) := by
    rw [hre, splitlines_append_of_ends_lf _ _ hm3, hm1, hsp2, List.singleton_append]
  rw [parse_frontmatter, hsp]
  dsimp only
  rw [if_neg (fun hne => hne hm2)]
  rw [scanClose_append_marker _ _ _ hnm (by rw [hm2]; decide)]
  dsimp only
  rw [flatten_splitlines, flatten_splitlines]

theorem hasCRLF_out_lf (BLK body : Str) (hb : ∀ c ∈ BLK, c ≠ '\r')
    (hbody : hasCRLF body = false) :
    hasCRLF ("---".data ++ "\n".data ++ BLK ++ "---".data ++ "\n".data ++ body) =
      false := by
  have hre : "---".data ++ "\n".data ++ BLK ++ "---".data ++ "\n".data ++ body =
      ("---".data ++ ("\n".data ++ (BLK ++ ("---".data ++ "\n".data)))) ++ body := by
    simp [List.append_assoc]
  rw [hre, hasCRLF_append_no_cr _ _ ?_, hbody]
  intro c hc
  simp only [List.mem_append] at hc
  rcases hc with h | (h | (h | (h | h)))
  · simp at h; rw [h]; decide
  · simp at h; rw [h]; decide
  · exact hb c h
  · simp at h; rw [h]; decide
  · simp at h; rw [h]; decide

theorem detect_out_crlf (BLK body : Str) :
    detect_newline ("---".data ++ "\r\n".data ++ BLK ++ "---".data ++ "\r\n".data ++ body) =
      "\r\n".data := by
  rw [detect_newline, if_pos ?_]
  have hre : "---".data ++ "\r\n".data ++ BLK ++ "---".data ++ "\r\n".data ++ body =
      '-' :: '-' :: '-' :: '\r' :: '\n' ::
        (BLK ++ "---".data ++ "\r\n".data ++ body) := by
    simp [List.append_assoc]
  rw [hre, hasCRLF_cons_ne (by decide), hasCRLF_cons_ne (by decide),
    hasCRLF_cons_ne (by decide), hasCRLF_cr_nl]

theorem stripBom_dash (X : Str) : stripBom ("---".data ++ X) = "---".data ++ X := by
  refine stripBom_eq_of_head ?_
  rw [List.head?_append_of_ne_nil _ (by decide)]
  decide

theorem payload_discipline (payload0 d : Str) :
    ∀ x y, coerce_newlines payload0 (detect_newline (stripBom d)) = x ++ '\r' :: y →
      ∃ y2, y = '\n' :: y2 := by
  intro x y he
  cases hcl : hasCRLF (stripBom d) with
  | false =>
    rw [detect_newline, hcl] at he
    rw [if_neg (by decide)] at he
    exfalso
    have hmem : '\r' ∈ coerce_newlines payload0 "\n".data := by
      rw [he]
      exact List.mem_append.mpr (Or.inr (.head _))
    exact coerce_lf_no_cr payload0 '\r' hmem rfl
  | true =>
    rw [detect_newline, hcl] at he
    rw [if_pos (by decide)] at he
    exact crlfOnly_pair (crlfOnly_coerce payload0) he

theorem replace_mem (u : Str) {text pre : Str} {m : UuidMatch}
    (hs : uuidSearch text = some (pre, m)) :
    ∀ c ∈ (replace_first_uuid_value text u).1, c ∈ text ∨ c ∈ u := by
  obtain ⟨h1, h2⟩ := replace_first_shape u hs
  intro c hc
  rw [h2] at hc
  rcases List.mem_append.mp hc with h | h
  · left
    rw [h1]
    exact List.mem_append.mpr (Or.inl h)
  · rcases List.mem_append.mp h with h3 | h3
    · right; exact h3
    · left
      rw [h1]
      exact List.mem_append.mpr (Or.inr (List.mem_append.mpr (Or.inr h3)))

theorem parse_fm_suffix (t : Str) (hf : (parse_frontmatter t).1 = true)
    (he : (parse_frontmatter t).2.2.2 = "") :
    ∃ w, t = w ++ (parse_frontmatter t).2.2.1 := by
  cases hsp : splitlines t with
  | nil =>
    rw [parse_frontmatter, hsp] at hf
    cases hf
  | cons l0 rest =>
    by_cases hm : rstripCRLF l0 ≠ "---".data
    · rw [parse_frontmatter, hsp] at hf
      dsimp only at hf
      rw [if_pos hm] at hf
      simp at hf
    · cases hsc : scanClose rest with
      | none =>
        rw [parse_frontmatter, hsp] at he
        dsimp only at he
        rw [if_neg hm, hsc] at he
        dsimp only at he
        exact absurd he (by decide)
      | some q =>
        obtain ⟨preL, postL⟩ := q
        have hbody : (parse_frontmatter t).2.2.1 = postL.flatten := by
          rw [parse_frontmatter, hsp]
          dsimp only
          rw [if_neg hm, hsc]
        rw [hbody]
        obtain ⟨cl, hrest, -, -⟩ := scanClose_some hsc
        refine ⟨l0 ++ (preL.flatten ++ cl), ?_⟩
        conv_lhs => rw [← flatten_splitlines t, hsp]
        rw [List.flatten_cons, hrest, List.flatten_append, List.flatten_cons]
        simp [List.append_assoc]

theorem last_ne_cr_concat (A u le rest : Str) (hune : u ≠ [])
    (hul : ∀ x, u.getLast? = some x → pyWs x = false)
    (hshape : le = ['\n'] ∨ le = ['\r', '\n'] ∨ (le = [] ∧ rest = []))
    (hrest_last : rest ≠ [] → rest.getLast? ≠ some '\r') :
    (A ++ (u ++ (le ++ rest))).getLast? ≠ some '\r' := by
  by_cases hre : rest = []
  · subst hre
    rcases hshape with hle | hle | ⟨hle, -⟩
    · subst hle
      have h1 : (A ++ (u ++ (['\n'] ++ ([] : Str)))).getLast? = some '\n' := by
        rw [List.getLast?_append_of_ne_nil _ (by simp),
          List.getLast?_append_of_ne_nil _ (by simp)]
        rfl
      rw [h1]
      decide
    · subst hle
      have h1 : (A ++ (u ++ (['\r', '\n'] ++ ([] : Str)))).getLast? = some '\n' := by
        rw [List.getLast?_append_of_ne_nil _ (by simp),
          List.getLast?_append_of_ne_nil _ (by simp)]
        rfl
      rw [h1]
      decide
    · subst hle
      have h1 : (A ++ (u ++ (([] : Str) ++ ([] : Str)))).getLast? = u.getLast? := by
        rw [List.nil_append, List.append_nil, List.getLast?_append_of_ne_nil _ hune]
      rw [h1]
      intro hcon
      exact absurd (hul '\r' hcon) (by decide)
  · have h1 : (A ++ (u ++ (le ++ rest))).getLast? = rest.getLast? := by
      rw [List.getLast?_append_of_ne_nil _ (by simp [hre]),
        List.getLast?_append_of_ne_nil _ (by simp [hre]),
        List.getLast?_append_of_ne_nil _ hre]
    rw [h1]
    exact hrest_last hre

theorem head_out (nl2 BLK body : Str) :
    ("---".data ++ nl2 ++ BLK ++ "---".data ++ nl2 ++ body).head? = some '-' := by
  have hre : "---".data ++ nl2 ++ BLK ++ "---".data ++ nl2 ++ body =
      "---".data ++ (nl2 ++ (BLK ++ ("---".data ++ (nl2 ++ body)))) := by
    simp [List.append_assoc]
  rw [hre, List.head?_append_of_ne_nil _ (by decide)]
  decide

theorem detect_out (nl2 BLK body : Str)
    (hnl : nl2 = "\n".data ∨ nl2 = "\r\n".data)
    (hlf : nl2 = "\n".data → (∀ c ∈ BLK, c ≠ '\r') ∧ hasCRLF body = false) :
    detect_newline ("---".data ++ nl2 ++ BLK ++ "---".data ++ nl2 ++ body) = nl2 := by
  rcases hnl with h | h
  · subst h
    obtain ⟨hb, hbody⟩ := hlf rfl
    rw [detect_newline, hasCRLF_out_lf BLK body hb hbody, if_neg (by decide)]
  · subst h
    exact detect_out_crlf BLK body

theorem extract_block_replace (payload0d u : Str) {pre : Str} {m : UuidMatch}
    (hsr : uuidSearch payload0d = some (pre, m))
    (hdisc : ∀ x y, payload0d = x ++ '\r' :: y → ∃ y2, y = '\n' :: y2)
    (hune : u ≠ []) (huh : ∀ x, u.head? = some x → pyWs x = false)
    (hubf : ∀ c ∈ u, notCRLF c = true)
    (app : Str) (happ : app = [] ∨ app = "\n".data ∨ app = "\r\n".data) :
    ∃ m2 : UuidMatch, m2.value = u ∧
      uuidSearch ((replace_first_uuid_value payload0d u).1 ++ app) = some (pre, m2) := by
  obtain ⟨tail, hsplit, hmt, -⟩ := uuidSearch_decomp hsr
  obtain ⟨heq, hkws, hpws, hval, hshape⟩ := matchUuidAt_decomp hmt
  obtain ⟨hrepl_txt, hrepl⟩ := replace_first_shape u hsr
  have htail2 : m.line_end ++ (m.rest ++ app) = [] ∨
      (m.line_end ++ (m.rest ++ app)).head? = some '\n' ∨
      ∃ t2, m.line_end ++ (m.rest ++ app) = '\r' :: '\n' :: t2 := by
    rcases hshape with hle | hle | ⟨hle, hre⟩
    · right; left
      rw [hle, List.cons_append]
      rfl
    · right; right
      rw [hle, List.cons_append, List.cons_append]
      exact ⟨_, rfl⟩
    · rw [hle, hre, List.nil_append, List.nil_append]
      rcases happ with h | h | h
      · left; exact h
      · right; left
        rw [h, show ("\n".data : Str) = '\n' :: [] from by decide]
        rfl
      · right; right
        rw [h, show ("\r\n".data : Str) = '\r' :: '\n' :: [] from by decide]
        exact ⟨_, rfl⟩
  obtain ⟨le2, rest2, hml2, hm2⟩ := matchUuidAt_planted m.key_ws m.post_ws u
    (m.line_end ++ (m.rest ++ app)) hkws hpws hune huh hubf htail2
  have hT1 : matchUuidAt tail = some m := hmt
  have htrans : ∀ x y, pre = x ++ y → y ≠ [] → matchUuidAt (y ++ tail) = none →
      matchUuidAt (y ++ ("uuid".data ++ m.key_ws ++ ':' ::
        (m.post_ws ++ (u ++ (m.line_end ++ (m.rest ++ app)))))) = none := by
    intro x y hxy hyne hnone
    have h4len : ("uuid".data : Str).length = 4 := by decide
    have hlen : 4 ≤ ((y ++ "uuid".data) ++ (m.key_ws ++ ':' :: m.post_ws)).length := by
      simp only [List.length_append, h4len]
      omega
    have hc0 : ':' ∈ ((y ++ "uuid".data) ++ (m.key_ws ++ ':' :: m.post_ws)).drop 4 := by
      rw [List.drop_append_of_le_length (by simp only [List.length_append, h4len]; omega)]
      exact List.mem_append.mpr (Or.inr (List.mem_append.mpr (Or.inr (.head _))))
    have hPs1 : ((y ++ "uuid".data) ++ (m.key_ws ++ ':' :: m.post_ws)) ++
        (m.value ++ (m.line_end ++ m.rest)) = y ++ tail := by
      conv_rhs => rw [heq]
      simp [List.append_assoc]
    have hPs2 : ((y ++ "uuid".data) ++ (m.key_ws ++ ':' :: m.post_ws)) ++
        (u ++ (m.line_end ++ (m.rest ++ app))) =
        y ++ ("uuid".data ++ m.key_ws ++ ':' ::
          (m.post_ws ++ (u ++ (m.line_end ++ (m.rest ++ app))))) := by
      simp [List.append_assoc]
    have hcr : ∀ a b, ((y ++ "uuid".data) ++ (m.key_ws ++ ':' :: m.post_ws)) ++
        (m.value ++ (m.line_end ++ m.rest)) = a ++ '\r' :: b → ∃ b2, b = '\n' :: b2 := by
      intro a b hab
      rw [hPs1] at hab
      refine hdisc (x ++ a) b ?_
      rw [hsplit, hxy, List.append_assoc, hab, ← List.append_assoc]
    have hres := matchFail_transfer ((y ++ "uuid".data) ++ (m.key_ws ++ ':' :: m.post_ws))
      (m.value ++ (m.line_end ++ m.rest)) (u ++ (m.line_end ++ (m.rest ++ app)))
      hlen ':' hc0 (by decide) hcr (by rw [hPs1]; exact hnone)
    rw [hPs2] at hres
    exact hres
  have hs2 : uuidSearch (pre ++ tail) = some (pre, m) := by
    rw [← hsplit]
    exact hsr
  have hfin := uuidSearch_transfer pre tail
    ("uuid".data ++ m.key_ws ++ ':' :: (m.post_ws ++ (u ++ (m.line_end ++ (m.rest ++ app)))))
    m ⟨m.key_ws, m.post_ws, u, le2, rest2⟩ hs2 hm2 htrans
  refine ⟨⟨m.key_ws, m.post_ws, u, le2, rest2⟩, rfl, ?_⟩
  have hBLK : (replace_first_uuid_value payload0d u).1 ++ app =
      pre ++ ("uuid".data ++ m.key_ws ++ ':' ::
        (m.post_ws ++ (u ++ (m.line_end ++ (m.rest ++ app))))) := by
    rw [hrepl]
    simp [List.append_assoc]
  rw [hBLK]
  exact hfin

theorem extract_block_prepend (payload0d u nl2 : Str)
    (hnl : nl2 = "\n".data ∨ nl2 = "\r\n".data)
    (hune : u ≠ []) (huh : ∀ x, u.head? = some x → pyWs x = false)
    (hubf : ∀ c ∈ u, notCRLF c = true)
    (app : Str) (_happ : app = [] ∨ app = "\n".data ∨ app = "\r\n".data) :
    ∃ m2 : UuidMatch, m2.value = u ∧
      uuidSearch (prepend_uuid_line payload0d u nl2 ++ app) = some ([], m2) := by
  have htail2 : nl2 ++ (payload0d ++ app) = [] ∨
      (nl2 ++ (payload0d ++ app)).head? = some '\n' ∨
      ∃ t2, nl2 ++ (payload0d ++ app) = '\r' :: '\n' :: t2 := by
    rcases hnl with h | h
    · right; left
      rw [h, show ("\n".data : Str) = '\n' :: [] from by decide, List.cons_append]
      rfl
    · right; right
      rw [h, show ("\r\n".data : Str) = '\r' :: '\n' :: [] from by decide,
        List.cons_append, List.cons_append]
      exact ⟨_, rfl⟩
  obtain ⟨le2, rest2, hml2, hm2⟩ := matchUuidAt_planted [] [' '] u
    (nl2 ++ (payload0d ++ app)) (by simp) (by decide) hune huh hubf htail2
  refine ⟨⟨[], [' '], u, le2, rest2⟩, rfl, ?_⟩
  have heq : prepend_uuid_line payload0d u nl2 ++ app =
      "uuid".data ++ [] ++ ':' :: ([' '] ++ (u ++ (nl2 ++ (payload0d ++ app)))) := by
    rw [prepend_uuid_line,
      show ("uuid: ".data : Str) = "uuid".data ++ [':', ' '] from by decide]
    simp [List.append_assoc]
  rw [uuidSearch, heq, hm2]

/-- Claim C1 (corrected idempotence): a preservation-enabled run that succeeded
and kept an existing identifier is a fixed point of a second
preservation-enabled run with the same payload, provided the document's
extracted identifier is nonempty and no line of the rewritten payload block
(the identifier-substituted coerced payload, or the identifier-prepended one
when no payload `uuid` line exists) reduces to a closing marker after
stripping trailing CR/LF.  The unconditional claim is refuted by
`C1_counterexample`: a payload line that rstrips to `...` closes the second
run's front matter early and the second output differs. -/
theorem C1_idempotence (d p payload0 : Str) (g g2 : Str) (out1 : Str) (info1 : Info)
    (hok1 : transform_markdown d p true g = .ok (out1, info1))
    (hpres : info1.preserved_uuid = true)
    (hnorm : normalize_payload_text p = .ok payload0)
    (hune : ∀ v, extract_uuid_value (parse_frontmatter (stripBom d)).2.1 = some v →
      v ≠ [])
    (hA : ∀ v, extract_uuid_value (parse_frontmatter (stripBom d)).2.1 = some v →
      (∀ l ∈ splitlines ((replace_first_uuid_value
          (coerce_newlines payload0 (detect_newline (stripBom d))) v).1),
        rstripCRLF l ∉ closeMarkers) ∧
      (∀ l ∈ splitlines (prepend_uuid_line
          (coerce_newlines payload0 (detect_newline (stripBom d))) v
          (detect_newline (stripBom d))),
        rstripCRLF l ∉ closeMarkers)) :
    transform_markdown out1 p true g2 = .ok (out1, info1) := by
  rw [transform_markdown] at hok1
  dsimp only at hok1
  by_cases hpe : (parse_frontmatter (stripBom d)).2.2.2 ≠ ""
  · rw [if_pos hpe] at hok1
    have hi := (Prod.mk.inj (Except.ok.inj hok1)).2
    rw [← hi] at hpres
    simp at hpres
  rw [if_neg hpe] at hok1
  rw [hnorm] at hok1
  dsimp only at hok1
  have hperr : (parse_frontmatter (stripBom d)).2.2.2 = "" := not_not.mp hpe
  cases hex : (if (parse_frontmatter (stripBom d)).1 = true then
      extract_uuid_value (parse_frontmatter (stripBom d)).2.1 else none) with
  | none =>
    rw [hex] at hok1
    dsimp only at hok1
    exfalso
    cases hsr0 : uuidSearch (coerce_newlines payload0 (detect_newline (stripBom d))) with
    | some pm =>
      obtain ⟨pre0, m0⟩ := pm
      rw [hsr0] at hok1
      dsimp only at hok1
      by_cases htok : is_uuidv7_token m0.value = true
      · rw [if_pos htok] at hok1
        have hi := (Prod.mk.inj (Except.ok.inj hok1)).2
        rw [← hi] at hpres
        simp at hpres
      · rw [if_neg htok] at hok1
        have hi := (Prod.mk.inj (Except.ok.inj hok1)).2
        rw [← hi] at hpres
        simp at hpres
    | none =>
      rw [hsr0] at hok1
      dsimp only at hok1
      have hi := (Prod.mk.inj (Except.ok.inj hok1)).2
      rw [← hi] at hpres
      simp at hpres
  | some u0 =>
    rw [hex] at hok1
    dsimp only at hok1
    have hf1 : (parse_frontmatter (stripBom d)).1 = true := by
      by_cases h : (parse_frontmatter (stripBom d)).1 = true
      · exact h
      · rw [if_neg h] at hex
        cases hex
    have hexx : extract_uuid_value (parse_frontmatter (stripBom d)).2.1 = some u0 := by
      rw [if_pos hf1] at hex
      exact hex
    have hu_ne : u0 ≠ [] := hune u0 hexx
    have hu_bf : ∀ c ∈ u0, notCRLF c = true := by
      have hall := extract_uuid_bf hexx
      intro c hc
      exact List.all_eq_true.mp hall c hc
    have hu_strip : ∃ X, u0 = stripWs X := by
      rw [extract_uuid_value] at hexx
      cases hsx : uuidSearch (parse_frontmatter (stripBom d)).2.1 with
      | none => rw [hsx] at hexx; cases hexx
      | some q =>
        rw [hsx] at hexx
        simp only [Option.map_some'] at hexx
        exact ⟨q.2.value, (Option.some.inj hexx).symm⟩
    obtain ⟨X0, hX0⟩ := hu_strip
    have huh : ∀ x, u0.head? = some x → pyWs x = false := by
      rw [hX0]
      exact stripWs_head X0
    have hul : ∀ x, u0.getLast? = some x → pyWs x = false := by
      rw [hX0]
      exact stripWs_last X0
    have hu_stripid : stripWs u0 = u0 := by
      rw [hX0, stripWs_idem]
    have hdisc := payload_discipline payload0 d
    have hnl : detect_newline (stripBom d) = "\n".data ∨
        detect_newline (stripBom d) = "\r\n".data := by
      rw [detect_newline]
      by_cases h : hasCRLF (stripBom d) = true
      · rw [if_pos h]
        right
        rfl
      · rw [if_neg h]
        left
        rfl
    have hplast : (coerce_newlines payload0 (detect_newline (stripBom d))).getLast? ≠
        some '\r' := by
      intro hcon
      obtain ⟨ys, hys⟩ := List.getLast?_eq_some_iff.mp hcon
      obtain ⟨y2, hy2⟩ := hdisc ys [] (by rw [hys])
      cases hy2
    have hbody_sfx : ∃ w, stripBom d = w ++ (parse_frontmatter (stripBom d)).2.2.1 :=
      parse_fm_suffix _ hf1 hperr
    have hbody_lf : detect_newline (stripBom d) = "\n".data →
        hasCRLF (parse_frontmatter (stripBom d)).2.2.1 = false := by
      intro hlf2
      have hclf : hasCRLF (stripBom d) = false := by
        cases hcl : hasCRLF (stripBom d)
        · rfl
        · rw [detect_newline, hcl, if_pos rfl] at hlf2
          exact absurd hlf2 (by decide)
      obtain ⟨w, hw⟩ := hbody_sfx
      exact hasCRLF_suffix_false w _ (by rw [← hw]; exact hclf)
    have hu_nr : ∀ c ∈ u0, c ≠ '\r' := by
      intro c hc hcc
      subst hcc
      have hb := hu_bf '\r' hc
      simp [notCRLF] at hb
    cases hsr : uuidSearch (coerce_newlines payload0 (detect_newline (stripBom d))) with
    | some pm =>
      obtain ⟨pre, m⟩ := pm
      have hr2 : (replace_first_uuid_value
          (coerce_newlines payload0 (detect_newline (stripBom d))) u0).2 = true := by
        rw [replace_first_uuid_value, hsr]
      rw [hr2] at hok1
      rw [if_pos rfl] at hok1
      have hout := (Prod.mk.inj (Except.ok.inj hok1)).1
      have hinfo := (Prod.mk.inj (Except.ok.inj hok1)).2
      obtain ⟨tail, hsplit, hmt, -⟩ := uuidSearch_decomp hsr
      obtain ⟨heq, hkws, hpws, hval, hshape⟩ := matchUuidAt_decomp hmt
      obtain ⟨hrepl_txt, hrepl⟩ := replace_first_shape u0 hsr
      have hrl : m.rest ≠ [] → m.rest.getLast? ≠ some '\r' := by
        intro hre hcon
        apply hplast
        rw [hrepl_txt, List.getLast?_append_of_ne_nil _ (by simp [hre]),
          List.getLast?_append_of_ne_nil _ (by simp [hre]),
          List.getLast?_append_of_ne_nil _ hre]
        exact hcon
      have hp2last : ((replace_first_uuid_value
          (coerce_newlines payload0 (detect_newline (stripBom d))) u0).1).getLast? ≠
          some '\r' := by
        rw [hrepl]
        exact last_ne_cr_concat _ u0 m.line_end m.rest hu_ne hul hshape hrl
      have hnmP2 := (hA u0 hexx).1
      obtain ⟨app, happ, happN, hBLKapp⟩ : ∃ app,
          (app = [] ∨ app = "\n".data ∨ app = "\r\n".data) ∧
          (app = [] ∨ app = detect_newline (stripBom d)) ∧
          (if (replace_first_uuid_value
               (coerce_newlines payload0 (detect_newline (stripBom d))) u0).1 ≠ [] ∧
              ¬(((replace_first_uuid_value
                  (coerce_newlines payload0 (detect_newline (stripBom d))) u0).1).getLast? =
                    some '\n' ∨
                ((replace_first_uuid_value
                  (coerce_newlines payload0 (detect_newline (stripBom d))) u0).1).getLast? =
                    some '\r')
            then (replace_first_uuid_value
                (coerce_newlines payload0 (detect_newline (stripBom d))) u0).1 ++
              detect_newline (stripBom d)
            else (replace_first_uuid_value
              (coerce_newlines payload0 (detect_newline (stripBom d))) u0).1) =
            (replace_first_uuid_value
              (coerce_newlines payload0 (detect_newline (stripBom d))) u0).1 ++ app := by
        by_cases hbc : (replace_first_uuid_value
            (coerce_newlines payload0 (detect_newline (stripBom d))) u0).1 ≠ [] ∧
            ¬(((replace_first_uuid_value
                (coerce_newlines payload0 (detect_newline (stripBom d))) u0).1).getLast? =
                  some '\n' ∨
              ((replace_first_uuid_value
                (coerce_newlines payload0 (detect_newline (stripBom d))) u0).1).getLast? =
                  some '\r')
        · refine ⟨detect_newline (stripBom d), ?_, Or.inr rfl, by rw [if_pos hbc]⟩
          rcases hnl with h | h
          · exact Or.inr (Or.inl h)
          · exact Or.inr (Or.inr h)
        · exact ⟨[], Or.inl rfl, Or.inl rfl, by rw [if_neg hbc, List.append_nil]⟩
      have hnmB : ∀ l ∈ splitlines ((replace_first_uuid_value
          (coerce_newlines payload0 (detect_newline (stripBom d))) u0).1 ++ app),
          rstripCRLF l ∉ closeMarkers := by
        rcases happ with h | h | h
        · rw [h, List.append_nil]
          exact hnmP2
        · refine noMarker_append_term _ _ ?_ hnmP2
          rw [h]
          left
          decide
        · refine noMarker_append_term _ _ ?_ hnmP2
          rw [h]
          right
          decide
      have hnmBif := hBLKapp.symm ▸ hnmB
      have hblkif := block_last (replace_first_uuid_value
        (coerce_newlines payload0 (detect_newline (stripBom d))) u0).1
        (detect_newline (stripBom d)) hnl hp2last
      have hext2 : extract_uuid_value
          (if (replace_first_uuid_value
               (coerce_newlines payload0 (detect_newline (stripBom d))) u0).1 ≠ [] ∧
              ¬(((replace_first_uuid_value
                  (coerce_newlines payload0 (detect_newline (stripBom d))) u0).1).getLast? =
                    some '\n' ∨
                ((replace_first_uuid_value
                  (coerce_newlines payload0 (detect_newline (stripBom d))) u0).1).getLast? =
                    some '\r')
            then (replace_first_uuid_value
                (coerce_newlines payload0 (detect_newline (stripBom d))) u0).1 ++
              detect_newline (stripBom d)
            else (replace_first_uuid_value
              (coerce_newlines payload0 (detect_newline (stripBom d))) u0).1) =
          some u0 := by
        obtain ⟨m2, hm2v, hsrch⟩ := extract_block_replace
          (coerce_newlines payload0 (detect_newline (stripBom d))) u0 hsr hdisc
          hu_ne huh hu_bf app happ
        rw [extract_uuid_value, hBLKapp, hsrch]
        simp only [Option.map_some']
        rw [hm2v, hu_stripid]
      have hsb : stripBom out1 = out1 := by
        rw [← hout]
        refine stripBom_eq_of_head ?_
        rw [head_out]
        decide
      have hpf2 : parse_frontmatter out1 = (true,
          (if (replace_first_uuid_value
               (coerce_newlines payload0 (detect_newline (stripBom d))) u0).1 ≠ [] ∧
              ¬(((replace_first_uuid_value
                  (coerce_newlines payload0 (detect_newline (stripBom d))) u0).1).getLast? =
                    some '\n' ∨
                ((replace_first_uuid_value
                  (coerce_newlines payload0 (detect_newline (stripBom d))) u0).1).getLast? =
                    some '\r')
            then (replace_first_uuid_value
                (coerce_newlines payload0 (detect_newline (stripBom d))) u0).1 ++
              detect_newline (stripBom d)
            else (replace_first_uuid_value
              (coerce_newlines payload0 (detect_newline (stripBom d))) u0).1),
          (parse_frontmatter (stripBom d)).2.2.1, "") := by
        rw [← hout]
        exact reparse_out _ _ _ hnl hblkif hnmBif
      have hdet2 : detect_newline out1 = detect_newline (stripBom d) := by
        rw [← hout]
        refine detect_out _ _ _ hnl ?_
        intro hlf2
        refine ⟨?_, hbody_lf hlf2⟩
        intro c hc
        rw [hBLKapp] at hc
        rcases List.mem_append.mp hc with h | h
        · rcases replace_mem u0 hsr c h with h2 | h2
          · rw [hlf2] at h2
            exact coerce_lf_no_cr payload0 c h2
          · exact hu_nr c h2
        · rcases happN with ha | ha
          · rw [ha] at h
            cases h
          · rw [ha, hlf2] at h
            have hcn : c = '\n' := by simpa using h
            rw [hcn]
            decide
      rw [transform_markdown]
      dsimp only
      rw [hsb, hpf2]
      dsimp only
      rw [if_neg (by simp)]
      rw [hnorm]
      dsimp only
      rw [hdet2]
      rw [if_pos rfl]
      rw [hext2]
      dsimp only
      rw [hr2]
      rw [if_pos rfl]
      rw [hout]
      rw [hf1] at hinfo
      rw [hinfo]
    | none =>
      have hr0 : replace_first_uuid_value
          (coerce_newlines payload0 (detect_newline (stripBom d))) u0 =
          (coerce_newlines payload0 (detect_newline (stripBom d)), false) := by
        rw [replace_first_uuid_value, hsr]
      rw [hr0] at hok1
      dsimp only at hok1
      rw [if_neg Bool.false_ne_true] at hok1
      have hout := (Prod.mk.inj (Except.ok.inj hok1)).1
      have hinfo := (Prod.mk.inj (Except.ok.inj hok1)).2
      have hsafe1 : ∀ c ∈ ("uuid: ".data : Str), c ≠ '\r' := by decide
      have hp2last : (prepend_uuid_line
          (coerce_newlines payload0 (detect_newline (stripBom d))) u0
          (detect_newline (stripBom d))).getLast? ≠ some '\r' := by
        rw [prepend_uuid_line]
        by_cases hpe2 : coerce_newlines payload0 (detect_newline (stripBom d)) = []
        · rw [hpe2, List.append_nil]
          rw [List.getLast?_append_of_ne_nil _
            (by rcases hnl with h | h <;> rw [h] <;> decide)]
          rcases hnl with h | h <;> rw [h] <;> decide
        · rw [List.getLast?_append_of_ne_nil _ hpe2]
          exact hplast
      have hnmP2 := (hA u0 hexx).2
      obtain ⟨app, happ, happN, hBLKapp⟩ : ∃ app,
          (app = [] ∨ app = "\n".data ∨ app = "\r\n".data) ∧
          (app = [] ∨ app = detect_newline (stripBom d)) ∧
          (if prepend_uuid_line
               (coerce_newlines payload0 (detect_newline (stripBom d))) u0
               (detect_newline (stripBom d)) ≠ [] ∧
              ¬((prepend_uuid_line
                  (coerce_newlines payload0 (detect_newline (stripBom d))) u0
                  (detect_newline (stripBom d))).getLast? = some '\n' ∨
                (prepend_uuid_line
                  (coerce_newlines payload0 (detect_newline (stripBom d))) u0
                  (detect_newline (stripBom d))).getLast? = some '\r')
            then prepend_uuid_line
                (coerce_newlines payload0 (detect_newline (stripBom d))) u0
                (detect_newline (stripBom d)) ++ detect_newline (stripBom d)
            else prepend_uuid_line
              (coerce_newlines payload0 (detect_newline (stripBom d))) u0
              (detect_newline (stripBom d))) =
            prepend_uuid_line
              (coerce_newlines payload0 (detect_newline (stripBom d))) u0
              (detect_newline (stripBom d)) ++ app := by
        by_cases hbc : prepend_uuid_line
            (coerce_newlines payload0 (detect_newline (stripBom d))) u0
            (detect_newline (stripBom d)) ≠ [] ∧
            ¬((prepend_uuid_line
                (coerce_newlines payload0 (detect_newline (stripBom d))) u0
                (detect_newline (stripBom d))).getLast? = some '\n' ∨
              (prepend_uuid_line
                (coerce_newlines payload0 (detect_newline (stripBom d))) u0
                (detect_newline (stripBom d))).getLast? = some '\r')
        · refine ⟨detect_newline (stripBom d), ?_, Or.inr rfl, by rw [if_pos hbc]⟩
          rcases hnl with h | h
          · exact Or.inr (Or.inl h)
          · exact Or.inr (Or.inr h)
        · exact ⟨[], Or.inl rfl, Or.inl rfl, by rw [if_neg hbc, List.append_nil]⟩
      have hnmB : ∀ l ∈ splitlines (prepend_uuid_line
          (coerce_newlines payload0 (detect_newline (stripBom d))) u0
          (detect_newline (stripBom d)) ++ app),
          rstripCRLF l ∉ closeMarkers := by
        rcases happ with h | h | h
        · rw [h, List.append_nil]
          exact hnmP2
        · refine noMarker_append_term _ _ ?_ hnmP2
          rw [h]
          left
          decide
        · refine noMarker_append_term _ _ ?_ hnmP2
          rw [h]
          right
          decide
      have hnmBif := hBLKapp.symm ▸ hnmB
      have hblkif := block_last (prepend_uuid_line
        (coerce_newlines payload0 (detect_newline (stripBom d))) u0
        (detect_newline (stripBom d))) (detect_newline (stripBom d)) hnl hp2last
      have hext2 : extract_uuid_value
          (if prepend_uuid_line
               (coerce_newlines payload0 (detect_newline (stripBom d))) u0
               (detect_newline (stripBom d)) ≠ [] ∧
              ¬((prepend_uuid_line
                  (coerce_newlines payload0 (detect_newline (stripBom d))) u0
                  (detect_newline (stripBom d))).getLast? = some '\n' ∨
                (prepend_uuid_line
                  (coerce_newlines payload0 (detect_newline (stripBom d))) u0
                  (detect_newline (stripBom d))).getLast? = some '\r')
            then prepend_uuid_line
                (coerce_newlines payload0 (detect_newline (stripBom d))) u0
                (detect_newline (stripBom d)) ++ detect_newline (stripBom d)
            else prepend_uuid_line
              (coerce_newlines payload0 (detect_newline (stripBom d))) u0
              (detect_newline (stripBom d))) = some u0 := by
        obtain ⟨m2, hm2v, hsrch⟩ := extract_block_prepend
          (coerce_newlines payload0 (detect_newline (stripBom d))) u0
          (detect_newline (stripBom d)) hnl hu_ne huh hu_bf app happ
        rw [extract_uuid_value, hBLKapp, hsrch]
        simp only [Option.map_some']
        rw [hm2v, hu_stripid]
      have hsb : stripBom out1 = out1 := by
        rw [← hout]
        refine stripBom_eq_of_head ?_
        rw [head_out]
        decide
      have hpf2 : parse_frontmatter out1 = (true,
          (if prepend_uuid_line
               (coerce_newlines payload0 (detect_newline (stripBom d))) u0
               (detect_newline (stripBom d)) ≠ [] ∧
              ¬((prepend_uuid_line
                  (coerce_newlines payload0 (detect_newline (stripBom d))) u0
                  (detect_newline (stripBom d))).getLast? = some '\n' ∨
                (prepend_uuid_line
                  (coerce_newlines payload0 (detect_newline (stripBom d))) u0
                  (detect_newline (stripBom d))).getLast? = some '\r')
            then prepend_uuid_line
                (coerce_newlines payload0 (detect_newline (stripBom d))) u0
                (detect_newline (stripBom d)) ++ detect_newline (stripBom d)
            else prepend_uuid_line
              (coerce_newlines payload0 (detect_newline (stripBom d))) u0
              (detect_newline (stripBom d))),
          (parse_frontmatter (stripBom d)).2.2.1, "") := by
        rw [← hout]
        exact reparse_out _ _ _ hnl hblkif hnmBif
      have hdet2 : detect_newline out1 = detect_newline (stripBom d) := by
        rw [← hout]
        refine detect_out _ _ _ hnl ?_
        intro hlf2
        refine ⟨?_, hbody_lf hlf2⟩
        intro c hc
        rw [hBLKapp] at hc
        rcases List.mem_append.mp hc with h | h
        · rw [prepend_uuid_line] at h
          rcases List.mem_append.mp h with h2 | h2
          · rcases List.mem_append.mp h2 with h3 | h3
            · rcases List.mem_append.mp h3 with h4 | h4
              · exact hsafe1 c h4
              · exact hu_nr c h4
            · rw [hlf2] at h3
              have hcn : c = '\n' := by simpa using h3
              rw [hcn]
              decide
          · rw [hlf2] at h2
            exact coerce_lf_no_cr payload0 c h2
        · rcases happN with ha | ha
          · rw [ha] at h
            cases h
          · rw [ha, hlf2] at h
            have hcn : c = '\n' := by simpa using h
            rw [hcn]
            decide
      rw [transform_markdown]
      dsimp only
      rw [hsb, hpf2]
      dsimp only
      rw [if_neg (by simp)]
      rw [hnorm]
      dsimp only
      rw [hdet2]
      rw [if_pos rfl]
      rw [hext2]
      dsimp only
      rw [hr0]
      dsimp only
      rw [if_neg Bool.false_ne_true]
      rw [hout]
      rw [hf1] at hinfo
      rw [hinfo]

/-- The original C1 claim is false: with payload text `x: 1\n...\ny: 2`
(normalization succeeds) and document `Body\n`, the first
preservation-enabled run emits `---\nx: 1\n...\ny: 2\n---\nBody\n`, but the
payload line `...` closes the second run's front matter early, so the second
output gains an extra `y: 2\n---\n` segment regardless of the generated
identifiers: the transform is not idempotent. -/
theorem C1_counterexample :
    (∃ q, normalize_payload_text "x: 1\n...\ny: 2".data = .ok q) ∧
    ∀ g g2 : Str,
      transformText (transform_markdown "Body\n".data "x: 1\n...\ny: 2".data true g) =
        some "---\nx: 1\n...\ny: 2\n---\nBody\n".data ∧
      transformText (transform_markdown "---\nx: 1\n...\ny: 2\n---\nBody\n".data
          "x: 1\n...\ny: 2".data true g2) ≠
        some "---\nx: 1\n...\ny: 2\n---\nBody\n".data := by
  refine ⟨⟨"x: 1\n...\ny: 2".data, rfl⟩, ?_⟩
  intro g g2
  refine ⟨rfl, ?_⟩
  rw [show transform_markdown "---\nx: 1\n...\ny: 2\n---\nBody\n".data
      "x: 1\n...\ny: 2".data true g2 =
      .ok ("---\nx: 1\n...\ny: 2\n---\ny: 2\n---\nBody\n".data,
        ⟨true, false, false, false, ""⟩) from rfl]
  decide

theorem C1_idempotence_witness :
    transform_markdown "---\nuuid: abc\ntitle: x\n---\nBody\n".data
      "uuid: {uuidv7}\ntitle: x\n".data true [] =
      .ok ("---\nuuid: abc\ntitle: x\n---\nBody\n".data,
        ⟨true, true, false, false, ""⟩) :=
  C1_idempotence "---\nuuid: abc\n---\nBody\n".data
    "uuid: {uuidv7}\ntitle: x\n".data "uuid: {uuidv7}\ntitle: x\n".data [] []
    "---\nuuid: abc\ntitle: x\n---\nBody\n".data ⟨true, true, false, false, ""⟩
    rfl rfl rfl
    (by
      intro v hv
      rw [show extract_uuid_value (parse_frontmatter (stripBom
        "---\nuuid: abc\n---\nBody\n".data)).2.1 = some "abc".data from rfl] at hv
      rw [← Option.some.inj hv]
      decide)
    (by
      intro v hv
      rw [show extract_uuid_value (parse_frontmatter (stripBom
        "---\nuuid: abc\n---\nBody\n".data)).2.1 = some "abc".data from rfl] at hv
      rw [← Option.some.inj hv]
      decide)

theorem C4_column_zero_witness :
    uuidSearch "meta:\n  uuid: nested\nother: 1\n".data = none ∧
    extract_uuid_value "meta:\n  uuid: nested\nother: 1\n".data = none ∧
    replace_first_uuid_value "meta:\n  uuid: nested\nother: 1\n".data "X".data =
      ("meta:\n  uuid: nested\nother: 1\n".data, false) ∧
    (∀ (t pre : Str) (m : UuidMatch), uuidSearch t = some (pre, m) →
      pre = [] ∨ pre.getLast? = some '\n') :=
  C4_column_zero "meta:\n  uuid: nested\nother: 1\n".data "X".data (by decide)

end YamlInjektr
